import Mathlib

/-!
# RlogC: rank, heap and keyed cache

A shallow embedding of `rlogc/rlogc.go`, `rlogc/heap.go` and `cache/cache.go`,
together with the loops of Go's `container/heap` that `heap.go` calls.

Reading conventions.

* `float64` values (`LogC`, `Decay`) are read as elements of a linearly ordered ring `α`
  (the reals for the analytic statements), with exact arithmetic; such a ring has no
  infinite element, so `IsInf` is never true and `fcompare` takes its default branch.
* `int64` ticks are integers and the two subtractions of ticks, `now - hc.Time` in
  `Access` and `a.Time - b.Time` in `Compare`, are reduced to the range of `int64` by
  `wrap64`, as the machine does.  Statements that need the exact difference say so
  (`tickFits`, `TicksFit`, `NowFits`, `TimerFits`).
* A key of the Go map `index` is a value of a type `K`; Go's `==` on keys is `BEq K`,
  which need not be reflexive (a floating-point NaN is not equal to itself).  `K` holds
  hashable keys only.  The map is kept as its read function: an entry written under a key
  that is not equal to itself is found by no read.
* `container/heap` is Go's standard library; `up`, `down`, `Push`, `Pop`, `Remove` and
  `Fix` are transcribed from its source.
* A pointer `*Element` is an address `Nat`; the structs live in `RlogcHeap.elems`.
  Only one heap is modelled, so `Element.parent` is a flag: set means "this heap".
* A Go runtime failure (index out of range, nil dereference, write to a nil map) is `none`.
* `Timer` is a closure with hidden state: `Timer n` is the value of its `n`-th call
  (counting from `0`) and `ticks` counts the calls made so far.
* The loops of `container/heap` take a fuel argument; the callers pass more than the
  loops can use.
-/

set_option linter.unusedSectionVars false
set_option maxRecDepth 8000

namespace Rlogc

/-! ## rlogc.go -/

/-- Rank of an entry: `type HC struct { LogC float64; Time int64 }`. -/
structure HC (α : Type) where
  LogC : α
  Time : Int

/-- The stable logarithmic increment `F` of rlogc.go, on the reals. -/
noncomputable def F (n : ℝ) : ℝ :=
  max 0 n + Real.log (Real.exp (-|n|) + 1)

/-- Two's-complement reduction of an integer to the range of `int64`. -/
def wrap64 (x : Int) : Int :=
  (x + 2 ^ 63) % 2 ^ 64 - 2 ^ 63

/-- Method `HC.Enter`: count one in log space, stamped `now`. -/
def HC.Enter {α : Type} [LinearOrderedRing α] (_hc : HC α) (now : Int) (_decay : α) : HC α :=
  { LogC := 0, Time := now }

/-- Method `HC.Access`: decay by the elapsed ticks, then increment with `incr`
(the function `F` of rlogc.go); the elapsed ticks `now-hc.Time` are an `int64`
subtraction. -/
def HC.Access {α : Type} [LinearOrderedRing α] (incr : α → α) (hc : HC α) (now : Int)
    (decay : α) : HC α :=
  let l := hc.LogC + ((wrap64 (now - hc.Time) : Int) : α) * decay
  { LogC := incr l, Time := now }

/-- The test `math.IsInf(f, sign)`: an ordered ring has no infinite element. -/
def IsInf {α : Type} [LinearOrderedRing α] (_f : α) (_sign : Int) : Bool :=
  false

/-- Function `fcompare`: `0` for two infinities of the same sign, else `a - b`. -/
def fcompare {α : Type} [LinearOrderedRing α] (a b : α) : α :=
  if (IsInf a 1 && IsInf b 1) || (IsInf a (-1) && IsInf b (-1)) then 0 else a - b

/-- Method `HC.Compare`: sign of the decayed difference; the tick difference
`a.Time-b.Time` is an `int64` subtraction. -/
def HC.Compare {α : Type} [LinearOrderedRing α] (a b : HC α) (decay : α) : Int :=
  let ldiff := fcompare a.LogC b.LogC
  let ldiff := ldiff - ((wrap64 (a.Time - b.Time) : Int) : α) * decay
  if ldiff < 0 then -1 else if ldiff > 0 then 1 else 0

/-! ## heap.go: data -/

/-- Cache element: `type Element struct { parent; UserData [2]unsafe.Pointer; rank; index }`. -/
structure Element (α : Type) where
  parent : Bool
  UserData : Option Nat × Option Nat
  rank : HC α
  index : Int

/-- The zero value of `Element`, as returned by `new`. -/
def Element.zero {α : Type} [LinearOrderedRing α] : Element α :=
  { parent := false, UserData := (none, none), rank := { LogC := 0, Time := 0 }, index := 0 }

/-- Heap state: `type RlogcHeap struct { Decay; Timer; queue }` plus the element memory. -/
structure RlogcHeap (α : Type) where
  Decay : α
  Timer : Nat → Int
  ticks : Nat
  queue : List Nat
  elems : Nat → Element α

/-- Memory write at one address. -/
def upd {β : Type} (m : Nat → β) (p : Nat) (v : β) : Nat → β :=
  fun x => if x = p then v else m x

/-- Slice read `e[i]`: fails outside `0 <= i < len(e)`. -/
def elemHeap.get {α : Type} (s : RlogcHeap α) (i : Int) : Option Nat :=
  if i < 0 then none else s.queue[i.toNat]?

/-- Method `elemHeap.Len`. -/
def elemHeap.Len {α : Type} (s : RlogcHeap α) : Int :=
  s.queue.length

/-- Method `elemHeap.Less`: reads `ei.parent.Decay`, so `ei` must be attached. -/
def elemHeap.Less {α : Type} [LinearOrderedRing α] (s : RlogcHeap α) (i j : Int) :
    Option Bool :=
  match elemHeap.get s i, elemHeap.get s j with
  | some ei, some ej =>
    if (s.elems ei).parent then
      some (decide ((s.elems ei).rank.Compare (s.elems ej).rank s.Decay < 0))
    else none
  | _, _ => none

/-- Method `elemHeap.Swap`: `ej.index = i; ei.index = j; e[i] = ej; e[j] = ei`. -/
def elemHeap.Swap {α : Type} (s : RlogcHeap α) (i j : Int) : Option (RlogcHeap α) :=
  match elemHeap.get s i, elemHeap.get s j with
  | some ei, some ej =>
    let m1 := upd s.elems ej { s.elems ej with index := i }
    let m2 := upd m1 ei { m1 ei with index := j }
    some { s with elems := m2, queue := (s.queue.set i.toNat ej).set j.toNat ei }
  | _, _ => none

/-- Method `elemHeap.Push`: `el.index = len(e); *pe = append(e, el)`. -/
def elemHeap.Push {α : Type} (s : RlogcHeap α) (x : Nat) : RlogcHeap α :=
  { s with
    elems := upd s.elems x { s.elems x with index := s.queue.length }
    queue := s.queue ++ [x] }

/-- Method `elemHeap.Pop`: drop the last slot and mark its element `index = -1`. -/
def elemHeap.Pop {α : Type} (s : RlogcHeap α) : Option (Nat × RlogcHeap α) :=
  let i : Int := (s.queue.length : Int) - 1
  if i < 0 then none else
    match s.queue[i.toNat]? with
    | some el =>
      some (el, { s with
        queue := s.queue.take i.toNat
        elems := upd s.elems el { s.elems el with index := -1 } })
    | none => none

/-! ## container/heap -/

/-- Loop of `heap.up`: `i := (j-1)/2; if i == j || !h.Less(j, i) { break }; h.Swap(i, j); j = i`. -/
def heap.up {α : Type} [LinearOrderedRing α] : Nat → RlogcHeap α → Int → Option (RlogcHeap α)
  | 0, _, _ => none
  | fuel + 1, s, j =>
    let i := Int.tdiv (j - 1) 2
    if i = j then some s else
      match elemHeap.Less s j i with
      | none => none
      | some false => some s
      | some true =>
        match elemHeap.Swap s i j with
        | none => none
        | some s1 => heap.up fuel s1 i

/-- Loop of `heap.down`, returning the final position `i` with the state. -/
def heap.downLoop {α : Type} [LinearOrderedRing α] (n : Int) :
    Nat → RlogcHeap α → Int → Option (Int × RlogcHeap α)
  | 0, _, _ => none
  | fuel + 1, s, i =>
    let j1 := 2 * i + 1
    if j1 ≥ n ∨ j1 < 0 then some (i, s) else
      let j2 := j1 + 1
      match (if j2 < n then elemHeap.Less s j2 j1 else some false) with
      | none => none
      | some c =>
        let j := if c then j2 else j1
        match elemHeap.Less s j i with
        | none => none
        | some false => some (i, s)
        | some true =>
          match elemHeap.Swap s i j with
          | none => none
          | some s1 => heap.downLoop n fuel s1 j

/-- Function `heap.down(h, i0, n)`: reports whether the element moved (`i > i0`). -/
def heap.down {α : Type} [LinearOrderedRing α] (s : RlogcHeap α) (i0 n : Int) :
    Option (Bool × RlogcHeap α) :=
  match heap.downLoop n (s.queue.length + 1) s i0 with
  | some (i, s1) => some (decide (i > i0), s1)
  | none => none

/-- Function `heap.Push`: `h.Push(x); up(h, h.Len()-1)`. -/
def heap.Push {α : Type} [LinearOrderedRing α] (s : RlogcHeap α) (x : Nat) :
    Option (RlogcHeap α) :=
  let s1 := elemHeap.Push s x
  heap.up (s1.queue.length + 1) s1 (elemHeap.Len s1 - 1)

/-- Function `heap.Pop`: `n := h.Len()-1; h.Swap(0, n); down(h, 0, n); return h.Pop()`. -/
def heap.Pop {α : Type} [LinearOrderedRing α] (s : RlogcHeap α) :
    Option (Nat × RlogcHeap α) :=
  let n := elemHeap.Len s - 1
  match elemHeap.Swap s 0 n with
  | none => none
  | some s1 =>
    match heap.down s1 0 n with
    | none => none
    | some (_, s2) => elemHeap.Pop s2

/-- Function `heap.Remove`: swap slot `i` with the last, re-sift, pop. -/
def heap.Remove {α : Type} [LinearOrderedRing α] (s : RlogcHeap α) (i : Int) :
    Option (Nat × RlogcHeap α) :=
  let n := elemHeap.Len s - 1
  if n ≠ i then
    match elemHeap.Swap s i n with
    | none => none
    | some s1 =>
      match heap.down s1 i n with
      | none => none
      | some (true, s2) => elemHeap.Pop s2
      | some (false, s2) =>
        match heap.up (s2.queue.length + 1) s2 i with
        | none => none
        | some s3 => elemHeap.Pop s3
  else elemHeap.Pop s

/-- Function `heap.Fix`: `if !down(h, i, h.Len()) { up(h, i) }`. -/
def heap.Fix {α : Type} [LinearOrderedRing α] (s : RlogcHeap α) (i : Int) :
    Option (RlogcHeap α) :=
  match heap.down s i (elemHeap.Len s) with
  | none => none
  | some (true, s1) => some s1
  | some (false, s1) => heap.up (s1.queue.length + 1) s1 i

/-! ## heap.go: operations -/

/-- An empty heap with the given parameters; every address holds a zero `Element`. -/
def RlogcHeap.empty {α : Type} [LinearOrderedRing α] (decay : α) (timer : Nat → Int) :
    RlogcHeap α :=
  { Decay := decay, Timer := timer, ticks := 0, queue := [], elems := fun _ => Element.zero }

/-- Modelled from the spec: `Heap.len()`, the number of queued elements.  cache.go calls
`c.heap.Len()`, while heap.go carries the method only as the commented-out line
`func (r *RlogcHeap) Len() int { return r.queue.Len() }`. -/
def RlogcHeap.Len {α : Type} (r : RlogcHeap α) : Int :=
  elemHeap.Len r

/-- Method `RlogcHeap.Enter`: attach `e` unless it already has a parent. -/
def RlogcHeap.Enter {α : Type} [LinearOrderedRing α] (r : RlogcHeap α) (e : Nat) :
    Option (RlogcHeap α) :=
  if (r.elems e).parent then some r else
    let now := r.Timer r.ticks
    let el := r.elems e
    let r1 := { r with
      ticks := r.ticks + 1
      elems := upd r.elems e
        { el with parent := true, rank := el.rank.Enter now r.Decay, index := elemHeap.Len r } }
    heap.Push r1 e

/-- Method `RlogcHeap.EvictNode`: pop the least element and clear its parent. -/
def RlogcHeap.EvictNode {α : Type} [LinearOrderedRing α] (r : RlogcHeap α) :
    Option (Option Nat × RlogcHeap α) :=
  if elemHeap.Len r = 0 then some (none, r) else
    match heap.Pop r with
    | none => none
    | some (e, r1) =>
      some (some e, { r1 with elems := upd r1.elems e { r1.elems e with parent := false } })

/-- Method `Element.Evict`: remove `e` from its heap by index. -/
def Element.Evict {α : Type} [LinearOrderedRing α] (r : RlogcHeap α) (e : Nat) :
    Option (RlogcHeap α) :=
  if (r.elems e).parent then
    match heap.Remove r (r.elems e).index with
    | none => none
    | some (_, r1) => some { r1 with elems := upd r1.elems e { r1.elems e with parent := false } }
  else some r

/-- Method `Element.Promote`: a hit on `e`: `Access`, then `heap.Fix` at its index. -/
def Element.Promote {α : Type} [LinearOrderedRing α] (incr : α → α) (r : RlogcHeap α)
    (e : Nat) : Option (RlogcHeap α) :=
  if (r.elems e).parent then
    let now := r.Timer r.ticks
    let el := r.elems e
    let r1 := { r with
      ticks := r.ticks + 1
      elems := upd r.elems e { el with rank := el.rank.Access incr now r.Decay } }
    heap.Fix r1 (r1.elems e).index
  else some r

/-- Method `RlogcHeap.BorrowElements`: the queue itself. -/
def RlogcHeap.BorrowElements {α : Type} (r : RlogcHeap α) : List Nat :=
  r.queue

/-- Method `RlogcHeap.StealElements`: return the queue and truncate it to length zero. -/
def RlogcHeap.StealElements {α : Type} (r : RlogcHeap α) : List Nat × RlogcHeap α :=
  (r.queue, { r with queue := [] })

/-! ## cache.go -/

/-- Keyed payload: `type entry struct { e rlogc.Element; key, value interface{} }`.
The embedded element `e` lives in `heap.elems` at the address of the entry. -/
structure entry (K V : Type) where
  key : K
  value : V

/-- One invocation of the eviction callback `evcb(key, value)`, with the key index and
the heap queue as they stand at the moment of the call. -/
structure Call (K V : Type) where
  key : K
  value : V
  indexAt : Option (K → Option Nat)
  queueAt : List Nat

/-- Cache state: `type Cache struct { m; heap; evcb; size; index }`.  The Go map `index`
is `none` while nil, else the function a read `c.index[k]` computes; `entries` is the
memory holding the entry structs, `next` the next address handed out by `new`, and `evcb`
the log of callback invocations, oldest first. -/
structure Cache (K V α : Type) where
  heap : RlogcHeap α
  size : Int
  index : Option (K → Option Nat)
  entries : Nat → Option (entry K V)
  next : Nat
  evcb : List (Call K V)

/-- Function `NewCache`: the map `index` is left nil. -/
def NewCache {K V α : Type} [LinearOrderedRing α] (decay : α) (timer : Nat → Int)
    (size : Int) : Cache K V α :=
  { heap := RlogcHeap.empty decay timer
    size := size
    index := none
    entries := fun _ => none
    next := 0
    evcb := [] }

/-- The cache of `NewCache` with `index` initialised to an empty map. -/
def NewCacheInit {K V α : Type} [LinearOrderedRing α] (decay : α) (timer : Nat → Int)
    (size : Int) : Cache K V α :=
  { (NewCache decay timer size : Cache K V α) with index := some (fun _ => none) }

/-- Map read `c.index[key]`: a nil map reads as empty. -/
def Cache.lookup {K V α : Type} (c : Cache K V α) (key : K) : Option Nat :=
  match c.index with
  | some m => m key
  | none => none

/-- Map delete `delete(c.index, key)`: a no-op on a nil map; it removes the entry of the
keys that are `==` to `key`. -/
def mapDelete {K : Type} [BEq K] (idx : Option (K → Option Nat)) (key : K) :
    Option (K → Option Nat) :=
  match idx with
  | some m => some (fun k => if k == key then none else m k)
  | none => none

/-- The block `el := c.heap.EvictNode(); if el == nil { return }; e := (*entry)(el.UserData[0]);
delete(c.index, e.key); c.evcb(e.key, e.value)` that `Add`, `PeekOrAdd`, `RemoveOldest` and
`Resize` share.  Returns the evicted pair, or `none` inside when the heap was empty. -/
def Cache.evictOldest {K V α : Type} [BEq K] [LinearOrderedRing α]
    (c : Cache K V α) : Option (Option (K × V) × Cache K V α) :=
  match RlogcHeap.EvictNode c.heap with
  | none => none
  | some (none, h) => some (none, { c with heap := h })
  | some (some el, h) =>
    match (h.elems el).UserData.1 with
    | none => none
    | some u =>
      match c.entries u with
      | none => none
      | some e =>
        let idx := mapDelete c.index e.key
        let call : Call K V :=
          { key := e.key, value := e.value, indexAt := idx, queueAt := h.queue }
        some (some (e.key, e.value),
          { c with heap := h, index := idx, evcb := c.evcb ++ [call] })

/-- Tail of `Add` and `PeekOrAdd` for a key that is not indexed: allocate the entry, enter
it into the heap, index it (a write to a nil map fails), and evict the least element when
the heap is over capacity. -/
def Cache.insertNew {K V α : Type} [BEq K] [LinearOrderedRing α]
    (c : Cache K V α) (key : K) (value : V) : Option (Bool × Cache K V α) :=
  let p := c.next
  let h0 : RlogcHeap α :=
    { c.heap with elems := upd c.heap.elems p { Element.zero with UserData := (some p, none) } }
  match RlogcHeap.Enter h0 p with
  | none => none
  | some h1 =>
    match c.index with
    | none => none
    | some m =>
      let c1 : Cache K V α :=
        { c with
          heap := h1
          next := p + 1
          entries := upd c.entries p (some { key := key, value := value })
          index := some (fun k => if k == key then some p else m k) }
      if RlogcHeap.Len c1.heap ≤ c1.size then some (false, c1) else
        match Cache.evictOldest c1 with
        | none => none
        | some (none, c2) => some (false, c2)
        | some (some _, c2) => some (true, c2)

/-- Method `Cache.Add`: overwrite and promote a present key, else insert. -/
def Cache.Add {K V α : Type} [BEq K] [LinearOrderedRing α] (incr : α → α)
    (c : Cache K V α) (key : K) (value : V) : Option (Bool × Cache K V α) :=
  match c.lookup key with
  | some p =>
    let c1 : Cache K V α :=
      { c with entries := upd c.entries p (some { key := key, value := value }) }
    match Element.Promote incr c1.heap p with
    | none => none
    | some h => some (false, { c1 with heap := h })
  | none => Cache.insertNew c key value

/-- Method `Cache.Get`: value and `ok`, promoting on a hit. -/
def Cache.Get {K V α : Type} [LinearOrderedRing α] (incr : α → α)
    (c : Cache K V α) (key : K) : Option ((Option V × Bool) × Cache K V α) :=
  match c.lookup key with
  | some p =>
    match c.entries p with
    | none => none
    | some e =>
      match Element.Promote incr c.heap p with
      | none => none
      | some h => some ((some e.value, true), { c with heap := h })
  | none => some ((none, false), c)

/-- Method `Cache.Peek`: value and `ok`, no promotion. -/
def Cache.Peek {K V α : Type} (c : Cache K V α) (key : K) : Option (Option V × Bool) :=
  match c.lookup key with
  | some p =>
    match c.entries p with
    | none => none
    | some e => some (some e.value, true)
  | none => some (none, false)

/-- Method `Cache.Len`: `c.heap.Len()`. -/
def Cache.Len {K V α : Type} (c : Cache K V α) : Int :=
  RlogcHeap.Len c.heap

/-- Method `Cache.Remove`: `e.e.Evict(); c.evcb(e.key, e.value); delete(c.index, key)`. -/
def Cache.Remove {K V α : Type} [BEq K] [LinearOrderedRing α]
    (c : Cache K V α) (key : K) : Option (Bool × Cache K V α) :=
  match c.lookup key with
  | some p =>
    match Element.Evict c.heap p with
    | none => none
    | some h =>
      match c.entries p with
      | none => none
      | some e =>
        let call : Call K V :=
          { key := e.key, value := e.value, indexAt := c.index, queueAt := h.queue }
        some (true,
          { c with heap := h, evcb := c.evcb ++ [call], index := mapDelete c.index key })
  | none => some (false, c)

/-- Method `Cache.Contains`. -/
def Cache.Contains {K V α : Type} (c : Cache K V α) (key : K) : Bool :=
  (c.lookup key).isSome

/-- Method `Cache.PeekOrAdd`: previous value, `ok`, `evicted`. -/
def Cache.PeekOrAdd {K V α : Type} [BEq K] [LinearOrderedRing α]
    (c : Cache K V α) (key : K) (value : V) :
    Option ((Option V × Bool × Bool) × Cache K V α) :=
  match c.lookup key with
  | some p =>
    match c.entries p with
    | none => none
    | some e => some ((some e.value, true, false), c)
  | none =>
    match Cache.insertNew c key value with
    | none => none
    | some (evicted, c1) => some ((none, false, evicted), c1)

/-- Method `Cache.GetOldest`: key and value of the element in slot `0`, if any. -/
def Cache.GetOldest {K V α : Type} (c : Cache K V α) : Option (Option (K × V)) :=
  match RlogcHeap.BorrowElements c.heap with
  | [] => some none
  | p :: _ =>
    match (c.heap.elems p).UserData.1 with
    | none => none
    | some u =>
      match c.entries u with
      | none => none
      | some e => some (some (e.key, e.value))

/-- Method `Cache.RemoveOldest`. -/
def Cache.RemoveOldest {K V α : Type} [BEq K] [LinearOrderedRing α]
    (c : Cache K V α) : Option (Option (K × V) × Cache K V α) :=
  Cache.evictOldest c

/-- Method `Cache.ContainsOrAdd`: `PeekOrAdd` without the value. -/
def Cache.ContainsOrAdd {K V α : Type} [BEq K] [LinearOrderedRing α]
    (c : Cache K V α) (key : K) (value : V) : Option ((Bool × Bool) × Cache K V α) :=
  match Cache.PeekOrAdd c key value with
  | none => none
  | some ((_, ok, evicted), c1) => some ((ok, evicted), c1)

/-- Loop of `Cache.Resize`: `for c.size < c.heap.Len() { ...; evicted++; ... }`. -/
def Cache.resizeLoop {K V α : Type} [BEq K] [LinearOrderedRing α] :
    Nat → Cache K V α → Int → Option (Int × Cache K V α)
  | 0, _, _ => none
  | fuel + 1, c, evicted =>
    if c.size < RlogcHeap.Len c.heap then
      match Cache.evictOldest c with
      | none => none
      | some (none, c1) => some (evicted, c1)
      | some (some _, c1) => Cache.resizeLoop fuel c1 (evicted + 1)
    else some (evicted, c)

/-- Method `Cache.Resize`: set the capacity, then evict while over it. -/
def Cache.Resize {K V α : Type} [BEq K] [LinearOrderedRing α]
    (c : Cache K V α) (size : Int) : Option (Int × Cache K V α) :=
  Cache.resizeLoop (c.heap.queue.length + 1) { c with size := size } 0

/-- One call on the cache API. -/
inductive CacheOp (K V : Type) where
  | add (k : K) (v : V)
  | get (k : K)
  | peek (k : K)
  | contains (k : K)
  | remove (k : K)
  | peekOrAdd (k : K) (v : V)
  | containsOrAdd (k : K) (v : V)
  | getOldest
  | removeOldest
  | len
  | resize (n : Int)

/-- Effect of one cache call on the state (results dropped). -/
def CacheOp.run {K V α : Type} [BEq K] [LinearOrderedRing α] (incr : α → α)
    (c : Cache K V α) : CacheOp K V → Option (Cache K V α)
  | CacheOp.add k v => (Cache.Add incr c k v).map Prod.snd
  | CacheOp.get k => (Cache.Get incr c k).map Prod.snd
  | CacheOp.peek k => (Cache.Peek c k).map (fun _ => c)
  | CacheOp.contains _ => some c
  | CacheOp.remove k => (Cache.Remove c k).map Prod.snd
  | CacheOp.peekOrAdd k v => (Cache.PeekOrAdd c k v).map Prod.snd
  | CacheOp.containsOrAdd k v => (Cache.ContainsOrAdd c k v).map Prod.snd
  | CacheOp.getOldest => (Cache.GetOldest c).map (fun _ => c)
  | CacheOp.removeOldest => (Cache.RemoveOldest c).map Prod.snd
  | CacheOp.len => some c
  | CacheOp.resize n => (Cache.Resize c n).map Prod.snd

/-- A sequence of cache calls, left to right; `none` if one of them fails. -/
def runCache {K V α : Type} [BEq K] [LinearOrderedRing α] (incr : α → α) :
    List (CacheOp K V) → Cache K V α → Option (Cache K V α)
  | [], c => some c
  | op :: ops, c =>
    match op.run incr c with
    | some c1 => runCache incr ops c1
    | none => none

/-! ## Specification vocabulary -/

/-- Sort key of a rank: `a` compares below `b` exactly when its key is smaller, as long as
the tick difference is an `int64` (`compare_neg_iff`). -/
def HC.key {α : Type} [LinearOrderedRing α] (a : HC α) (decay : α) : α :=
  a.LogC - (a.Time : α) * decay

/-- Sort key of the element at address `p`. -/
def RlogcHeap.key {α : Type} [LinearOrderedRing α] (s : RlogcHeap α) (p : Nat) : α :=
  (s.elems p).rank.key s.Decay

/-- Address stored in slot `i` of a queue (address `0` past the end). -/
def qat (q : List Nat) (i : Nat) : Nat :=
  (q[i]?).getD 0

/-- Sort key of the element in slot `i`. -/
def RlogcHeap.keyAt {α : Type} [LinearOrderedRing α] (s : RlogcHeap α) (i : Nat) : α :=
  s.key (qat s.queue i)

/-- Queue with slots `i` and `j` exchanged. -/
def swapQ (q : List Nat) (i j : Nat) : List Nat :=
  (q.set i (qat q j)).set j (qat q i)

/-- State after `elemHeap.Swap` on two slots inside the queue. -/
def swapS {α : Type} (s : RlogcHeap α) (i j : Nat) : RlogcHeap α :=
  let ei := qat s.queue i
  let ej := qat s.queue j
  let m1 := upd s.elems ej { s.elems ej with index := (i : Int) }
  { s with
    elems := upd m1 ei { m1 ei with index := (j : Int) }
    queue := swapQ s.queue i j }

/-- Data-model invariant of the queue: every queued element is attached and its
`index` field is its slot. -/
def Slots {α : Type} (s : RlogcHeap α) : Prop :=
  ∀ i, i < s.queue.length →
    (s.elems (qat s.queue i)).parent = true ∧ (s.elems (qat s.queue i)).index = (i : Int)

/-- Min-heap property of the spec, on the first `n` slots: no child (slots `2i+1`, `2i+2`)
compares strictly less than its parent `i` under `Compare` with the heap's `Decay`. -/
def HeapOrdered {α : Type} [LinearOrderedRing α] (s : RlogcHeap α) : Prop :=
  ∀ i, i < s.queue.length → ∀ c, c < s.queue.length → (c = 2 * i + 1 ∨ c = 2 * i + 2) →
    ¬ ((s.elems (qat s.queue c)).rank.Compare (s.elems (qat s.queue i)).rank s.Decay < 0)

instance decidableSlots {α : Type} (s : RlogcHeap α) : Decidable (Slots s) :=
  inferInstanceAs (Decidable (∀ i, i < s.queue.length →
    (s.elems (qat s.queue i)).parent = true ∧ (s.elems (qat s.queue i)).index = (i : Int)))

instance decidableHeapOrdered {α : Type} [LinearOrderedRing α] (s : RlogcHeap α) :
    Decidable (HeapOrdered s) :=
  inferInstanceAs (Decidable (∀ i, i < s.queue.length → ∀ c, c < s.queue.length →
    (c = 2 * i + 1 ∨ c = 2 * i + 2) →
    ¬ ((s.elems (qat s.queue c)).rank.Compare (s.elems (qat s.queue i)).rank s.Decay < 0)))

/-- Heap order on keys: each of the first `n` slots is at least its parent slot. -/
def HeapOn {α : Type} [LinearOrder α] (a : Nat → α) (n : Nat) : Prop :=
  ∀ c, 0 < c → c < n → a ((c - 1) / 2) ≤ a c

/-- Heap order everywhere except on the edges touching slot `i`, with the parent of `i`
below the children of `i`. -/
def Hole {α : Type} [LinearOrder α] (a : Nat → α) (n i : Nat) : Prop :=
  (∀ c, 0 < c → c < n → c ≠ i → (c - 1) / 2 ≠ i → a ((c - 1) / 2) ≤ a c) ∧
  (∀ c, 0 < c → c < n → (c - 1) / 2 = i → 0 < i → a ((i - 1) / 2) ≤ a c)

/-- Slot `i` is at most each of its children. -/
def ChildrenOK {α : Type} [LinearOrder α] (a : Nat → α) (n i : Nat) : Prop :=
  ∀ c, 0 < c → c < n → (c - 1) / 2 = i → a i ≤ a c

/-- Slot `i` is at least its parent. -/
def ParentOK {α : Type} [LinearOrder α] (a : Nat → α) (i : Nat) : Prop :=
  0 < i → a ((i - 1) / 2) ≤ a i

/-- Key assignment with slots `i` and `j` exchanged. -/
def swapF {α : Type} (a : Nat → α) (i j : Nat) : Nat → α :=
  fun k => if k = i then a j else if k = j then a i else a k

/-- What the sifting loops leave untouched: parameters, timer, the set of queued
addresses, and every field of every element other than `index`. -/
structure Same {α : Type} (s t : RlogcHeap α) : Prop where
  decay : t.Decay = s.Decay
  timer : t.Timer = s.Timer
  ticks : t.ticks = s.ticks
  len : t.queue.length = s.queue.length
  mem : ∀ p, p ∈ t.queue ↔ p ∈ s.queue
  rank : ∀ p, (t.elems p).rank = (s.elems p).rank
  parent : ∀ p, (t.elems p).parent = (s.elems p).parent
  user : ∀ p, (t.elems p).UserData = (s.elems p).UserData
  other : ∀ p, p ∉ s.queue → t.elems p = s.elems p

/-- State after `elemHeap.Pop` on a non-empty queue. -/
def popS {α : Type} (s : RlogcHeap α) : RlogcHeap α :=
  let e := qat s.queue (s.queue.length - 1)
  { s with
    queue := s.queue.take (s.queue.length - 1)
    elems := upd s.elems e { s.elems e with index := -1 } }

/-- Reference state for `heap.Pop` and `heap.Remove`: `e` leaves the queue with
`index = -1`; the order of the remaining slots is left open. -/
def removeS {α : Type} (s : RlogcHeap α) (e : Nat) : RlogcHeap α :=
  { s with
    queue := s.queue.erase e
    elems := upd s.elems e { s.elems e with index := -1 } }

/-- Reference state for `EvictNode` and `Element.Evict`: as `removeS`, with the parent
cleared. -/
def detachS {α : Type} (s : RlogcHeap α) (e : Nat) : RlogcHeap α :=
  { s with
    queue := s.queue.erase e
    elems := upd s.elems e { s.elems e with parent := false, index := -1 } }

/-- Reference state for `Enter` of an unattached `e`: one timer call, `e` attached with
a fresh rank and queued last. -/
def enterS {α : Type} [LinearOrderedRing α] (s : RlogcHeap α) (e : Nat) : RlogcHeap α :=
  { s with
    ticks := s.ticks + 1
    queue := s.queue ++ [e]
    elems := upd s.elems e
      { s.elems e with
        parent := true
        rank := (s.elems e).rank.Enter (s.Timer s.ticks) s.Decay
        index := (s.queue.length : Int) } }

/-- Reference state for `Promote` of an attached `e`: one timer call and the rank of `e`
accessed. -/
def accessS {α : Type} [LinearOrderedRing α] (incr : α → α) (s : RlogcHeap α) (e : Nat) :
    RlogcHeap α :=
  { s with
    ticks := s.ticks + 1
    elems := upd s.elems e
      { s.elems e with rank := (s.elems e).rank.Access incr (s.Timer s.ticks) s.Decay } }

/-- Every attached element is queued. -/
def Attached {α : Type} (s : RlogcHeap α) : Prop :=
  ∀ p, (s.elems p).parent = true → p ∈ s.queue

/-- Data-model invariant of a heap: queued elements are attached with `index` their slot,
and attached elements are queued.  (Heap order is stated on its own: it depends on the
ticks, see `TicksFit`.) -/
def Inv {α : Type} [LinearOrderedRing α] (s : RlogcHeap α) : Prop :=
  Slots s ∧ Attached s

/-- The difference `x - y` of two ticks is an `int64`: the subtraction does not wrap. -/
def tickFits (x y : Int) : Prop :=
  wrap64 (x - y) = x - y

instance decidableTickFits (x y : Int) : Decidable (tickFits x y) :=
  inferInstanceAs (Decidable (wrap64 (x - y) = x - y))

/-- The ticks stored in the queued ranks differ pairwise by an `int64`. -/
def TicksFit {α : Type} (s : RlogcHeap α) : Prop :=
  ∀ p, p ∈ s.queue → ∀ q, q ∈ s.queue →
    tickFits (s.elems p).rank.Time (s.elems q).rank.Time

instance decidableTicksFit {α : Type} (s : RlogcHeap α) : Decidable (TicksFit s) :=
  inferInstanceAs (Decidable (∀ p, p ∈ s.queue → ∀ q, q ∈ s.queue →
    tickFits (s.elems p).rank.Time (s.elems q).rank.Time))

/-- The tick the timer returns at its next call differs from every queued tick by an
`int64`, in both directions. -/
def NowFits {α : Type} (s : RlogcHeap α) : Prop :=
  ∀ p, p ∈ s.queue → tickFits (s.Timer s.ticks) (s.elems p).rank.Time ∧
    tickFits (s.elems p).rank.Time (s.Timer s.ticks)

instance decidableNowFits {α : Type} (s : RlogcHeap α) : Decidable (NowFits s) :=
  inferInstanceAs (Decidable (∀ p, p ∈ s.queue →
    tickFits (s.Timer s.ticks) (s.elems p).rank.Time ∧
    tickFits (s.elems p).rank.Time (s.Timer s.ticks)))

/-- The first `n` values of a timer differ pairwise by an `int64`. -/
def TimerFits (timer : Nat → Int) (n : Nat) : Prop :=
  ∀ i, i < n → ∀ j, j < n → tickFits (timer i) (timer j)

instance decidableTimerFits (timer : Nat → Int) (n : Nat) : Decidable (TimerFits timer n) :=
  inferInstanceAs (Decidable (∀ i, i < n → ∀ j, j < n → tickFits (timer i) (timer j)))

/-- Every queued rank carries a tick the timer has returned. -/
def Stamped {α : Type} (s : RlogcHeap α) : Prop :=
  ∀ p, p ∈ s.queue → ∃ i, i < s.ticks ∧ (s.elems p).rank.Time = s.Timer i

/-- Outcome of `Less` on two slots of the queue. -/
def RlogcHeap.lessAt {α : Type} [LinearOrderedRing α] (s : RlogcHeap α) (i j : Nat) : Bool :=
  decide ((s.elems (qat s.queue i)).rank.Compare (s.elems (qat s.queue j)).rank s.Decay < 0)

/-- One call on the heap API of heap.go. -/
inductive HeapOp where
  | enter (e : Nat)
  | evictNode
  | evict (e : Nat)
  | promote (e : Nat)

/-- Effect of one heap call on the state (the element returned by `EvictNode` is dropped). -/
def HeapOp.run {α : Type} [LinearOrderedRing α] (incr : α → α) (s : RlogcHeap α) :
    HeapOp → Option (RlogcHeap α)
  | HeapOp.enter e => RlogcHeap.Enter s e
  | HeapOp.evictNode =>
    match RlogcHeap.EvictNode s with
    | some (_, t) => some t
    | none => none
  | HeapOp.evict e => Element.Evict s e
  | HeapOp.promote e => Element.Promote incr s e

/-- A sequence of heap calls, left to right; `none` if one of them fails. -/
def runOps {α : Type} [LinearOrderedRing α] (incr : α → α) :
    List HeapOp → RlogcHeap α → Option (RlogcHeap α)
  | [], s => some s
  | op :: ops, s =>
    match op.run incr s with
    | some t => runOps incr ops t
    | none => none

/-- A two-element heap over the integers, used to instantiate statements. -/
def sampleHeap : RlogcHeap ℤ :=
  { Decay := -1
    Timer := fun n => (n : Int)
    ticks := 2
    queue := [4, 7]
    elems := fun p =>
      if p = 4 then { parent := true, UserData := (none, none), rank := ⟨0, 0⟩, index := 0 }
      else if p = 7 then { parent := true, UserData := (none, none), rank := ⟨0, 1⟩, index := 1 }
      else Element.zero }

/-- Key values used to instantiate statements: a floating-point key is NaN or a number. -/
inductive FloatKey where
  | nan
  | num (n : Nat)

/-- Go's `==` on floating-point keys: NaN is equal to no key, itself included. -/
instance beqFloatKey : BEq FloatKey :=
  ⟨fun a b =>
    match a, b with
    | FloatKey.num x, FloatKey.num y => x == y
    | _, _ => false⟩

/-- A monotone timer with values near the ends of `int64`, used to instantiate statements:
`-2^62`, then `2^61` twice, then `2^63 - 1` (the largest `int64`) from the fourth call
on. -/
def wideTimer : Nat → Int :=
  fun n => if n = 0 then -(2 ^ 62) else if n ≤ 2 then 2 ^ 61 else 2 ^ 63 - 1

/-- A monotone timer that returns `-1` at its first call and the largest `int64` after
it, used to instantiate statements. -/
def edgeTimer : Nat → Int :=
  fun n => if n = 0 then -1 else 2 ^ 63 - 1

/-- Invariant of the keyed cache: a well-formed heap, an initialised index that agrees
with the heap, every queued element pointing back at its own entry, and no queued address
beyond the allocation pointer. -/
structure CacheInv {K V α : Type} [LinearOrderedRing α] (c : Cache K V α) : Prop where
  heap : Inv c.heap
  init : c.index ≠ none
  fresh : ∀ p, p ∈ c.heap.queue → p < c.next
  user : ∀ p, p ∈ c.heap.queue → (c.heap.elems p).UserData.1 = some p
  keyed : ∀ p, p ∈ c.heap.queue → ∃ e, c.entries p = some e ∧ c.lookup e.key = some p
  indexed : ∀ k p, c.lookup k = some p →
    p ∈ c.heap.queue ∧ ∃ e, c.entries p = some e ∧ e.key = k

/-- Heap memory after `new(entry)` at the allocation pointer: a zero element whose first
user slot points back at the entry. -/
def Cache.allocS {K V α : Type} [LinearOrderedRing α] (c : Cache K V α) : RlogcHeap α :=
  { c.heap with
    elems := upd c.heap.elems c.next { Element.zero with UserData := (some c.next, none) } }

/-- The calls the capacity claim ranges over: `Resize(n)` only with `n >= 0`. -/
def CacheOp.legal {K V : Type} : CacheOp K V → Bool
  | CacheOp.resize n => decide (0 ≤ n)
  | _ => true

/-- Rank currently stored for a key, if the key is indexed. -/
def Cache.rankOf {K V α : Type} (c : Cache K V α) (key : K) : Option (HC α) :=
  (c.lookup key).map (fun p => (c.heap.elems p).rank)

/-- A cache over the integers holding keys `1` and `2`, used to instantiate statements:
`Add(1, 10); Add(2, 20); Get(2)` on a fresh cache of capacity `2`. -/
def sampleCache : Cache Nat Nat ℤ :=
  (runCache (fun x : ℤ => x + 1) [CacheOp.add 1 10, CacheOp.add 2 20, CacheOp.get 2]
    (NewCacheInit (-1) (fun n => (n : Int)) 2)).getD (NewCacheInit (-1) (fun n => (n : Int)) 2)

/-- A full cache of capacity `4` over the integers whose ticks do not fit, used to
instantiate statements: `Add(1, 10); Add(2, 20); Add(3, 30); Add(4, 40)` under
`wideTimer`. -/
def wideCache : Cache Nat Nat ℤ :=
  (runCache (fun x : ℤ => x + 1)
    [CacheOp.add 1 10, CacheOp.add 2 20, CacheOp.add 3 30, CacheOp.add 4 40]
    (NewCacheInit (-1) wideTimer 4)).getD (NewCacheInit (-1) wideTimer 4)

/-- Sign of a number as `-1`, `0` or `+1`. -/
def signOf {α : Type} [LinearOrderedRing α] (x : α) : Int :=
  if x < 0 then -1 else if x > 0 then 1 else 0

/-- Log-count of a rank after eager decay to the reference tick `T`:
`LogC + (T - Time) * decay`. -/
def HC.rescore {α : Type} [LinearOrderedRing α] (a : HC α) (T : Int) (decay : α) : α :=
  a.LogC + ((T - a.Time : Int) : α) * decay

/-- A one-element heap over the reals whose timer always returns tick `5`, used to
instantiate statements about repeated promotion. -/
noncomputable def sampleRealHeap : RlogcHeap ℝ :=
  { Decay := -1
    Timer := fun _ => 5
    ticks := 1
    queue := [0]
    elems := fun p =>
      if p = 0 then { parent := true, UserData := (none, none), rank := ⟨0, 5⟩, index := 0 }
      else Element.zero }

/-! ## timer.go -/

/-- Timer `Increment`: `i.value++; return i.value`, so the `n`-th call (counting from `0`)
returns `n + 1`. -/
def Increment : Nat → Int :=
  fun n => (n : Int) + 1

/-! ## leveldb_rlogc/leveldb.go -/

/-- Field `n.CacheData` of a host node as the adapter uses it: nil, the sentinel `banned`
(compared by identity only), or a pointer to an `Element`. -/
inductive CacheData where
  | nil
  | banned
  | elem (e : Nat)
  deriving DecidableEq

/-- Host node (`cache.Node` of goleveldb), by the contract the spec gives for it:
`Size()`, `NS()` and the mutable pointer slot `CacheData`. -/
structure Node where
  size : Int
  ns : Nat
  CacheData : CacheData

/-- Adapter state: `type rlcCache struct { m; heap; capa; space }`, with the host memory
of nodes, the allocation pointer of `new(rlogc.Element)`, the number of handles the host
has issued through `GetHandle`, and the log of `h.Release()` calls, oldest first. -/
structure rlcCache (α : Type) where
  heap : RlogcHeap α
  capa : Int
  space : Int
  nodes : Nat → Node
  next : Nat
  handles : Nat
  released : List Nat

/-- Method `rlcCache.Capacity`. -/
def rlcCache.Capacity {α : Type} (cc : rlcCache α) : Int :=
  cc.capa

/-- Method `rlcCache.SetCapacity`: stores the capacity, nothing else. -/
def rlcCache.SetCapacity {α : Type} (cc : rlcCache α) (capacity : Int) : rlcCache α :=
  { cc with capa := capacity }

/-- The block `n := e.UserData[0]; h := e.UserData[1]; e.UserData[0] = nil;
e.UserData[1] = nil; if n!=nil { cc.space -= n.Size(); n.CacheData = nil };
if h!=nil { h.Release() }` of `evict` and `EvictAll` (and of `EvictNS`, past its guards). -/
def rlcCache.clear {α : Type} (cc : rlcCache α) (e : Nat) : rlcCache α :=
  let n := (cc.heap.elems e).UserData.1
  let h := (cc.heap.elems e).UserData.2
  let cc1 : rlcCache α :=
    { cc with
      heap := { cc.heap with
        elems := upd cc.heap.elems e { cc.heap.elems e with UserData := (none, none) } } }
  let cc2 : rlcCache α :=
    match n with
    | some n =>
      { cc1 with
        space := cc1.space - (cc1.nodes n).size
        nodes := upd cc1.nodes n { cc1.nodes n with CacheData := CacheData.nil } }
    | none => cc1
  match h with
  | some x => { cc2 with released := cc2.released ++ [x] }
  | none => cc2

/-- Method `rlcCache.evict`: `for cc.space > cc.capa { e := cc.heap.EvictNode();
if e==nil { return }; ... }`. -/
def rlcCache.evict {α : Type} [LinearOrderedRing α] : Nat → rlcCache α → Option (rlcCache α)
  | 0, _ => none
  | fuel + 1, cc =>
    if cc.space > cc.capa then
      match RlogcHeap.EvictNode cc.heap with
      | none => none
      | some (none, h) => some { cc with heap := h }
      | some (some e, h) => rlcCache.evict fuel (rlcCache.clear { cc with heap := h } e)
    else some cc

/-- Method `rlcCache.Promote`.  `withHandle` is the host's answer to `n.GetHandle()`:
a fresh handle, or nil. -/
def rlcCache.Promote {α : Type} [LinearOrderedRing α] (incr : α → α) (cc : rlcCache α)
    (n : Nat) (withHandle : Bool) : Option (rlcCache α) :=
  match (cc.nodes n).CacheData with
  | CacheData.banned => some cc
  | CacheData.nil =>
    let e := cc.next
    let h : Option Nat := if withHandle then some cc.handles else none
    let heap0 : RlogcHeap α :=
      { cc.heap with
        elems := upd cc.heap.elems e { Element.zero with UserData := (some n, h) } }
    match RlogcHeap.Enter heap0 e with
    | none => none
    | some heap1 =>
      rlcCache.evict (heap1.queue.length + 1)
        { cc with
          heap := heap1
          next := e + 1
          handles := if withHandle then cc.handles + 1 else cc.handles
          nodes := upd cc.nodes n { cc.nodes n with CacheData := CacheData.elem e }
          space := cc.space + (cc.nodes n).size }
  | CacheData.elem e =>
    match Element.Promote incr cc.heap e with
    | none => none
    | some heap1 => some { cc with heap := heap1 }

/-- Method `rlcCache.nevict`: drop the element of `n`, if it has one, then store `ncd`
in `n.CacheData`. -/
def rlcCache.nevict {α : Type} (cc : rlcCache α) (n : Nat) (ncd : CacheData) : rlcCache α :=
  let cc1 : rlcCache α :=
    match (cc.nodes n).CacheData with
    | CacheData.elem e =>
      let h := (cc.heap.elems e).UserData.2
      let cc2 : rlcCache α :=
        { cc with
          heap := { cc.heap with
            elems := upd cc.heap.elems e { cc.heap.elems e with UserData := (none, none) } }
          space := cc.space - (cc.nodes n).size }
      match h with
      | some x => { cc2 with released := cc2.released ++ [x] }
      | none => cc2
    | _ => cc
  { cc1 with nodes := upd cc1.nodes n { cc1.nodes n with CacheData := ncd } }

/-- Method `rlcCache.Ban`. -/
def rlcCache.Ban {α : Type} (cc : rlcCache α) (n : Nat) : rlcCache α :=
  rlcCache.nevict cc n CacheData.banned

/-- Method `rlcCache.Evict`. -/
def rlcCache.Evict {α : Type} (cc : rlcCache α) (n : Nat) : rlcCache α :=
  rlcCache.nevict cc n CacheData.nil

/-- Body of the loop of `EvictNS` for one element: skip tombstones and other namespaces. -/
def rlcCache.evictNSStep {α : Type} (ns : Nat) (cc : rlcCache α) (e : Nat) : rlcCache α :=
  match (cc.heap.elems e).UserData.1 with
  | none => cc
  | some n => if (cc.nodes n).ns ≠ ns then cc else rlcCache.clear cc e

/-- Method `rlcCache.EvictNS`: `for _,e := range cc.heap.BorrowElements() { ... }`. -/
def rlcCache.EvictNS {α : Type} (cc : rlcCache α) (ns : Nat) : rlcCache α :=
  (RlogcHeap.BorrowElements cc.heap).foldl (rlcCache.evictNSStep ns) cc

/-- Method `rlcCache.EvictAll`: the same loop over every element. -/
def rlcCache.EvictAll {α : Type} (cc : rlcCache α) : rlcCache α :=
  (RlogcHeap.BorrowElements cc.heap).foldl rlcCache.clear cc

/-- Function `NewRlogC`, on a host whose nodes have the given sizes and namespaces and are
not yet tracked by any cache. -/
def NewRlogC {α : Type} [LinearOrderedRing α] (decay : α) (timer : Nat → Int)
    (initCapacity : Int) (size : Nat → Int) (ns : Nat → Nat) : rlcCache α :=
  { heap := RlogcHeap.empty decay timer
    capa := initCapacity
    space := 0
    nodes := fun n => { size := size n, ns := ns n, CacheData := CacheData.nil }
    next := 0
    handles := 0
    released := [] }

/-- One call on the adapter. -/
inductive AdapterOp where
  | capacity
  | setCapacity (c : Int)
  | promote (n : Nat) (withHandle : Bool)
  | ban (n : Nat)
  | evict (n : Nat)
  | evictNS (ns : Nat)
  | evictAll
  deriving DecidableEq

/-- Effect of one adapter call on the state. -/
def AdapterOp.run {α : Type} [LinearOrderedRing α] (incr : α → α) (cc : rlcCache α) :
    AdapterOp → Option (rlcCache α)
  | AdapterOp.capacity => some cc
  | AdapterOp.setCapacity c => some (rlcCache.SetCapacity cc c)
  | AdapterOp.promote n h => rlcCache.Promote incr cc n h
  | AdapterOp.ban n => some (rlcCache.Ban cc n)
  | AdapterOp.evict n => some (rlcCache.Evict cc n)
  | AdapterOp.evictNS ns => some (rlcCache.EvictNS cc ns)
  | AdapterOp.evictAll => some (rlcCache.EvictAll cc)

/-- A sequence of adapter calls, left to right; `none` if one of them fails. -/
def runAdapter {α : Type} [LinearOrderedRing α] (incr : α → α) :
    List AdapterOp → rlcCache α → Option (rlcCache α)
  | [], cc => some cc
  | op :: ops, cc =>
    match op.run incr cc with
    | some cc1 => runAdapter incr ops cc1
    | none => none

/-- Node of a queued element (`UserData[0]`). -/
def rlcCache.payload {α : Type} (cc : rlcCache α) (p : Nat) : Option Nat :=
  (cc.heap.elems p).UserData.1

/-- Handle of a queued element (`UserData[1]`). -/
def rlcCache.handleOf {α : Type} (cc : rlcCache α) (p : Nat) : Option Nat :=
  (cc.heap.elems p).UserData.2

/-- Size an element accounts for: `node.Size()` when its node slot is non-nil. -/
def rlcCache.weight {α : Type} (cc : rlcCache α) (p : Nat) : Int :=
  match cc.payload p with
  | some n => (cc.nodes n).size
  | none => 0

/-- Sum of `node.Size()` over the heap elements whose node slot is non-nil. -/
def rlcCache.accounted {α : Type} (cc : rlcCache α) : Int :=
  (cc.heap.queue.map cc.weight).sum

/-- Invariant of the size adapter: a well-formed heap; element and node point at each
other; `space` is the accounted sum; tombstones hold no handle; every handle issued is
either released once or held by exactly one queued element. -/
structure AdapterInv {α : Type} [LinearOrderedRing α] (cc : rlcCache α) : Prop where
  heap : Inv cc.heap
  fresh : ∀ p, p ∈ cc.heap.queue → p < cc.next
  back : ∀ p n, p ∈ cc.heap.queue → cc.payload p = some n →
    (cc.nodes n).CacheData = CacheData.elem p
  fwd : ∀ n p, (cc.nodes n).CacheData = CacheData.elem p →
    p ∈ cc.heap.queue ∧ cc.payload p = some n
  space : cc.space = cc.accounted
  tomb : ∀ p, p ∈ cc.heap.queue → cc.payload p = none → cc.handleOf p = none
  held : ∀ p h, p ∈ cc.heap.queue → cc.handleOf p = some h →
    h < cc.handles ∧ h ∉ cc.released
  hinj : ∀ p q h, p ∈ cc.heap.queue → q ∈ cc.heap.queue → cc.handleOf p = some h →
    cc.handleOf q = some h → p = q
  relNodup : cc.released.Nodup
  relIssued : ∀ h, h ∈ cc.released → h < cc.handles
  issued : ∀ h, h < cc.handles →
    h ∈ cc.released ∨ ∃ p, p ∈ cc.heap.queue ∧ cc.handleOf p = some h

/-- What no adapter call changes in the host: sizes and namespaces of the nodes. -/
def SameHost {α : Type} (cc cc1 : rlcCache α) : Prop :=
  ∀ m, (cc1.nodes m).size = (cc.nodes m).size ∧ (cc1.nodes m).ns = (cc.nodes m).ns

/-- The calls the amended capacity claim ranges over: `SetCapacity(c)` only with
`c >= 0` and `c >= space` at the time of the call. -/
def AdapterOp.admissible {α : Type} (cc : rlcCache α) : AdapterOp → Bool
  | AdapterOp.setCapacity c => decide (0 ≤ c ∧ cc.space ≤ c)
  | _ => true

/-- Every call of the sequence is admissible in the state it is made in. -/
def admissibleRun {α : Type} [LinearOrderedRing α] (incr : α → α) :
    List AdapterOp → rlcCache α → Bool
  | [], _ => true
  | op :: ops, cc =>
    op.admissible cc &&
      (match op.run incr cc with
      | some cc1 => admissibleRun incr ops cc1
      | none => true)

/-- Frame of the calls that only drop entries: host sizes and namespaces, the capacity, the
allocation pointer and the handle counter stay; `space` does not grow when no size is
negative; no element joins the queue; `UserData` of an element is kept or cleared, and it
is cleared when the element leaves the queue; no release is forgotten. -/
structure Shrinks {α : Type} (cc cc1 : rlcCache α) : Prop where
  host : SameHost cc cc1
  capa : cc1.capa = cc.capa
  space : (∀ m, 0 ≤ (cc.nodes m).size) → cc1.space ≤ cc.space
  next : cc1.next = cc.next
  handles : cc1.handles = cc.handles
  user : ∀ p, (cc1.heap.elems p).UserData = (cc.heap.elems p).UserData ∨
    (cc1.heap.elems p).UserData = (none, none)
  sub : ∀ p, p ∈ cc1.heap.queue → p ∈ cc.heap.queue
  gone : ∀ p, p ∈ cc.heap.queue → p ∉ cc1.heap.queue →
    (cc1.heap.elems p).UserData = (none, none)
  rel : ∀ h, h ∈ cc.released → h ∈ cc1.released

/-- No ban is lifted between the two states. -/
def KeepsBans {α : Type} (cc cc1 : rlcCache α) : Prop :=
  ∀ m, (cc.nodes m).CacheData = CacheData.banned → (cc1.nodes m).CacheData = CacheData.banned

/-- What one call does to the handles held before it: a handle stays with its element and
its node, unreleased and accounted, or it is released in this call, its element is a
tombstone and its node points to no element. -/
def Handover {α : Type} (cc cc1 : rlcCache α) : Prop :=
  ∀ p h n, p ∈ cc.heap.queue → cc.handleOf p = some h → cc.payload p = some n →
    (p ∈ cc1.heap.queue ∧ cc1.handleOf p = some h ∧ cc1.payload p = some n ∧
        (cc1.nodes n).CacheData = CacheData.elem p ∧ h ∉ cc1.released) ∨
      (h ∈ cc1.released ∧ cc1.payload p = none ∧
        ∀ q, (cc1.nodes n).CacheData ≠ CacheData.elem q)

/-- The last statement of `nevict`, `n.CacheData = ncd`, on its own. -/
def rlcCache.setData {α : Type} (cc : rlcCache α) (n : Nat) (ncd : CacheData) : rlcCache α :=
  { cc with nodes := upd cc.nodes n { cc.nodes n with CacheData := ncd } }

/-- The branch `e==nil` of `Promote` up to `cc.space += n.Size()`, before the drain. -/
def rlcCache.admit {α : Type} [LinearOrderedRing α] (cc : rlcCache α) (n : Nat)
    (withHandle : Bool) : Option (rlcCache α) :=
  let e := cc.next
  let h : Option Nat := if withHandle then some cc.handles else none
  let heap0 : RlogcHeap α :=
    { cc.heap with
      elems := upd cc.heap.elems e { Element.zero with UserData := (some n, h) } }
  match RlogcHeap.Enter heap0 e with
  | none => none
  | some heap1 =>
    some
      { cc with
        heap := heap1
        next := e + 1
        handles := if withHandle then cc.handles + 1 else cc.handles
        nodes := upd cc.nodes n { cc.nodes n with CacheData := CacheData.elem e }
        space := cc.space + (cc.nodes n).size }

/-! ## Order lemmas on key assignments -/

section Order

variable {α : Type} [LinearOrder α]

theorem heapOn_of_hole {a : Nat → α} {n i : Nat} (h : Hole a n i) (hc : ChildrenOK a n i)
    (hp : ParentOK a i) : HeapOn a n := by
  intro c c0 cn
  by_cases h1 : c = i
  · subst h1; exact hp c0
  · by_cases h2 : (c - 1) / 2 = i
    · have := hc c c0 cn h2
      rw [h2]; exact this
    · exact h.1 c c0 cn h1 h2

theorem up_step {a : Nat → α} {n j : Nat} (h : Hole a n j)
    (j0 : 0 < j) (hlt : a j < a ((j - 1) / 2)) :
    Hole (swapF a ((j - 1) / 2) j) n ((j - 1) / 2) ∧
      ChildrenOK (swapF a ((j - 1) / 2) j) n ((j - 1) / 2) := by
  obtain ⟨h1, h2⟩ := h
  refine ⟨⟨?_, ?_⟩, ?_⟩
  · intro c c0 cn hne hpne
    simp only [swapF]
    by_cases e1 : (c - 1) / 2 = j
    · have := h2 c c0 cn e1 j0
      rw [if_neg (by omega), if_pos e1, if_neg hne, if_neg (by omega)]
      exact this
    · have := h1 c c0 cn (by omega) e1
      rw [if_neg hpne, if_neg e1, if_neg hne, if_neg (by omega)]
      exact this
  · intro c c0 cn hcp p0
    simp only [swapF]
    have hpp : a (((j - 1) / 2 - 1) / 2) ≤ a ((j - 1) / 2) :=
      h1 ((j - 1) / 2) p0 (by omega) (by omega) (by omega)
    rw [if_neg (by omega), if_neg (by omega), if_neg (by omega)]
    by_cases e1 : c = j
    · rw [if_pos e1]; exact hpp
    · rw [if_neg e1]
      exact le_trans hpp (hcp ▸ h1 c c0 cn e1 (by omega))
  · intro c c0 cn hcp
    simp only [swapF]
    rw [if_pos trivial, if_neg (by omega)]
    by_cases e1 : c = j
    · rw [if_pos e1]; exact le_of_lt hlt
    · rw [if_neg e1]
      exact le_trans (le_of_lt hlt) (hcp ▸ h1 c c0 cn e1 (by omega))

theorem down_step {a : Nat → α} {n i j : Nat} (h : Hole a n i) (hj : (j - 1) / 2 = i)
    (j0 : 0 < j) (jn : j < n) (hmin : ∀ c, 0 < c → c < n → (c - 1) / 2 = i → a j ≤ a c)
    (hlt : a j < a i) :
    Hole (swapF a i j) n j ∧ ParentOK (swapF a i j) j := by
  obtain ⟨h1, h2⟩ := h
  refine ⟨⟨?_, ?_⟩, ?_⟩
  · intro c c0 cn hne hpne
    simp only [swapF]
    by_cases e1 : c = i
    · rw [if_neg (by omega), if_neg hpne, if_pos e1]
      have := h2 j j0 jn hj (by omega)
      rw [e1]; exact this
    · by_cases e2 : (c - 1) / 2 = i
      · rw [if_pos e2, if_neg e1, if_neg hne]
        exact hmin c c0 cn e2
      · rw [if_neg e2, if_neg hpne, if_neg e1, if_neg hne]
        exact h1 c c0 cn e1 e2
  · intro c c0 cn hcp _
    simp only [swapF]
    rw [hj, if_pos rfl, if_neg (by omega), if_neg (by omega)]
    exact hcp ▸ h1 c c0 cn (by omega) (by omega)
  · intro _
    simp only [swapF]
    rw [hj, if_pos rfl, if_neg (by omega), if_pos trivial]
    exact le_of_lt hlt

theorem heapOn_root_le {a : Nat → α} {n : Nat} (h : HeapOn a n) :
    ∀ i, i < n → a 0 ≤ a i := by
  intro i
  induction i using Nat.strong_induction_on with
  | _ i ih =>
    intro hi
    by_cases i0 : i = 0
    · subst i0; exact le_refl _
    · exact le_trans (ih ((i - 1) / 2) (by omega) (by omega)) (h i (by omega) hi)

theorem heapOn_mono {a : Nat → α} {n m : Nat} (h : HeapOn a n) (hm : m ≤ n) : HeapOn a m :=
  fun c c0 cm => h c c0 (by omega)

end Order

/-! ## Queue lemmas -/

theorem getElem?_of_lt (q : List Nat) (i : Nat) (h : i < q.length) :
    q[i]? = some (qat q i) := by
  unfold qat
  rw [List.getElem?_eq_getElem h]; rfl

theorem qat_mem (q : List Nat) (i : Nat) (h : i < q.length) : qat q i ∈ q :=
  List.mem_iff_getElem?.2 ⟨i, getElem?_of_lt q i h⟩

theorem exists_qat_of_mem {q : List Nat} {p : Nat} (h : p ∈ q) :
    ∃ i, i < q.length ∧ qat q i = p := by
  obtain ⟨i, hi⟩ := List.mem_iff_getElem?.1 h
  have hlt : i < q.length := by
    by_contra hc
    rw [List.getElem?_eq_none (by omega)] at hi
    exact Option.noConfusion hi
  refine ⟨i, hlt, ?_⟩
  rw [getElem?_of_lt q i hlt] at hi
  exact Option.some.inj hi

theorem getElem?_swapQ (q : List Nat) (i j k : Nat) (hi : i < q.length) (hj : j < q.length) :
    (swapQ q i j)[k]? = if k = j then q[i]? else if k = i then q[j]? else q[k]? := by
  unfold swapQ
  rw [List.getElem?_set, List.getElem?_set, List.length_set, getElem?_of_lt q i hi,
    getElem?_of_lt q j hj]
  by_cases h1 : j = k
  · rw [if_pos h1, if_pos hj, if_pos h1.symm]
  · rw [if_neg h1, if_neg (Ne.symm h1)]
    by_cases h2 : i = k
    · rw [if_pos h2, if_pos hi, if_pos h2.symm]
    · rw [if_neg h2, if_neg (Ne.symm h2)]

theorem length_swapQ (q : List Nat) (i j : Nat) : (swapQ q i j).length = q.length := by
  simp [swapQ]

theorem qat_swapQ (q : List Nat) (i j k : Nat) (hi : i < q.length) (hj : j < q.length) :
    qat (swapQ q i j) k = if k = j then qat q i else if k = i then qat q j else qat q k := by
  unfold qat
  rw [getElem?_swapQ q i j k hi hj]
  split_ifs <;> rfl

theorem mem_swapQ (q : List Nat) (i j : Nat) (hi : i < q.length) (hj : j < q.length)
    (p : Nat) : p ∈ swapQ q i j ↔ p ∈ q := by
  simp only [List.mem_iff_getElem?]
  constructor
  · rintro ⟨k, hk⟩
    rw [getElem?_swapQ q i j k hi hj] at hk
    split_ifs at hk
    · exact ⟨i, hk⟩
    · exact ⟨j, hk⟩
    · exact ⟨k, hk⟩
  · rintro ⟨k, hk⟩
    by_cases h1 : k = i
    · refine ⟨j, ?_⟩
      rw [getElem?_swapQ q i j j hi hj, if_pos rfl, ← h1]; exact hk
    · by_cases h2 : k = j
      · refine ⟨i, ?_⟩
        rw [getElem?_swapQ q i j i hi hj]
        by_cases h3 : i = j
        · rw [if_pos h3, h3, ← h2]; exact hk
        · rw [if_neg h3, if_pos rfl, ← h2]; exact hk
      · refine ⟨k, ?_⟩
        rw [getElem?_swapQ q i j k hi hj, if_neg h2, if_neg h1]; exact hk

theorem tdiv_parent (j : Nat) : Int.tdiv ((j : Int) - 1) 2 = (((j - 1) / 2 : Nat) : Int) := by
  cases j with
  | zero => decide
  | succ k =>
    have : ((k + 1 : Nat) : Int) - 1 = (k : Int) := by push_cast; ring
    rw [this, Nat.add_sub_cancel]
    exact (Int.ofNat_tdiv k 2).symm

/-! ## Rank comparison through keys -/

/-- The reduction `wrap64` is the identity exactly on the range of `int64`. -/
theorem wrap64_eq_iff (x : Int) : wrap64 x = x ↔ -(2 ^ 63) ≤ x ∧ x < 2 ^ 63 := by
  unfold wrap64
  constructor
  · intro h
    have h1 := Int.emod_nonneg (x + 2 ^ 63) (by norm_num : (2 : Int) ^ 64 ≠ 0)
    have h2 := Int.emod_lt_of_pos (x + 2 ^ 63) (by norm_num : (0 : Int) < 2 ^ 64)
    constructor <;> omega
  · rintro ⟨h1, h2⟩
    rw [Int.emod_eq_of_lt (by omega) (by omega)]
    ring

theorem tickFits_iff (x y : Int) : tickFits x y ↔ -(2 ^ 63) ≤ x - y ∧ x - y < 2 ^ 63 :=
  wrap64_eq_iff (x - y)

/-- The tick differences of `Access` and `Compare` do not wrap for ticks within `± 2^62`. -/
theorem wrap64_tick_sub (a b : Int) (ha : -(2 ^ 62) ≤ a ∧ a < 2 ^ 62)
    (hb : -(2 ^ 62) ≤ b ∧ b < 2 ^ 62) : wrap64 (a - b) = a - b :=
  (wrap64_eq_iff (a - b)).2 ⟨by omega, by omega⟩

theorem tickFits_self (x : Int) : tickFits x x :=
  (tickFits_iff x x).2 ⟨by omega, by omega⟩

section Keys

variable {α : Type} [LinearOrderedRing α]

theorem fcompare_eq (a b : α) : fcompare a b = a - b := by
  unfold fcompare IsInf
  simp

theorem compare_diff (a b : HC α) (d : α) (h : tickFits a.Time b.Time) :
    fcompare a.LogC b.LogC - ((wrap64 (a.Time - b.Time) : Int) : α) * d =
      a.key d - b.key d := by
  have h1 : wrap64 (a.Time - b.Time) = a.Time - b.Time := h
  rw [fcompare_eq, h1]
  unfold HC.key
  push_cast
  rw [sub_mul]
  abel

theorem compare_neg_iff (a b : HC α) (d : α) (h : tickFits a.Time b.Time) :
    a.Compare b d < 0 ↔ a.key d < b.key d := by
  unfold HC.Compare
  simp only [compare_diff a b d h]
  by_cases h1 : a.key d - b.key d < 0
  · rw [if_pos h1]
    constructor
    · intro _; exact sub_neg.1 h1
    · intro _; decide
  · rw [if_neg h1]
    constructor
    · intro h
      split_ifs at h <;> exact absurd h (by decide)
    · intro h; exact absurd (sub_neg.2 h) h1

theorem compare_nonpos_iff (a b : HC α) (d : α) (h : tickFits a.Time b.Time) :
    a.Compare b d ≤ 0 ↔ a.key d ≤ b.key d := by
  unfold HC.Compare
  simp only [compare_diff a b d h]
  by_cases h1 : a.key d - b.key d < 0
  · rw [if_pos h1]
    constructor
    · intro _; exact le_of_lt (sub_neg.1 h1)
    · intro _; decide
  · rw [if_neg h1]
    by_cases h2 : a.key d - b.key d > 0
    · rw [if_pos h2]
      constructor
      · intro h; exact absurd h (by decide)
      · intro h; exact absurd (sub_nonpos.2 h) (not_le.2 h2)
    · rw [if_neg h2]
      constructor
      · intro _; exact sub_nonpos.1 (not_lt.1 h2)
      · intro _; exact le_refl _

/-- The spec's heap order is the key order on the whole queue, for ticks that fit. -/
theorem heapOrdered_iff (s : RlogcHeap α) (hfit : TicksFit s) :
    HeapOrdered s ↔ HeapOn s.keyAt s.queue.length := by
  unfold HeapOrdered HeapOn RlogcHeap.keyAt RlogcHeap.key
  constructor
  · intro h c c0 cn
    have hp : (c - 1) / 2 < s.queue.length := by omega
    have := h ((c - 1) / 2) hp c cn (by omega)
    rw [compare_neg_iff _ _ _ (hfit _ (qat_mem _ _ cn) _ (qat_mem _ _ hp))] at this
    exact not_lt.1 this
  · intro h i hi c cn hc
    rw [compare_neg_iff _ _ _ (hfit _ (qat_mem _ _ cn) _ (qat_mem _ _ hi))]
    have := h c (by omega) cn
    have e : (c - 1) / 2 = i := by omega
    rw [e] at this
    exact not_lt.2 this

end Keys

/-! ## The slice primitives on well-formed queues -/

section Prims

variable {α : Type} [LinearOrderedRing α]

theorem get_cast (s : RlogcHeap α) (i : Nat) : elemHeap.get s (i : Int) = s.queue[i]? := by
  unfold elemHeap.get
  rw [if_neg (by omega), Int.toNat_ofNat]

theorem get_of_lt (s : RlogcHeap α) (i : Nat) (h : i < s.queue.length) :
    elemHeap.get s (i : Int) = some (qat s.queue i) := by
  rw [get_cast, getElem?_of_lt _ _ h]

theorem Less_eq (s : RlogcHeap α) (i j : Nat) (hs : Slots s) (hi : i < s.queue.length)
    (hj : j < s.queue.length) :
    elemHeap.Less s (i : Int) (j : Int) = some (s.lessAt i j) := by
  unfold elemHeap.Less RlogcHeap.lessAt
  rw [get_of_lt s i hi, get_of_lt s j hj]
  simp only [(hs i hi).1, if_true]

/-- For ticks that fit, `Less` is the strict order of the keys. -/
theorem lessAt_iff (s : RlogcHeap α) (hfit : TicksFit s) (i j : Nat) (hi : i < s.queue.length)
    (hj : j < s.queue.length) : s.lessAt i j = true ↔ s.keyAt i < s.keyAt j := by
  unfold RlogcHeap.lessAt
  rw [decide_eq_true_iff]
  exact compare_neg_iff _ _ _ (hfit _ (qat_mem _ _ hi) _ (qat_mem _ _ hj))

theorem lessAt_false_iff (s : RlogcHeap α) (hfit : TicksFit s) (i j : Nat)
    (hi : i < s.queue.length) (hj : j < s.queue.length) :
    s.lessAt i j = false ↔ s.keyAt j ≤ s.keyAt i := by
  rw [← not_lt, ← lessAt_iff s hfit i j hi hj]
  cases s.lessAt i j <;> simp

theorem Swap_eq (s : RlogcHeap α) (i j : Nat) (hi : i < s.queue.length)
    (hj : j < s.queue.length) :
    elemHeap.Swap s (i : Int) (j : Int) = some (swapS s i j) := by
  unfold elemHeap.Swap
  rw [get_of_lt s i hi, get_of_lt s j hj]
  simp only [Int.toNat_ofNat]
  rfl

theorem Same.refl (s : RlogcHeap α) : Same s s :=
  ⟨rfl, rfl, rfl, rfl, fun _ => Iff.rfl, fun _ => rfl, fun _ => rfl, fun _ => rfl,
    fun _ _ => rfl⟩

theorem Same.trans {s t u : RlogcHeap α} (h1 : Same s t) (h2 : Same t u) : Same s u where
  decay := h2.decay.trans h1.decay
  timer := h2.timer.trans h1.timer
  ticks := h2.ticks.trans h1.ticks
  len := h2.len.trans h1.len
  mem := fun p => (h2.mem p).trans (h1.mem p)
  rank := fun p => (h2.rank p).trans (h1.rank p)
  parent := fun p => (h2.parent p).trans (h1.parent p)
  user := fun p => (h2.user p).trans (h1.user p)
  other := fun p hp => (h2.other p (fun h => hp ((h1.mem p).1 h))).trans (h1.other p hp)

theorem Same.key {s t : RlogcHeap α} (h : Same s t) (p : Nat) : t.key p = s.key p := by
  unfold RlogcHeap.key
  rw [h.rank p, h.decay]

theorem Same.ticksFit {s t : RlogcHeap α} (h : Same s t) (hfit : TicksFit s) : TicksFit t := by
  intro p hp q hq
  rw [h.rank p, h.rank q]
  exact hfit p ((h.mem p).1 hp) q ((h.mem q).1 hq)

theorem upd_same {β : Type} (m : Nat → β) (p : Nat) (v : β) : upd m p v p = v := by
  simp [upd]

theorem upd_other {β : Type} (m : Nat → β) (p x : Nat) (v : β) (h : x ≠ p) :
    upd m p v x = m x := by
  simp [upd, h]

theorem swapS_queue (s : RlogcHeap α) (i j : Nat) : (swapS s i j).queue = swapQ s.queue i j :=
  rfl

theorem swapS_elems (s : RlogcHeap α) (i j p : Nat) :
    (swapS s i j).elems p =
      if p = qat s.queue i then { s.elems p with index := (j : Int) }
      else if p = qat s.queue j then { s.elems p with index := (i : Int) }
      else s.elems p := by
  unfold swapS upd
  by_cases h1 : p = qat s.queue i
  · subst h1
    by_cases h2 : qat s.queue i = qat s.queue j
    · simp [h2]
    · simp [h2]
  · by_cases h2 : p = qat s.queue j
    · subst h2
      simp [h1]
    · simp [h1, h2]

theorem swapS_same (s : RlogcHeap α) (i j : Nat) (hi : i < s.queue.length)
    (hj : j < s.queue.length) : Same s (swapS s i j) where
  decay := rfl
  timer := rfl
  ticks := rfl
  len := length_swapQ _ _ _
  mem := fun p => mem_swapQ _ _ _ hi hj p
  rank := fun p => by rw [swapS_elems]; split_ifs <;> rfl
  parent := fun p => by rw [swapS_elems]; split_ifs <;> rfl
  user := fun p => by rw [swapS_elems]; split_ifs <;> rfl
  other := fun p hp => by
    rw [swapS_elems, if_neg, if_neg]
    · intro h; exact hp (h ▸ qat_mem _ _ hj)
    · intro h; exact hp (h ▸ qat_mem _ _ hi)

theorem slots_inj {s : RlogcHeap α} (hs : Slots s) {i j : Nat} (hi : i < s.queue.length)
    (hj : j < s.queue.length) (h : qat s.queue i = qat s.queue j) : i = j := by
  have h1 := (hs i hi).2
  have h2 := (hs j hj).2
  rw [h] at h1
  have := h1.symm.trans h2
  exact_mod_cast this

theorem swapS_slots (s : RlogcHeap α) (i j : Nat) (hs : Slots s) (hi : i < s.queue.length)
    (hj : j < s.queue.length) : Slots (swapS s i j) := by
  intro k hk
  rw [swapS_queue, length_swapQ] at hk
  rw [swapS_queue, qat_swapQ _ _ _ _ hi hj, swapS_elems]
  by_cases h1 : k = j
  · rw [if_pos h1, if_pos rfl, h1]
    exact ⟨(hs i hi).1, rfl⟩
  · rw [if_neg h1]
    by_cases h2 : k = i
    · rw [if_pos h2, if_neg (fun h => h1 (h2.trans (slots_inj hs hj hi h).symm)), if_pos rfl,
        h2]
      exact ⟨(hs j hj).1, rfl⟩
    · rw [if_neg h2, if_neg (fun h => h2 (slots_inj hs hk hi h)),
        if_neg (fun h => h1 (slots_inj hs hk hj h))]
      exact hs k hk

theorem swapS_keyAt (s : RlogcHeap α) (i j : Nat) (hi : i < s.queue.length)
    (hj : j < s.queue.length) : (swapS s i j).keyAt = swapF s.keyAt i j := by
  funext k
  unfold RlogcHeap.keyAt swapF
  rw [(swapS_same s i j hi hj).key, swapS_queue, qat_swapQ _ _ _ _ hi hj]
  by_cases h1 : k = j
  · subst h1
    rw [if_pos rfl]
    by_cases h2 : k = i
    · rw [if_pos h2, h2]
    · rw [if_neg h2, if_pos rfl]
  · rw [if_neg h1]
    by_cases h2 : k = i
    · rw [if_pos h2, if_pos h2]
    · rw [if_neg h2, if_neg h2, if_neg h1]

end Prims

/-! ## The sifting loops -/

section Loops

variable {α : Type} [LinearOrderedRing α]

/-- Loop `up` from slot `j`: it returns, keeps the data-model invariant, touches no slot
beyond `j`, and, for ticks that fit, repairs a heap whose only defect is the edge above
`j`. -/
theorem up_spec (fuel : Nat) : ∀ (s : RlogcHeap α) (j : Nat), Slots s → j < s.queue.length →
    j < fuel →
    ∃ t, heap.up fuel s (j : Int) = some t ∧ Slots t ∧ Same s t ∧
      (∀ k, j < k → qat t.queue k = qat s.queue k) ∧
      (TicksFit s → ∀ n, Hole s.keyAt n j → ChildrenOK s.keyAt n j → HeapOn t.keyAt n) := by
  induction fuel with
  | zero => intro s j _ _ hf; omega
  | succ f ih =>
    intro s j hs hj hf
    rw [heap.up]
    simp only [tdiv_parent]
    by_cases j0 : j = 0
    · subst j0
      refine ⟨s, by simp, hs, Same.refl s, fun _ _ => rfl, fun _ n h hc => ?_⟩
      exact heapOn_of_hole h hc (fun h0 => absurd h0 (by omega))
    · have hne : ¬ ((((j - 1) / 2 : Nat) : Int) = (j : Int)) := by
        intro h
        have := Nat.cast_inj.1 h
        omega
      have hp : (j - 1) / 2 < s.queue.length := by omega
      rw [if_neg hne, Less_eq s j ((j - 1) / 2) hs hj hp]
      cases hlt : s.lessAt j ((j - 1) / 2) with
      | true =>
        simp only [Swap_eq s ((j - 1) / 2) j hp hj]
        have hsame := swapS_same s ((j - 1) / 2) j hp hj
        obtain ⟨t, ht, hts, htsame, htk, hth⟩ :=
          ih (swapS s ((j - 1) / 2) j) ((j - 1) / 2) (swapS_slots s _ _ hs hp hj)
            (by rw [hsame.len]; exact hp) (by omega)
        refine ⟨t, ht, hts, hsame.trans htsame, fun k hk => ?_, fun hfit n h _ => ?_⟩
        · rw [htk k (by omega), swapS_queue, qat_swapQ _ _ _ _ hp hj, if_neg (by omega),
            if_neg (by omega)]
        · have hstep := up_step h (by omega) ((lessAt_iff s hfit _ _ hj hp).1 hlt)
          rw [← swapS_keyAt s _ _ hp hj] at hstep
          exact hth (hsame.ticksFit hfit) n hstep.1 hstep.2
      | false =>
        refine ⟨s, rfl, hs, Same.refl s, fun _ _ => rfl, fun hfit n h hc => ?_⟩
        exact heapOn_of_hole h hc (fun _ => (lessAt_false_iff s hfit _ _ hj hp).1 hlt)

/-- Loop `down` from slot `i` on the first `n` slots: it returns a final slot `r`, keeps
the data-model invariant, leaves the state alone when `r = i`, and, for ticks that fit,
pushes the hole down until the children are in order. -/
theorem down_spec (n : Nat) (fuel : Nat) : ∀ (s : RlogcHeap α) (i : Nat), Slots s →
    n ≤ s.queue.length → 0 < fuel → n < fuel + i →
    ∃ (r : Nat) (t : RlogcHeap α), heap.downLoop (n : Int) fuel s (i : Int) = some ((r : Int), t) ∧
      i ≤ r ∧ (r = i → t = s) ∧ Slots t ∧ Same s t ∧
      (∀ k, (k < i ∨ n ≤ k) → qat t.queue k = qat s.queue k) ∧
      (TicksFit s → Hole s.keyAt n i →
        Hole t.keyAt n r ∧ ChildrenOK t.keyAt n r ∧ (i < r → ParentOK t.keyAt r)) := by
  induction fuel with
  | zero => intro s i _ _ hf; omega
  | succ f ih =>
    intro s i hs hn _ hf
    rw [heap.downLoop]
    by_cases hj1 : n ≤ 2 * i + 1
    · have hc : (2 * (i : Int) + 1 ≥ (n : Int) ∨ 2 * (i : Int) + 1 < 0) := by omega
      simp only [hc, if_true]
      refine ⟨i, s, rfl, le_refl _, fun _ => rfl, hs, Same.refl s, fun _ _ => rfl,
        fun _ h => ?_⟩
      exact ⟨h, fun c _ cn hc => by omega, fun h => absurd h (by omega)⟩
    · have hc : ¬ (2 * (i : Int) + 1 ≥ (n : Int) ∨ 2 * (i : Int) + 1 < 0) := by omega
      simp only [hc, if_false]
      have e1 : (2 * (i : Int) + 1) = ((2 * i + 1 : Nat) : Int) := by push_cast; ring
      have e2 : (2 * (i : Int) + 1 + 1) = ((2 * i + 2 : Nat) : Int) := by push_cast; ring
      rw [e2, e1]
      have h1len : 2 * i + 1 < s.queue.length := by omega
      have hilen : i < s.queue.length := by omega
      -- the child `j` the loop picks, and the outcome `b` of comparing it with slot `i`
      obtain ⟨j, hjeq, hjc, hj0, hjn, hjmin⟩ :
          ∃ j : Nat, (match (if ((2 * i + 2 : Nat) : Int) < (n : Int) then
                elemHeap.Less s ((2 * i + 2 : Nat) : Int) ((2 * i + 1 : Nat) : Int)
              else some false) with
            | none => none
            | some c =>
              match elemHeap.Less s (if c = true then ((2 * i + 2 : Nat) : Int)
                  else ((2 * i + 1 : Nat) : Int)) (i : Int) with
              | none => none
              | some false => some ((i : Int), s)
              | some true =>
                match elemHeap.Swap s (i : Int) (if c = true then ((2 * i + 2 : Nat) : Int)
                    else ((2 * i + 1 : Nat) : Int)) with
                | none => none
                | some s1 => heap.downLoop (n : Int) f s1
                    (if c = true then ((2 * i + 2 : Nat) : Int) else ((2 * i + 1 : Nat) : Int)))
            = (if s.lessAt j i = true then heap.downLoop (n : Int) f (swapS s i j) (j : Int)
                else some ((i : Int), s)) ∧
            (j - 1) / 2 = i ∧ 0 < j ∧ j < n ∧
            (TicksFit s → ∀ c, 0 < c → c < n → (c - 1) / 2 = i → s.keyAt j ≤ s.keyAt c) := by
        by_cases h2 : 2 * i + 2 < n
        · have h2c : ((2 * i + 2 : Nat) : Int) < (n : Int) := by omega
          have h2len : 2 * i + 2 < s.queue.length := by omega
          rw [if_pos h2c, Less_eq s _ _ hs h2len h1len]
          cases hlt : s.lessAt (2 * i + 2) (2 * i + 1) with
          | true =>
            refine ⟨2 * i + 2, ?_, by omega, by omega, h2, ?_⟩
            · simp only [if_true]
              rw [Less_eq s _ _ hs h2len hilen]
              cases hl : s.lessAt (2 * i + 2) i with
              | true => simp only [if_true, Swap_eq s i (2 * i + 2) hilen h2len]
              | false => simp only [Bool.false_eq_true, if_false]
            · intro hfit c c0 cn hc
              have : c = 2 * i + 1 ∨ c = 2 * i + 2 := by omega
              rcases this with h | h
              · rw [h]; exact le_of_lt ((lessAt_iff s hfit _ _ h2len h1len).1 hlt)
              · rw [h]
          | false =>
            refine ⟨2 * i + 1, ?_, by omega, by omega, by omega, ?_⟩
            · simp only [Bool.false_eq_true, if_false]
              rw [Less_eq s _ _ hs h1len hilen]
              cases hl : s.lessAt (2 * i + 1) i with
              | true => simp only [if_true, Swap_eq s i (2 * i + 1) hilen h1len]
              | false => simp only [Bool.false_eq_true, if_false]
            · intro hfit c c0 cn hc
              have : c = 2 * i + 1 ∨ c = 2 * i + 2 := by omega
              rcases this with h | h
              · rw [h]
              · rw [h]; exact (lessAt_false_iff s hfit _ _ h2len h1len).1 hlt
        · have h2c : ¬ ((2 * i + 2 : Nat) : Int) < (n : Int) := by omega
          rw [if_neg h2c]
          refine ⟨2 * i + 1, ?_, by omega, by omega, by omega, ?_⟩
          · simp only [Bool.false_eq_true, if_false]
            rw [Less_eq s _ _ hs h1len hilen]
            cases hl : s.lessAt (2 * i + 1) i with
            | true => simp only [if_true, Swap_eq s i (2 * i + 1) hilen h1len]
            | false => simp only [Bool.false_eq_true, if_false]
          · intro _ c c0 cn hc
            have : c = 2 * i + 1 := by omega
            rw [this]
      rw [hjeq]
      have hjlen : j < s.queue.length := by omega
      cases hl : s.lessAt j i with
      | true =>
        rw [if_pos rfl]
        have hsame := swapS_same s i j hilen hjlen
        obtain ⟨r, t, ht, hir, htr, hts, htsame, htk, hth⟩ :=
          ih (swapS s i j) j (swapS_slots s _ _ hs hilen hjlen)
            (by rw [hsame.len]; exact hn) (by omega) (by omega)
        refine ⟨r, t, ht, by omega, fun h => absurd h (by omega), hts, hsame.trans htsame,
          fun k hk => ?_, fun hfit h => ?_⟩
        · rw [htk k (by omega), swapS_queue, qat_swapQ _ _ _ _ hilen hjlen, if_neg (by omega),
            if_neg (by omega)]
        · have hstep := down_step h hjc hj0 hjn (hjmin hfit)
            ((lessAt_iff s hfit _ _ hjlen hilen).1 hl)
          rw [← swapS_keyAt s _ _ hilen hjlen] at hstep
          obtain ⟨g1, g2, g3⟩ := hth (hsame.ticksFit hfit) hstep.1
          refine ⟨g1, g2, fun _ => ?_⟩
          by_cases hrj : j < r
          · exact g3 hrj
          · have hr : r = j := by omega
            rw [hr] at htr ⊢
            rw [htr rfl]
            exact hstep.2
      | false =>
        rw [if_neg (by decide)]
        refine ⟨i, s, rfl, le_refl _, fun _ => rfl, hs, Same.refl s, fun _ _ => rfl,
          fun hfit h => ?_⟩
        refine ⟨h, fun c c0 cn hc => ?_, fun h => absurd h (by omega)⟩
        exact le_trans ((lessAt_false_iff s hfit _ _ hjlen hilen).1 hl) (hjmin hfit c c0 cn hc)

end Loops

/-! ## container/heap on well-formed queues -/

section HeapPkg

variable {α : Type} [LinearOrderedRing α]

theorem heapOn_congr {β : Type} [LinearOrder β] {a b : Nat → β} {n : Nat}
    (h : ∀ k, k < n → b k = a k) (ha : HeapOn a n) : HeapOn b n := by
  intro c c0 cn
  rw [h c cn, h ((c - 1) / 2) (by omega)]
  exact ha c c0 cn

theorem hole_swap_last {β : Type} [LinearOrder β] {a : Nat → β} {n i : Nat}
    (h : HeapOn a (n + 1)) (hi : i ≤ n) : Hole (swapF a i n) n i := by
  refine ⟨fun c c0 cn h1 h2 => ?_, fun c c0 cn hc i0 => ?_⟩
  · simp only [swapF]
    rw [if_neg h2, if_neg (by omega), if_neg h1, if_neg (by omega)]
    exact h c c0 (by omega)
  · simp only [swapF]
    rw [if_neg (by omega), if_neg (by omega), if_neg (by omega), if_neg (by omega)]
    have h1 := h c c0 (by omega)
    rw [hc] at h1
    exact le_trans (h i i0 (by omega)) h1

theorem down_eq (s : RlogcHeap α) (i n : Nat) (hs : Slots s) (hn : n ≤ s.queue.length) :
    ∃ (r : Nat) (t : RlogcHeap α), heap.down s (i : Int) (n : Int) = some (decide (i < r), t) ∧
      i ≤ r ∧ (r = i → t = s) ∧ Slots t ∧ Same s t ∧
      (∀ k, (k < i ∨ n ≤ k) → qat t.queue k = qat s.queue k) ∧
      (TicksFit s → Hole s.keyAt n i →
        Hole t.keyAt n r ∧ ChildrenOK t.keyAt n r ∧ (i < r → ParentOK t.keyAt r)) := by
  obtain ⟨r, t, h, rest⟩ := down_spec n (s.queue.length + 1) s i hs hn (by omega) (by omega)
  refine ⟨r, t, ?_, rest⟩
  unfold heap.down
  rw [h]
  simp only [gt_iff_lt, Nat.cast_lt]

theorem Pop_eq (s : RlogcHeap α) (h : 0 < s.queue.length) :
    elemHeap.Pop s = some (qat s.queue (s.queue.length - 1), popS s) := by
  unfold elemHeap.Pop
  have e : ((s.queue.length : Int) - 1).toNat = s.queue.length - 1 := by omega
  simp only [e]
  rw [if_neg (by omega), getElem?_of_lt _ _ (by omega)]
  rfl

theorem qat_take (q : List Nat) (n k : Nat) (h : k < n) : qat (q.take n) k = qat q k := by
  unfold qat
  rw [List.getElem?_take_of_lt h]

theorem popS_slots (s : RlogcHeap α) (hs : Slots s) : Slots (popS s) := by
  intro k hk
  have hk2 : k < s.queue.length - 1 := by
    have : (popS s).queue.length = min (s.queue.length - 1) s.queue.length := List.length_take _ _
    omega
  have hq : qat (popS s).queue k = qat s.queue k := qat_take _ _ _ hk2
  rw [hq]
  have hne : qat s.queue k ≠ qat s.queue (s.queue.length - 1) := by
    intro h
    have := slots_inj hs (by omega) (by omega) h
    omega
  have he : (popS s).elems (qat s.queue k) = s.elems (qat s.queue k) := upd_other _ _ _ _ hne
  rw [he]
  exact hs k (by omega)

theorem popS_keyAt (s : RlogcHeap α) (k : Nat) (hk : k < s.queue.length - 1) :
    (popS s).keyAt k = s.keyAt k := by
  unfold RlogcHeap.keyAt RlogcHeap.key
  have hq : qat (popS s).queue k = qat s.queue k := qat_take _ _ _ hk
  have hd : (popS s).Decay = s.Decay := rfl
  rw [hq, hd]
  by_cases h : qat s.queue k = qat s.queue (s.queue.length - 1)
  · have : (popS s).elems (qat s.queue k) =
        { s.elems (qat s.queue k) with index := -1 } := by
      unfold popS
      simp only [upd, h, if_true]
    rw [this]
  · have he : (popS s).elems (qat s.queue k) = s.elems (qat s.queue k) := upd_other _ _ _ _ h
    rw [he]

theorem slots_nodup {s : RlogcHeap α} (hs : Slots s) : s.queue.Nodup := by
  rw [List.nodup_iff_getElem?_ne_getElem?]
  intro i j hij hj h
  rw [getElem?_of_lt _ _ (by omega), getElem?_of_lt _ _ hj] at h
  have := slots_inj hs (by omega) hj (Option.some.inj h)
  omega

theorem mem_take_last {s : RlogcHeap α} (hs : Slots s) (h : 0 < s.queue.length) (p : Nat) :
    p ∈ s.queue.take (s.queue.length - 1) ↔
      p ∈ s.queue ∧ p ≠ qat s.queue (s.queue.length - 1) := by
  constructor
  · intro hp
    obtain ⟨k, hk, hkp⟩ := exists_qat_of_mem hp
    have hlen : (s.queue.take (s.queue.length - 1)).length =
        min (s.queue.length - 1) s.queue.length := List.length_take _ _
    have hk2 : k < s.queue.length - 1 := by omega
    rw [qat_take _ _ _ hk2] at hkp
    refine ⟨hkp ▸ qat_mem _ _ (by omega), fun he => ?_⟩
    have := slots_inj hs (by omega) (by omega) (hkp.trans he)
    omega
  · rintro ⟨hp, hne⟩
    obtain ⟨k, hk, hkp⟩ := exists_qat_of_mem hp
    have hk2 : k < s.queue.length - 1 := by
      by_contra hc
      have : k = s.queue.length - 1 := by omega
      rw [this] at hkp
      exact hne hkp.symm
    have hlen : (s.queue.take (s.queue.length - 1)).length =
        min (s.queue.length - 1) s.queue.length := List.length_take _ _
    have := qat_mem (s.queue.take (s.queue.length - 1)) k (by omega)
    rw [qat_take _ _ _ hk2, hkp] at this
    exact this

/-- Popping the last slot of a state that is `Same` as `s` lands in `removeS s e`. -/
theorem popS_same (s t : RlogcHeap α) (e : Nat) (hs : Slots s) (ht : Slots t)
    (h0 : 0 < s.queue.length) (hst : Same s t) (he : qat t.queue (t.queue.length - 1) = e) :
    Same (removeS s e) (popS t) := by
  have hlen := hst.len
  have hes : e ∈ s.queue := by
    rw [← hst.mem, ← he]
    exact qat_mem _ _ (by omega)
  have hmem : ∀ p, p ∈ (popS t).queue ↔ p ∈ (removeS s e).queue := by
    intro p
    have h1 : (popS t).queue = t.queue.take (t.queue.length - 1) := rfl
    have h2 : (removeS s e).queue = s.queue.erase e := rfl
    rw [h1, h2, mem_take_last ht (by omega), (slots_nodup hs).mem_erase_iff, he, hst.mem]
    exact and_comm
  have hel : ∀ p, (popS t).elems p =
      if p = e then { t.elems p with index := -1 } else t.elems p := by
    intro p
    unfold popS
    simp only [upd, he]
    split_ifs with h
    · rw [h]
    · rfl
  have hel2 : ∀ p, (removeS s e).elems p =
      if p = e then { s.elems p with index := -1 } else s.elems p := by
    intro p
    unfold removeS
    simp only [upd]
    split_ifs with h
    · rw [h]
    · rfl
  refine ⟨hst.decay, hst.timer, hst.ticks, ?_, hmem, ?_, ?_, ?_, ?_⟩
  · have h1 : (popS t).queue.length = min (t.queue.length - 1) t.queue.length :=
      List.length_take _ _
    have h2 : (removeS s e).queue.length = s.queue.length - 1 :=
      List.length_erase_of_mem hes
    omega
  · intro p
    rw [hel, hel2]
    split_ifs
    · exact hst.rank p
    · exact hst.rank p
  · intro p
    rw [hel, hel2]
    split_ifs
    · exact hst.parent p
    · exact hst.parent p
  · intro p
    rw [hel, hel2]
    split_ifs
    · exact hst.user p
    · exact hst.user p
  · intro p hp
    rw [hel, hel2]
    have h2 : (removeS s e).queue = s.queue.erase e := rfl
    rw [h2, (slots_nodup hs).mem_erase_iff] at hp
    by_cases hpe : p = e
    · rw [if_pos hpe, if_pos hpe]
      have h1 := hst.rank p
      have h3 := hst.parent p
      have h4 := hst.user p
      cases ht' : t.elems p
      cases hs' : s.elems p
      rw [ht', hs'] at h1 h3 h4
      simp only at h1 h3 h4
      simp only [h1, h3, h4]
    · rw [if_neg hpe, if_neg hpe]
      exact hst.other p (fun h => hp ⟨hpe, h⟩)

theorem finish_pop (s t : RlogcHeap α) (e : Nat) (hs : Slots s) (ht : Slots t)
    (h0 : 0 < s.queue.length) (hst : Same s t) (he : qat t.queue (s.queue.length - 1) = e) :
    elemHeap.Pop t = some (e, popS t) ∧ Slots (popS t) ∧ Same (removeS s e) (popS t) ∧
      (HeapOn t.keyAt (s.queue.length - 1) → HeapOn (popS t).keyAt (s.queue.length - 1)) := by
  have hlen := hst.len
  rw [← hlen] at he
  refine ⟨?_, popS_slots t ht, popS_same s t e hs ht h0 hst he, fun h => ?_⟩
  · rw [Pop_eq t (by omega), he]
  · exact heapOn_congr (fun k hk => popS_keyAt t k (by omega)) h

theorem heapPop_spec (s : RlogcHeap α) (hs : Slots s) (h0 : 0 < s.queue.length) :
    ∃ t, heap.Pop s = some (qat s.queue 0, t) ∧ Slots t ∧ Same (removeS s (qat s.queue 0)) t ∧
      (TicksFit s → HeapOn s.keyAt s.queue.length → HeapOn t.keyAt (s.queue.length - 1)) := by
  have hn : s.queue.length - 1 < s.queue.length := by omega
  have e1 : elemHeap.Len s - 1 = ((s.queue.length - 1 : Nat) : Int) := by
    unfold elemHeap.Len; omega
  have e0 : (0 : Int) = ((0 : Nat) : Int) := rfl
  unfold heap.Pop
  simp only [e1]
  rw [e0, Swap_eq s 0 _ h0 hn]
  have hsame := swapS_same s 0 (s.queue.length - 1) h0 hn
  obtain ⟨r, t2, hd, _, _, ht2, hsame2, hk2, hord⟩ :=
    down_eq (swapS s 0 (s.queue.length - 1)) 0 (s.queue.length - 1)
      (swapS_slots s _ _ hs h0 hn) (by rw [hsame.len]; omega)
  simp only [hd]
  have hlast : qat t2.queue (s.queue.length - 1) = qat s.queue 0 := by
    rw [hk2 _ (Or.inr (le_refl _)), swapS_queue, qat_swapQ _ _ _ _ h0 hn, if_pos rfl]
  obtain ⟨g1, g2, g3, g4⟩ := finish_pop s t2 _ hs ht2 h0 (hsame.trans hsame2) hlast
  refine ⟨popS t2, g1, g2, g3, fun hfit h => g4 ?_⟩
  have hh : HeapOn s.keyAt (s.queue.length - 1 + 1) := by
    rw [Nat.sub_add_cancel h0]; exact h
  have hhole := hole_swap_last hh (Nat.zero_le _)
  rw [← swapS_keyAt s _ _ h0 hn] at hhole
  obtain ⟨a1, a2, a3⟩ := hord (hsame.ticksFit hfit) hhole
  refine heapOn_of_hole a1 a2 (fun hr => a3 hr hr)

theorem heapRemove_spec (s : RlogcHeap α) (i : Nat) (hs : Slots s) (hi : i < s.queue.length) :
    ∃ t, heap.Remove s (i : Int) = some (qat s.queue i, t) ∧ Slots t ∧
      Same (removeS s (qat s.queue i)) t ∧
      (TicksFit s → HeapOn s.keyAt s.queue.length → HeapOn t.keyAt (s.queue.length - 1)) := by
  have h0 : 0 < s.queue.length := by omega
  have hn : s.queue.length - 1 < s.queue.length := by omega
  have e1 : elemHeap.Len s - 1 = ((s.queue.length - 1 : Nat) : Int) := by
    unfold elemHeap.Len; omega
  unfold heap.Remove
  simp only [e1]
  by_cases hin : s.queue.length - 1 = i
  · have hc : ¬ (((s.queue.length - 1 : Nat) : Int) ≠ (i : Int)) := by omega
    rw [if_neg hc]
    obtain ⟨g1, g2, g3, g4⟩ := finish_pop s s _ hs hs h0 (Same.refl s) (by rw [hin])
    exact ⟨popS s, g1, g2, g3, fun _ h => g4 (heapOn_mono h (by omega))⟩
  · have hc : (((s.queue.length - 1 : Nat) : Int) ≠ (i : Int)) := by omega
    rw [if_pos hc, Swap_eq s i _ hi hn]
    have hsame := swapS_same s i (s.queue.length - 1) hi hn
    have hslots := swapS_slots s _ _ hs hi hn
    obtain ⟨r, t2, hd, hir, hr, ht2, hsame2, hk2, hord⟩ :=
      down_eq (swapS s i (s.queue.length - 1)) i (s.queue.length - 1) hslots
        (by rw [hsame.len]; omega)
    simp only [hd]
    have hlast : qat t2.queue (s.queue.length - 1) = qat s.queue i := by
      rw [hk2 _ (Or.inr (le_refl _)), swapS_queue, qat_swapQ _ _ _ _ hi hn, if_pos rfl]
    have hhole : HeapOn s.keyAt s.queue.length →
        Hole (swapS s i (s.queue.length - 1)).keyAt (s.queue.length - 1) i := by
      intro h
      have hh : HeapOn s.keyAt (s.queue.length - 1 + 1) := by
        rw [Nat.sub_add_cancel h0]; exact h
      have := hole_swap_last hh (i := i) (by omega)
      rw [← swapS_keyAt s _ _ hi hn] at this
      exact this
    by_cases hmoved : i < r
    · simp only [decide_eq_true hmoved]
      obtain ⟨g1, g2, g3, g4⟩ := finish_pop s t2 _ hs ht2 h0 (hsame.trans hsame2) hlast
      refine ⟨popS t2, g1, g2, g3, fun hfit h => g4 ?_⟩
      obtain ⟨a1, a2, a3⟩ := hord (hsame.ticksFit hfit) (hhole h)
      exact heapOn_of_hole a1 a2 (a3 hmoved)
    · simp only [decide_eq_false hmoved]
      have hri : r = i := by omega
      have hl2 := (hsame.trans hsame2).len
      obtain ⟨t3, hu, ht3, hsame3, hk3, hord3⟩ :=
        up_spec (t2.queue.length + 1) t2 i ht2 (by rw [hl2]; exact hi) (by rw [hl2]; omega)
      simp only [hu]
      have hlast3 : qat t3.queue (s.queue.length - 1) = qat s.queue i := by
        rw [hk3 _ (by omega)]; exact hlast
      obtain ⟨g1, g2, g3, g4⟩ :=
        finish_pop s t3 _ hs ht3 h0 ((hsame.trans hsame2).trans hsame3) hlast3
      refine ⟨popS t3, g1, g2, g3, fun hfit h => g4 ?_⟩
      obtain ⟨a1, a2, _⟩ := hord (hsame.ticksFit hfit) (hhole h)
      rw [hri] at a1 a2
      exact hord3 ((hsame.trans hsame2).ticksFit hfit) _ a1 a2

theorem heapFix_spec (s : RlogcHeap α) (i : Nat) (hs : Slots s) (hi : i < s.queue.length) :
    ∃ t, heap.Fix s (i : Int) = some t ∧ Slots t ∧ Same s t ∧
      (TicksFit s → Hole s.keyAt s.queue.length i → HeapOn t.keyAt s.queue.length) := by
  unfold heap.Fix
  have e1 : elemHeap.Len s = ((s.queue.length : Nat) : Int) := rfl
  rw [e1]
  obtain ⟨r, t2, hd, hir, hr, ht2, hsame2, _, hord⟩ :=
    down_eq s i s.queue.length hs (le_refl _)
  simp only [hd]
  by_cases hmoved : i < r
  · simp only [decide_eq_true hmoved]
    refine ⟨t2, rfl, ht2, hsame2, fun hfit h => ?_⟩
    obtain ⟨a1, a2, a3⟩ := hord hfit h
    exact heapOn_of_hole a1 a2 (a3 hmoved)
  · simp only [decide_eq_false hmoved]
    have hri : r = i := by omega
    have hl2 := hsame2.len
    obtain ⟨t3, hu, ht3, hsame3, _, hord3⟩ :=
      up_spec (t2.queue.length + 1) t2 i ht2 (by rw [hl2]; exact hi) (by rw [hl2]; omega)
    refine ⟨t3, hu, ht3, hsame2.trans hsame3, fun hfit h => ?_⟩
    obtain ⟨a1, a2, _⟩ := hord hfit h
    rw [hri] at a1 a2
    exact hord3 (hsame2.ticksFit hfit) _ a1 a2

theorem qat_append_left (q : List Nat) (x k : Nat) (h : k < q.length) :
    qat (q ++ [x]) k = qat q k := by
  unfold qat
  rw [List.getElem?_append_left h]

theorem qat_append_last (q : List Nat) (x : Nat) : qat (q ++ [x]) q.length = x := by
  unfold qat
  rw [List.getElem?_append_right (le_refl _)]
  simp

theorem heapPush_spec (s : RlogcHeap α) (x : Nat) (hs : Slots s) (hx : x ∉ s.queue)
    (hp : (s.elems x).parent = true) :
    ∃ t, heap.Push s x = some t ∧ Slots t ∧ Same (elemHeap.Push s x) t ∧
      (TicksFit (elemHeap.Push s x) → HeapOn s.keyAt s.queue.length →
        HeapOn t.keyAt (s.queue.length + 1)) := by
  have hq : (elemHeap.Push s x).queue = s.queue ++ [x] := rfl
  have hlen : (elemHeap.Push s x).queue.length = s.queue.length + 1 := by
    rw [hq]; simp
  have hel : ∀ p, p ≠ x → (elemHeap.Push s x).elems p = s.elems p :=
    fun p h => upd_other _ _ _ _ h
  have helx : (elemHeap.Push s x).elems x = { s.elems x with index := (s.queue.length : Int) } :=
    upd_same _ _ _
  have hslots : Slots (elemHeap.Push s x) := by
    intro k hk
    rw [hlen] at hk
    rw [hq]
    by_cases hkl : k < s.queue.length
    · rw [qat_append_left _ _ _ hkl, hel _ (fun h => hx (h ▸ qat_mem _ _ hkl))]
      exact hs k hkl
    · have : k = s.queue.length := by omega
      rw [this, qat_append_last, helx]
      exact ⟨hp, rfl⟩
  have hkey : ∀ k, k < s.queue.length → (elemHeap.Push s x).keyAt k = s.keyAt k := by
    intro k hk
    unfold RlogcHeap.keyAt RlogcHeap.key
    rw [hq, qat_append_left _ _ _ hk, hel _ (fun h => hx (h ▸ qat_mem _ _ hk))]
    rfl
  unfold heap.Push
  have e1 : elemHeap.Len (elemHeap.Push s x) - 1 = ((s.queue.length : Nat) : Int) := by
    unfold elemHeap.Len; rw [hlen]; omega
  simp only [e1]
  obtain ⟨t, hu, ht, hsame, _, hord⟩ :=
    up_spec ((elemHeap.Push s x).queue.length + 1) (elemHeap.Push s x) s.queue.length hslots
      (by omega) (by omega)
  refine ⟨t, hu, ht, hsame, fun hfit h => hord hfit _
    ⟨fun c c0 cn h1 h2 => ?_, fun c c0 cn hc _ => ?_⟩ (fun c c0 cn hc => ?_)⟩
  · rw [hkey c (by omega), hkey _ (by omega)]
    exact h c c0 (by omega)
  · omega
  · omega

end HeapPkg

/-! ## The four heap operations -/

section HeapOps

variable {α : Type} [LinearOrderedRing α]

theorem Same.attached {s t : RlogcHeap α} (h : Same s t) (ha : Attached s) : Attached t :=
  fun p hp => (h.mem p).2 (ha p ((h.parent p) ▸ hp))

theorem slots_not_mem {s : RlogcHeap α} (hs : Slots s) {e : Nat}
    (h : (s.elems e).parent = false) : e ∉ s.queue := by
  intro hm
  obtain ⟨i, hi, hie⟩ := exists_qat_of_mem hm
  have := (hs i hi).1
  rw [hie, h] at this
  exact Bool.noConfusion this

theorem slots_index {s : RlogcHeap α} (hs : Slots s) {e : Nat} (hm : e ∈ s.queue) :
    ∃ i, i < s.queue.length ∧ qat s.queue i = e ∧ (s.elems e).index = (i : Int) := by
  obtain ⟨i, hi, hie⟩ := exists_qat_of_mem hm
  exact ⟨i, hi, hie, hie ▸ (hs i hi).2⟩

theorem hole_of_update {β : Type} [LinearOrder β] {a b : Nat → β} {n i : Nat}
    (h : HeapOn a n) (hi : i < n) (hb : ∀ k, k < n → k ≠ i → b k = a k) : Hole b n i := by
  refine ⟨fun c c0 cn h1 h2 => ?_, fun c c0 cn hc i0 => ?_⟩
  · rw [hb c cn h1, hb _ (by omega) h2]
    exact h c c0 cn
  · rw [hb c cn (by omega), hb _ (by omega) (by omega)]
    have h1 := h c c0 cn
    rw [hc] at h1
    exact le_trans (h i i0 hi) h1

theorem Enter_attached (s : RlogcHeap α) (e : Nat) (h : (s.elems e).parent = true) :
    RlogcHeap.Enter s e = some s := by
  unfold RlogcHeap.Enter
  rw [if_pos h]

theorem Enter_spec (s : RlogcHeap α) (e : Nat) (hinv : Inv s)
    (h : (s.elems e).parent = false) :
    ∃ t, RlogcHeap.Enter s e = some t ∧ Same (enterS s e) t ∧ Inv t ∧
      (TicksFit (enterS s e) → HeapOn s.keyAt s.queue.length →
        HeapOn t.keyAt t.queue.length) := by
  obtain ⟨hs, ha⟩ := hinv
  have hne : e ∉ s.queue := slots_not_mem hs h
  unfold RlogcHeap.Enter
  rw [if_neg (by rw [h]; exact Bool.false_ne_true)]
  simp only []
  generalize hr1 : ({ s with
      ticks := s.ticks + 1
      elems := upd s.elems e
        { s.elems e with
          parent := true
          rank := (s.elems e).rank.Enter (s.Timer s.ticks) s.Decay
          index := elemHeap.Len s } } : RlogcHeap α) = r1
  have hq : r1.queue = s.queue := by rw [← hr1]
  have hd : r1.Decay = s.Decay := by rw [← hr1]
  have hel : ∀ p, p ≠ e → r1.elems p = s.elems p := by
    intro p hp; rw [← hr1]; exact upd_other _ _ _ _ hp
  have hele : r1.elems e = { s.elems e with
      parent := true
      rank := (s.elems e).rank.Enter (s.Timer s.ticks) s.Decay
      index := elemHeap.Len s } := by
    rw [← hr1]; exact upd_same _ _ _
  have hs1 : Slots r1 := by
    intro k hk
    rw [hq] at hk ⊢
    rw [hel _ (fun hh => hne (hh ▸ qat_mem _ _ hk))]
    exact hs k hk
  have hkey : ∀ k, k < s.queue.length → r1.keyAt k = s.keyAt k := by
    intro k hk
    unfold RlogcHeap.keyAt RlogcHeap.key
    rw [hq, hd, hel _ (fun hh => hne (hh ▸ qat_mem _ _ hk))]
  obtain ⟨t, hp, ht, hsame, hord⟩ :=
    heapPush_spec r1 e hs1 (by rw [hq]; exact hne) (by rw [hele])
  have href : elemHeap.Push r1 e = enterS s e := by
    rw [← hr1]
    unfold elemHeap.Push enterS elemHeap.Len
    congr 1
    funext p
    unfold upd
    by_cases hpe : p = e
    · simp [hpe]
    · simp [hpe]
  rw [href] at hsame hord
  refine ⟨t, hp, hsame, ⟨ht, ?_⟩, fun hfit ho => ?_⟩
  · refine hsame.attached (fun p hpp => ?_)
    have hq2 : (enterS s e).queue = s.queue ++ [e] := rfl
    rw [hq2]
    by_cases hpe : p = e
    · simp [hpe]
    · have : (enterS s e).elems p = s.elems p := upd_other _ _ _ _ hpe
      rw [this] at hpp
      exact List.mem_append_left _ (ha p hpp)
  · have hl : t.queue.length = s.queue.length + 1 := by
      rw [hsame.len]
      show (s.queue ++ [e]).length = _
      simp
    rw [hl]
    rw [hq] at hord
    exact hord hfit (heapOn_congr hkey ho)

/-- Clearing the parent of an element that has left the queue. -/
theorem clearParent (s t1 : RlogcHeap α) (e : Nat) (ht1 : Slots t1)
    (hsame : Same (removeS s e) t1) (hs : Slots s) :
    Slots { t1 with elems := upd t1.elems e { t1.elems e with parent := false } } ∧
    Same (detachS s e)
      { t1 with elems := upd t1.elems e { t1.elems e with parent := false } } ∧
    (∀ k, RlogcHeap.keyAt
      { t1 with elems := upd t1.elems e { t1.elems e with parent := false } } k =
        t1.keyAt k) := by
  have hne : e ∉ t1.queue := by
    rw [hsame.mem]
    show e ∉ s.queue.erase e
    exact (slots_nodup hs).not_mem_erase
  have hel : ∀ p, (upd t1.elems e { t1.elems e with parent := false }) p =
      if p = e then { t1.elems p with parent := false } else t1.elems p := by
    intro p
    unfold upd
    split_ifs with hh
    · rw [hh]
    · rfl
  have hel2 : ∀ p, (detachS s e).elems p =
      if p = e then { s.elems p with parent := false, index := -1 } else s.elems p := by
    intro p
    unfold detachS upd
    simp only []
    split_ifs with hh
    · rw [hh]
    · rfl
  have hel3 : ∀ p, (removeS s e).elems p =
      if p = e then { s.elems p with index := -1 } else s.elems p := by
    intro p
    unfold removeS upd
    simp only []
    split_ifs with hh
    · rw [hh]
    · rfl
  refine ⟨?_, ⟨hsame.decay, hsame.timer, hsame.ticks, hsame.len, hsame.mem, ?_, ?_, ?_, ?_⟩, ?_⟩
  · intro k hk
    show ((upd t1.elems e { t1.elems e with parent := false }) (qat t1.queue k)).parent = true ∧
      ((upd t1.elems e { t1.elems e with parent := false }) (qat t1.queue k)).index = (k : Int)
    rw [upd_other _ _ _ _ (fun hh : qat t1.queue k = e => hne (hh ▸ qat_mem t1.queue k hk))]
    exact ht1 k hk
  · intro p
    show ((upd t1.elems e { t1.elems e with parent := false }) p).rank = _
    have := hsame.rank p
    rw [hel3] at this
    rw [hel, hel2]
    split_ifs at this ⊢ <;> exact this
  · intro p
    show ((upd t1.elems e { t1.elems e with parent := false }) p).parent = _
    have := hsame.parent p
    rw [hel3] at this
    rw [hel, hel2]
    split_ifs at this ⊢
    · rfl
    · exact this
  · intro p
    show ((upd t1.elems e { t1.elems e with parent := false }) p).UserData = _
    have := hsame.user p
    rw [hel3] at this
    rw [hel, hel2]
    split_ifs at this ⊢ <;> exact this
  · intro p hp
    show (upd t1.elems e { t1.elems e with parent := false }) p = _
    have := hsame.other p hp
    rw [hel3] at this
    rw [hel, hel2]
    split_ifs at this ⊢ with hh
    · rw [this]
    · exact this
  · intro k
    unfold RlogcHeap.keyAt RlogcHeap.key
    show ((upd t1.elems e { t1.elems e with parent := false }) (qat t1.queue k)).rank.key _ = _
    rw [hel]
    split_ifs <;> rfl

theorem EvictNode_empty (s : RlogcHeap α) (h : s.queue = []) :
    RlogcHeap.EvictNode s = some (none, s) := by
  unfold RlogcHeap.EvictNode elemHeap.Len
  rw [h]
  simp

theorem EvictNode_spec (s : RlogcHeap α) (hs : Slots s) (h0 : 0 < s.queue.length) :
    ∃ t, RlogcHeap.EvictNode s = some (some (qat s.queue 0), t) ∧
      Same (detachS s (qat s.queue 0)) t ∧ Slots t ∧
      (TicksFit s → HeapOn s.keyAt s.queue.length → HeapOn t.keyAt t.queue.length) := by
  unfold RlogcHeap.EvictNode elemHeap.Len
  rw [if_neg (by omega)]
  obtain ⟨t1, hp, ht1, hsame, hord⟩ := heapPop_spec s hs h0
  simp only [hp]
  obtain ⟨g1, g2, g3⟩ := clearParent s t1 _ ht1 hsame hs
  refine ⟨_, rfl, g2, g1, fun hfit h => ?_⟩
  have hl : t1.queue.length = s.queue.length - 1 := by
    rw [hsame.len]
    exact List.length_erase_of_mem (qat_mem _ _ h0)
  show HeapOn _ t1.queue.length
  rw [hl]
  exact heapOn_congr (fun k _ => g3 k) (hord hfit h)

theorem Evict_detached (s : RlogcHeap α) (e : Nat) (h : (s.elems e).parent = false) :
    Element.Evict s e = some s := by
  unfold Element.Evict
  rw [if_neg (by rw [h]; exact Bool.false_ne_true)]

theorem Evict_spec (s : RlogcHeap α) (e : Nat) (hs : Slots s) (hm : e ∈ s.queue) :
    ∃ t, Element.Evict s e = some t ∧ Same (detachS s e) t ∧ Slots t ∧
      (TicksFit s → HeapOn s.keyAt s.queue.length → HeapOn t.keyAt t.queue.length) := by
  obtain ⟨i, hi, hie, hidx⟩ := slots_index hs hm
  have hpar : (s.elems e).parent = true := hie ▸ (hs i hi).1
  unfold Element.Evict
  rw [if_pos hpar, hidx]
  obtain ⟨t1, hp, ht1, hsame, hord⟩ := heapRemove_spec s i hs hi
  rw [hie] at hp hsame
  simp only [hp]
  obtain ⟨g1, g2, g3⟩ := clearParent s t1 _ ht1 hsame hs
  refine ⟨_, rfl, g2, g1, fun hfit h => ?_⟩
  have hl : t1.queue.length = s.queue.length - 1 := by
    rw [hsame.len]
    exact List.length_erase_of_mem hm
  show HeapOn _ t1.queue.length
  rw [hl]
  exact heapOn_congr (fun k _ => g3 k) (hord hfit h)

theorem Promote_detached (incr : α → α) (s : RlogcHeap α) (e : Nat)
    (h : (s.elems e).parent = false) : Element.Promote incr s e = some s := by
  unfold Element.Promote
  rw [if_neg (by rw [h]; exact Bool.false_ne_true)]

theorem Promote_spec (incr : α → α) (s : RlogcHeap α) (e : Nat) (hs : Slots s)
    (hm : e ∈ s.queue) :
    ∃ t, Element.Promote incr s e = some t ∧ Same (accessS incr s e) t ∧ Slots t ∧
      (TicksFit (accessS incr s e) → HeapOn s.keyAt s.queue.length →
        HeapOn t.keyAt t.queue.length) := by
  obtain ⟨i, hi, hie, hidx⟩ := slots_index hs hm
  have hpar : (s.elems e).parent = true := hie ▸ (hs i hi).1
  unfold Element.Promote
  rw [if_pos hpar]
  simp only []
  have hq : (accessS incr s e).queue = s.queue := rfl
  have hel : ∀ p, p ≠ e → (accessS incr s e).elems p = s.elems p :=
    fun p hp => upd_other _ _ _ _ hp
  have hele : (accessS incr s e).elems e =
      { s.elems e with rank := (s.elems e).rank.Access incr (s.Timer s.ticks) s.Decay } :=
    upd_same _ _ _
  have hs1 : Slots (accessS incr s e) := by
    intro k hk
    rw [hq] at hk ⊢
    by_cases hke : qat s.queue k = e
    · rw [hke, hele]
      exact hke ▸ hs k hk
    · rw [hel _ hke]
      exact hs k hk
  have hidx1 : ((accessS incr s e).elems e).index = (i : Int) := by
    rw [hele]; exact hidx
  show ∃ t, heap.Fix (accessS incr s e) ((accessS incr s e).elems e).index = some t ∧ _
  rw [hidx1]
  obtain ⟨t, hf, ht, hsame, hord⟩ := heapFix_spec (accessS incr s e) i hs1 (by rw [hq]; exact hi)
  refine ⟨t, hf, hsame, ht, fun hfit h => ?_⟩
  rw [hsame.len]
  apply hord hfit
  rw [hq]
  refine hole_of_update h hi (fun k hkl hk => ?_)
  unfold RlogcHeap.keyAt RlogcHeap.key
  rw [hq, hel _ (fun hh => hk (slots_inj hs hkl hi (hh.trans hie.symm)))]
  rfl

theorem detachS_attached {s : RlogcHeap α} (hs : Slots s) (ha : Attached s) (e : Nat) :
    Attached (detachS s e) := by
  intro p hp
  show p ∈ s.queue.erase e
  rw [(slots_nodup hs).mem_erase_iff]
  by_cases hpe : p = e
  · have : (detachS s e).elems p = { s.elems e with parent := false, index := -1 } := by
      rw [hpe]; exact upd_same _ _ _
    rw [this] at hp
    exact Bool.noConfusion hp
  · have : (detachS s e).elems p = s.elems p := upd_other _ _ _ _ hpe
    rw [this] at hp
    exact ⟨hpe, ha p hp⟩

theorem accessS_attached {s : RlogcHeap α} (ha : Attached s) (incr : α → α) (e : Nat) :
    Attached (accessS incr s e) := by
  intro p hp
  show p ∈ s.queue
  by_cases hpe : p = e
  · have : (accessS incr s e).elems p =
        { s.elems e with rank := (s.elems e).rank.Access incr (s.Timer s.ticks) s.Decay } := by
      rw [hpe]; exact upd_same _ _ _
    rw [this] at hp
    exact hpe ▸ ha e hp
  · have : (accessS incr s e).elems p = s.elems p := upd_other _ _ _ _ hpe
    rw [this] at hp
    exact ha p hp

theorem inv_empty (decay : α) (timer : Nat → Int) : Inv (RlogcHeap.empty decay timer) := by
  refine ⟨fun i hi => absurd hi (Nat.not_lt_zero _), fun p hp => ?_⟩
  exact Bool.noConfusion hp

theorem EvictNode_inv (s : RlogcHeap α) (hinv : Inv s) :
    ∃ r t, RlogcHeap.EvictNode s = some (r, t) ∧ Inv t := by
  by_cases h0 : s.queue = []
  · exact ⟨none, s, EvictNode_empty s h0, hinv⟩
  · obtain ⟨hs, ha⟩ := hinv
    obtain ⟨t, he, hsame, ht, _⟩ := EvictNode_spec s hs (List.length_pos.2 h0)
    exact ⟨_, t, he, ht, hsame.attached (detachS_attached hs ha _)⟩

theorem Evict_inv (s : RlogcHeap α) (e : Nat) (hinv : Inv s) :
    ∃ t, Element.Evict s e = some t ∧ Inv t := by
  cases hp : (s.elems e).parent with
  | false => exact ⟨s, Evict_detached s e hp, hinv⟩
  | true =>
    obtain ⟨hs, ha⟩ := hinv
    obtain ⟨t, he, hsame, ht, _⟩ := Evict_spec s e hs (ha e hp)
    exact ⟨t, he, ht, hsame.attached (detachS_attached hs ha _)⟩

theorem Promote_inv (incr : α → α) (s : RlogcHeap α) (e : Nat) (hinv : Inv s) :
    ∃ t, Element.Promote incr s e = some t ∧ Inv t := by
  cases hp : (s.elems e).parent with
  | false => exact ⟨s, Promote_detached incr s e hp, hinv⟩
  | true =>
    obtain ⟨hs, ha⟩ := hinv
    obtain ⟨t, he, hsame, ht, _⟩ := Promote_spec incr s e hs (ha e hp)
    exact ⟨t, he, ht, hsame.attached (accessS_attached ha incr e)⟩

theorem Enter_inv (s : RlogcHeap α) (e : Nat) (hinv : Inv s) :
    ∃ t, RlogcHeap.Enter s e = some t ∧ Inv t := by
  cases hp : (s.elems e).parent with
  | true => exact ⟨s, Enter_attached s e hp, hinv⟩
  | false =>
    obtain ⟨t, he, _, ht, _⟩ := Enter_spec s e hinv hp
    exact ⟨t, he, ht⟩

theorem run_inv (incr : α → α) (op : HeapOp) (s : RlogcHeap α) (hinv : Inv s) :
    ∃ t, op.run incr s = some t ∧ Inv t := by
  cases op with
  | enter e => exact Enter_inv s e hinv
  | evictNode =>
    obtain ⟨r, t, he, ht⟩ := EvictNode_inv s hinv
    exact ⟨t, by simp only [HeapOp.run, he], ht⟩
  | evict e => exact Evict_inv s e hinv
  | promote e => exact Promote_inv incr s e hinv

theorem runOps_inv (incr : α → α) (ops : List HeapOp) : ∀ (s : RlogcHeap α), Inv s →
    ∃ t, runOps incr ops s = some t ∧ Inv t := by
  induction ops with
  | nil => intro s hinv; exact ⟨s, rfl, hinv⟩
  | cons op ops ih =>
    intro s hinv
    obtain ⟨t, ht, htinv⟩ := run_inv incr op s hinv
    obtain ⟨u, hu, huinv⟩ := ih t htinv
    exact ⟨u, by simp only [runOps, ht, hu], huinv⟩

theorem rank_of_same_detach {s t : RlogcHeap α} {e : Nat} (h : Same (detachS s e) t)
    (p : Nat) : (t.elems p).rank = (s.elems p).rank := by
  rw [h.rank]
  by_cases hp : p = e
  · have : (detachS s e).elems p = { s.elems e with parent := false, index := -1 } := by
      rw [hp]; exact upd_same _ _ _
    rw [this, hp]
  · have : (detachS s e).elems p = s.elems p := upd_other _ _ _ _ hp
    rw [this]

theorem rank_of_same_enter {s t : RlogcHeap α} {e : Nat} (h : Same (enterS s e) t) :
    (t.elems e).rank = { LogC := 0, Time := s.Timer s.ticks } ∧
    ∀ x, x ≠ e → (t.elems x).rank = (s.elems x).rank := by
  constructor
  · rw [h.rank]
    have : (enterS s e).elems e =
        { s.elems e with
          parent := true
          rank := (s.elems e).rank.Enter (s.Timer s.ticks) s.Decay
          index := (s.queue.length : Int) } := upd_same _ _ _
    rw [this]
    rfl
  · intro x hx
    rw [h.rank]
    have : (enterS s e).elems x = s.elems x := upd_other _ _ _ _ hx
    rw [this]

theorem rank_of_same_access {s t : RlogcHeap α} {incr : α → α} {e : Nat}
    (h : Same (accessS incr s e) t) :
    (t.elems e).rank = (s.elems e).rank.Access incr (s.Timer s.ticks) s.Decay ∧
    ∀ x, x ≠ e → (t.elems x).rank = (s.elems x).rank := by
  constructor
  · rw [h.rank]
    have : (accessS incr s e).elems e =
        { s.elems e with rank := (s.elems e).rank.Access incr (s.Timer s.ticks) s.Decay } :=
      upd_same _ _ _
    rw [this]
  · intro x hx
    rw [h.rank]
    have : (accessS incr s e).elems x = s.elems x := upd_other _ _ _ _ hx
    rw [this]

/-! ### Ticks along the operations -/

theorem TimerFits.mono {timer : Nat → Int} {n m : Nat} (h : TimerFits timer n) (hm : m ≤ n) :
    TimerFits timer m :=
  fun i hi j hj => h i (lt_of_lt_of_le hi hm) j (lt_of_lt_of_le hj hm)

theorem ticksFit_of_stamped {s : RlogcHeap α} (hst : Stamped s)
    (hfit : TimerFits s.Timer s.ticks) : TicksFit s := by
  intro p hp q hq
  obtain ⟨i, hi, hip⟩ := hst p hp
  obtain ⟨j, hj, hjq⟩ := hst q hq
  rw [hip, hjq]
  exact hfit i hi j hj

theorem nowFits_of_stamped {s : RlogcHeap α} (hst : Stamped s)
    (hfit : TimerFits s.Timer (s.ticks + 1)) : NowFits s := by
  intro p hp
  obtain ⟨i, hi, hip⟩ := hst p hp
  rw [hip]
  exact ⟨hfit _ (Nat.lt_succ_self _) i (Nat.lt_succ_of_lt hi),
    hfit i (Nat.lt_succ_of_lt hi) _ (Nat.lt_succ_self _)⟩

theorem Same.stamped {s t : RlogcHeap α} (h : Same s t) (hst : Stamped s) : Stamped t := by
  intro p hp
  obtain ⟨i, hi, hip⟩ := hst p ((h.mem p).1 hp)
  exact ⟨i, by rw [h.ticks]; exact hi, by rw [h.rank, h.timer]; exact hip⟩

theorem stamped_of_same_enter {s t : RlogcHeap α} {e : Nat} (h : Same (enterS s e) t)
    (hst : Stamped s) : Stamped t := by
  obtain ⟨r1, r2⟩ := rank_of_same_enter h
  have htk : t.ticks = s.ticks + 1 := h.ticks
  have htm : t.Timer = s.Timer := h.timer
  intro p hp
  rw [htk, htm]
  by_cases hpe : p = e
  · exact ⟨s.ticks, Nat.lt_succ_self _, by rw [hpe, r1]⟩
  · have hps : p ∈ s.queue := by
      have := (h.mem p).1 hp
      have hq : (enterS s e).queue = s.queue ++ [e] := rfl
      rw [hq, List.mem_append, List.mem_singleton] at this
      exact this.resolve_right hpe
    obtain ⟨i, hi, hip⟩ := hst p hps
    exact ⟨i, Nat.lt_succ_of_lt hi, by rw [r2 p hpe]; exact hip⟩

theorem stamped_of_same_access {s t : RlogcHeap α} {incr : α → α} {e : Nat}
    (h : Same (accessS incr s e) t) (hst : Stamped s) : Stamped t := by
  obtain ⟨r1, r2⟩ := rank_of_same_access h
  have htk : t.ticks = s.ticks + 1 := h.ticks
  have htm : t.Timer = s.Timer := h.timer
  intro p hp
  rw [htk, htm]
  by_cases hpe : p = e
  · exact ⟨s.ticks, Nat.lt_succ_self _, by rw [hpe, r1]; rfl⟩
  · have hps : p ∈ s.queue := (h.mem p).1 hp
    obtain ⟨i, hi, hip⟩ := hst p hps
    exact ⟨i, Nat.lt_succ_of_lt hi, by rw [r2 p hpe]; exact hip⟩

theorem stamped_of_same_detach {s t : RlogcHeap α} {e : Nat} (h : Same (detachS s e) t)
    (hst : Stamped s) : Stamped t := by
  have htk : t.ticks = s.ticks := h.ticks
  have htm : t.Timer = s.Timer := h.timer
  intro p hp
  have hps : p ∈ s.queue := by
    have := (h.mem p).1 hp
    exact List.mem_of_mem_erase this
  obtain ⟨i, hi, hip⟩ := hst p hps
  exact ⟨i, by rw [htk]; exact hi, by rw [rank_of_same_detach h, htm]; exact hip⟩

theorem ticksFit_of_same_detach {s t : RlogcHeap α} {e : Nat} (h : Same (detachS s e) t)
    (hfit : TicksFit s) : TicksFit t := by
  intro p hp q hq
  rw [rank_of_same_detach h, rank_of_same_detach h]
  exact hfit p (List.mem_of_mem_erase ((h.mem p).1 hp)) q (List.mem_of_mem_erase ((h.mem q).1 hq))

/-- Ticks that fit among the queued ranks and with the next timer value fit after
`Enter`. -/
theorem ticksFit_enterS {s : RlogcHeap α} (e : Nat) (hfit : TicksFit s)
    (hnow : NowFits s) : TicksFit (enterS s e) := by
  obtain ⟨r1, r2⟩ := rank_of_same_enter (Same.refl (enterS s e))
  have hmem : ∀ p, p ∈ (enterS s e).queue → p ≠ e → p ∈ s.queue := by
    intro p hp hpe
    have hq : (enterS s e).queue = s.queue ++ [e] := rfl
    rw [hq, List.mem_append, List.mem_singleton] at hp
    exact hp.resolve_right hpe
  intro p hp q hq
  by_cases hpe : p = e <;> by_cases hqe : q = e
  · rw [hpe, hqe]; exact tickFits_self _
  · rw [hpe, r1, r2 q hqe]
    exact (hnow q (hmem q hq hqe)).1
  · rw [hqe, r1, r2 p hpe]
    exact (hnow p (hmem p hp hpe)).2
  · rw [r2 p hpe, r2 q hqe]
    exact hfit p (hmem p hp hpe) q (hmem q hq hqe)

/-- The same after `Promote`: the promoted rank is stamped with the next timer value. -/
theorem ticksFit_accessS {s : RlogcHeap α} (incr : α → α) (e : Nat) (hfit : TicksFit s)
    (hnow : NowFits s) : TicksFit (accessS incr s e) := by
  obtain ⟨r1, r2⟩ := rank_of_same_access (Same.refl (accessS incr s e))
  have hmem : ∀ p, p ∈ (accessS incr s e).queue → p ∈ s.queue := fun _ h => h
  have hT : ((s.elems e).rank.Access incr (s.Timer s.ticks) s.Decay).Time = s.Timer s.ticks :=
    rfl
  intro p hp q hq
  by_cases hpe : p = e <;> by_cases hqe : q = e
  · rw [hpe, hqe]; exact tickFits_self _
  · rw [hpe, r1, r2 q hqe, hT]
    exact (hnow q (hmem q hq)).1
  · rw [hqe, r1, r2 p hpe, hT]
    exact (hnow p (hmem p hp)).2
  · rw [r2 p hpe, r2 q hqe]
    exact hfit p (hmem p hp) q (hmem q hq)

theorem ticksFit_upd_fresh {s : RlogcHeap α} {p : Nat} (hp : p ∉ s.queue) (v : Element α)
    (hfit : TicksFit s) : TicksFit { s with elems := upd s.elems p v } := by
  intro x hx y hy
  have hx1 : x ≠ p := fun h => hp (h ▸ hx)
  have hy1 : y ≠ p := fun h => hp (h ▸ hy)
  show tickFits ((upd s.elems p v) x).rank.Time ((upd s.elems p v) y).rank.Time
  rw [upd_other _ _ _ _ hx1, upd_other _ _ _ _ hy1]
  exact hfit x hx y hy

/-- Every heap call keeps the heap ordered and stamped, as long as the timer values read
so far and the next one differ pairwise by an `int64`. -/
theorem run_ranked (incr : α → α) (op : HeapOp) (s : RlogcHeap α) (hinv : Inv s)
    (hst : Stamped s) (hfit : TimerFits s.Timer (s.ticks + 1))
    (ho : HeapOn s.keyAt s.queue.length) :
    ∃ t, op.run incr s = some t ∧ Inv t ∧ Stamped t ∧ HeapOn t.keyAt t.queue.length ∧
      t.Timer = s.Timer ∧ t.ticks ≤ s.ticks + 1 := by
  have hfit0 : TicksFit s := ticksFit_of_stamped hst (hfit.mono (Nat.le_succ _))
  have hnow : NowFits s := nowFits_of_stamped hst hfit
  obtain ⟨hs, ha⟩ := hinv
  cases op with
  | enter e =>
    cases hp : (s.elems e).parent with
    | true =>
      exact ⟨s, Enter_attached s e hp, ⟨hs, ha⟩, hst, ho, rfl, Nat.le_succ _⟩
    | false =>
      obtain ⟨t, he, hsame, ht, hord⟩ := Enter_spec s e ⟨hs, ha⟩ hp
      exact ⟨t, he, ht, stamped_of_same_enter hsame hst,
        hord (ticksFit_enterS e hfit0 hnow) ho, hsame.timer,
        le_of_eq hsame.ticks⟩
  | evictNode =>
    by_cases h0 : s.queue = []
    · refine ⟨s, ?_, ⟨hs, ha⟩, hst, ho, rfl, Nat.le_succ _⟩
      simp only [HeapOp.run, EvictNode_empty s h0]
    · obtain ⟨t, he, hsame, ht, hord⟩ := EvictNode_spec s hs (List.length_pos.2 h0)
      refine ⟨t, ?_, ⟨ht, hsame.attached (detachS_attached hs ha _)⟩,
        stamped_of_same_detach hsame hst, hord hfit0 ho, hsame.timer, ?_⟩
      · simp only [HeapOp.run, he]
      · rw [hsame.ticks]; exact Nat.le_succ _
  | evict e =>
    cases hp : (s.elems e).parent with
    | false =>
      exact ⟨s, Evict_detached s e hp, ⟨hs, ha⟩, hst, ho, rfl, Nat.le_succ _⟩
    | true =>
      obtain ⟨t, he, hsame, ht, hord⟩ := Evict_spec s e hs (ha e hp)
      refine ⟨t, he, ⟨ht, hsame.attached (detachS_attached hs ha _)⟩,
        stamped_of_same_detach hsame hst, hord hfit0 ho, hsame.timer, ?_⟩
      rw [hsame.ticks]; exact Nat.le_succ _
  | promote e =>
    cases hp : (s.elems e).parent with
    | false =>
      exact ⟨s, Promote_detached incr s e hp, ⟨hs, ha⟩, hst, ho, rfl, Nat.le_succ _⟩
    | true =>
      obtain ⟨t, he, hsame, ht, hord⟩ := Promote_spec incr s e hs (ha e hp)
      exact ⟨t, he, ⟨ht, hsame.attached (accessS_attached ha incr e)⟩,
        stamped_of_same_access hsame hst, hord (ticksFit_accessS incr e hfit0 hnow) ho,
        hsame.timer, le_of_eq hsame.ticks⟩

theorem runOps_ranked (incr : α → α) (ops : List HeapOp) : ∀ (s : RlogcHeap α), Inv s →
    Stamped s → TimerFits s.Timer (s.ticks + ops.length) → HeapOn s.keyAt s.queue.length →
    ∃ t, runOps incr ops s = some t ∧ Inv t ∧ Stamped t ∧ HeapOn t.keyAt t.queue.length ∧
      t.Timer = s.Timer ∧ t.ticks ≤ s.ticks + ops.length := by
  induction ops with
  | nil => intro s hinv hst _ ho; exact ⟨s, rfl, hinv, hst, ho, rfl, le_refl _⟩
  | cons op ops ih =>
    intro s hinv hst hfit ho
    have hlen : (op :: ops).length = ops.length + 1 := rfl
    rw [hlen] at hfit ⊢
    obtain ⟨t, ht, htinv, htst, hto, htm, htk⟩ :=
      run_ranked incr op s hinv hst (hfit.mono (by omega)) ho
    obtain ⟨u, hu, huinv, hust, huo, hum, huk⟩ :=
      ih t htinv htst (by rw [htm]; exact hfit.mono (by omega)) hto
    exact ⟨u, by simp only [runOps, ht, hu], huinv, hust, huo, hum.trans htm, by omega⟩

end HeapOps

/-! ## Claims on the heap -/

/-- C1, as stated, fails: after four `Enter` calls at the ticks `-2^62`, `2^61`, `2^61`,
`2^63 - 1` (decay `-1`, all `LogC = 0`) the heap obeys the data model and the min-heap
property, `EvictNode` returns element `0` and leaves `[1, 3, 2]`, but
`Compare(e0, e3) = +1`: the tick difference of `e0` and `e3` does not fit `int64`. -/
theorem EvictNode_not_minimum :
    (runOps (fun x : ℤ => x + 1) [HeapOp.enter 0, HeapOp.enter 1, HeapOp.enter 2, HeapOp.enter 3]
      (RlogcHeap.empty (-1) wideTimer)).bind (fun s =>
        (RlogcHeap.EvictNode s).map (fun r =>
          (decide (Slots s), decide (HeapOrdered s), r.1, r.2.queue,
            (r.2.elems 0).rank.Compare (r.2.elems 3).rank r.2.Decay))) =
      some (true, true, some 0, [1, 3, 2], 1) := by
  decide

/-- C1, amended: on a heap that obeys the data model (`Slots`) and the min-heap property,
and whose queued ticks differ pairwise by an `int64` (`TicksFit`), a non-empty queue
yields an element `e` with `Compare(e.rank, x.rank, Decay) <= 0` for every `x` left in the
queue, the queue afterwards is the old one minus `e` (as a permutation), and `e` is
detached (`parent` unset, `index = -1`); an empty queue yields nil and the state is
unchanged.  `α` is any linearly ordered ring, in particular the reals. -/
theorem EvictNode_returns_minimum {α : Type} [LinearOrderedRing α] (s : RlogcHeap α)
    (hs : Slots s) (ho : HeapOrdered s) (hfit : TicksFit s) :
    (s.queue ≠ [] → ∃ e t, RlogcHeap.EvictNode s = some (some e, t) ∧
      (∀ x, x ∈ t.queue → (t.elems e).rank.Compare (t.elems x).rank t.Decay ≤ 0) ∧
      s.queue.Perm (e :: t.queue) ∧ (t.elems e).parent = false ∧ (t.elems e).index = -1) ∧
    (s.queue = [] → RlogcHeap.EvictNode s = some (none, s)) := by
  refine ⟨fun h0 => ?_, EvictNode_empty s⟩
  have hlen : 0 < s.queue.length := List.length_pos.2 h0
  obtain ⟨t, he, hsame, ht, _⟩ := EvictNode_spec s hs hlen
  have hnd := slots_nodup hs
  have hmem : ∀ p, p ∈ t.queue ↔ p ∈ s.queue ∧ p ≠ qat s.queue 0 := by
    intro p
    rw [hsame.mem]
    show p ∈ s.queue.erase _ ↔ _
    rw [hnd.mem_erase_iff]
    exact and_comm
  have hne : qat s.queue 0 ∉ t.queue := fun h => ((hmem _).1 h).2 rfl
  have hself : t.elems (qat s.queue 0) =
      { s.elems (qat s.queue 0) with parent := false, index := -1 } := by
    rw [hsame.other _ (by rw [← hsame.mem]; exact hne)]
    exact upd_same _ _ _
  refine ⟨qat s.queue 0, t, he, fun x hx => ?_, ?_, by rw [hself], by rw [hself]⟩
  · obtain ⟨hxs, _⟩ := (hmem x).1 hx
    obtain ⟨i, hi, hix⟩ := exists_qat_of_mem hxs
    have hroot := heapOn_root_le ((heapOrdered_iff s hfit).1 ho) i hi
    rw [rank_of_same_detach hsame, rank_of_same_detach hsame, hsame.decay,
      compare_nonpos_iff _ _ _ (hfit _ (qat_mem _ _ hlen) _ hxs)]
    unfold RlogcHeap.keyAt RlogcHeap.key at hroot
    rw [hix] at hroot
    exact hroot
  · rw [List.perm_ext_iff_of_nodup hnd (List.nodup_cons.2 ⟨hne, slots_nodup ht⟩)]
    intro p
    rw [List.mem_cons, hmem]
    constructor
    · intro hp
      by_cases hp0 : p = qat s.queue 0
      · exact Or.inl hp0
      · exact Or.inr ⟨hp, hp0⟩
    · rintro (hp | hp)
      · rw [hp]; exact qat_mem _ _ hlen
      · exact hp.1

/-- Witness for C1 on a two-element integer heap. -/
theorem EvictNode_returns_minimum_witness :
    Slots sampleHeap ∧ HeapOrdered sampleHeap ∧ TicksFit sampleHeap ∧
    ((sampleHeap.queue ≠ [] → ∃ e t, RlogcHeap.EvictNode sampleHeap = some (some e, t) ∧
      (∀ x, x ∈ t.queue → (t.elems e).rank.Compare (t.elems x).rank t.Decay ≤ 0) ∧
      sampleHeap.queue.Perm (e :: t.queue) ∧ (t.elems e).parent = false ∧
      (t.elems e).index = -1) ∧
    (sampleHeap.queue = [] → RlogcHeap.EvictNode sampleHeap = some (none, sampleHeap))) :=
  ⟨by decide, by decide, by decide,
    EvictNode_returns_minimum sampleHeap (by decide) (by decide) (by decide)⟩

/-- C2, as stated, fails: with decay `-1` and a timer that returns `-1` and then
`2^63 - 1`, two `Enter` calls leave the queue `[1, 0]`, where the child `e0` compares
strictly below its parent `e1`: the second `Enter` swapped on a tick difference that
wrapped. -/
theorem heap_order_breaks :
    (runOps (fun x : ℤ => x + 1) [HeapOp.enter 0, HeapOp.enter 1]
      (RlogcHeap.empty (-1) edgeTimer)).map (fun s =>
        (s.queue, decide (HeapOrdered s),
          (s.elems 0).rank.Compare (s.elems 1).rank s.Decay)) = some ([1, 0], false, -1) := by
  decide

/-- C2, amended.  Heap order invariant: starting from an empty heap with a fixed `Decay`,
for every sequence of `Enter`, `EvictNode`, `Element.Evict` and `Element.Promote` calls
during which the timer values read (at most one per call) differ pairwise by an `int64`,
the sequence runs to completion (for any increment function, in particular `F`) and
afterwards no child slot `2i+1`, `2i+2` compares strictly less than slot `i` under
`Compare` with the heap's `Decay`. -/
theorem heap_order_invariant {α : Type} [LinearOrderedRing α] (incr : α → α) (decay : α)
    (timer : Nat → Int) (ops : List HeapOp) (hfit : TimerFits timer ops.length) :
    ∃ s, runOps incr ops (RlogcHeap.empty decay timer) = some s ∧ HeapOrdered s := by
  obtain ⟨s, hs, _, hst, ho, htm, htk⟩ :=
    runOps_ranked incr ops (RlogcHeap.empty decay timer) (inv_empty decay timer)
      (fun p hp => absurd hp (List.not_mem_nil p))
      (by
        show TimerFits timer (0 + ops.length)
        rw [Nat.zero_add]; exact hfit)
      (fun c _ cn => absurd cn (Nat.not_lt_zero _))
  have htk2 : s.ticks ≤ ops.length := by
    have : (RlogcHeap.empty decay timer : RlogcHeap α).ticks = 0 := rfl
    omega
  have hfit2 : TicksFit s :=
    ticksFit_of_stamped hst (by rw [htm]; exact hfit.mono htk2)
  exact ⟨s, hs, (heapOrdered_iff s hfit2).2 ho⟩

/-- Witness for C2: four calls under the timer `0, 1, 2, ...`. -/
theorem heap_order_invariant_witness :
    TimerFits (fun n => (n : Int))
        [HeapOp.enter 4, HeapOp.enter 7, HeapOp.promote 4, HeapOp.evictNode].length ∧
      ∃ s, runOps (fun x : ℤ => x + 1)
          [HeapOp.enter 4, HeapOp.enter 7, HeapOp.promote 4, HeapOp.evictNode]
          (RlogcHeap.empty (-1) (fun n => (n : Int))) = some s ∧ HeapOrdered s :=
  ⟨by decide,
    heap_order_invariant (fun x : ℤ => x + 1) (-1) (fun n => (n : Int))
      [HeapOp.enter 4, HeapOp.enter 7, HeapOp.promote 4, HeapOp.evictNode] (by decide)⟩

/-! ## The keyed cache: invariant lemmas -/

section CacheLemmas

variable {K V α : Type} [DecidableEq K] [LinearOrderedRing α]

theorem ite_beq {β : Type} (a b : K) (x y : β) :
    (if a == b then x else y) = if a = b then x else y := by
  by_cases h : a = b <;> simp [h]

theorem lookup_mapDelete (idx : Option (K → Option Nat)) (c : Cache K V α) (key k : K)
    (h : c.index = mapDelete idx key) :
    c.lookup k = if k = key then none
      else (match idx with
        | some m => m k
        | none => none) := by
  unfold Cache.lookup
  rw [h]
  cases idx with
  | none => simp [mapDelete]
  | some m => simp [mapDelete]

theorem mem_of_same_detach {s t : RlogcHeap α} {e : Nat} (hs : Slots s)
    (h : Same (detachS s e) t) (p : Nat) : p ∈ t.queue ↔ p ∈ s.queue ∧ p ≠ e := by
  rw [h.mem]
  show p ∈ s.queue.erase e ↔ _
  rw [(slots_nodup hs).mem_erase_iff]
  exact and_comm

theorem len_of_same_detach {s t : RlogcHeap α} {e : Nat} (he : e ∈ s.queue)
    (h : Same (detachS s e) t) : t.queue.length = s.queue.length - 1 := by
  rw [h.len]
  exact List.length_erase_of_mem he

theorem user_of_same_detach {s t : RlogcHeap α} {e : Nat} (h : Same (detachS s e) t)
    (p : Nat) : (t.elems p).UserData = (s.elems p).UserData := by
  rw [h.user]
  by_cases hp : p = e
  · have : (detachS s e).elems p = { s.elems e with parent := false, index := -1 } := by
      rw [hp]; exact upd_same _ _ _
    rw [this, hp]
  · have : (detachS s e).elems p = s.elems p := upd_other _ _ _ _ hp
    rw [this]

theorem evictOldest_empty (c : Cache K V α) (h : c.heap.queue = []) :
    Cache.evictOldest c = some (none, c) := by
  unfold Cache.evictOldest
  rw [EvictNode_empty c.heap h]

/-- Detaching a queued entry and deleting its key keeps the invariant. -/
theorem cacheInv_detach (c c1 : Cache K V α) (hc : CacheInv c) (el : Nat) (e : entry K V)
    (hel : el ∈ c.heap.queue) (hent : c.entries el = some e)
    (hsame : Same (detachS c.heap el) c1.heap) (ht : Slots c1.heap)
    (hidx : c1.index = mapDelete c.index e.key) (hentries : c1.entries = c.entries)
    (hnext : c1.next = c.next) : CacheInv c1 := by
  obtain ⟨hs, ha⟩ := hc.heap
  have hlk : c.lookup e.key = some el := by
    obtain ⟨e2, hent2, hlk2⟩ := hc.keyed el hel
    rw [hent] at hent2
    rw [Option.some.inj hent2]
    exact hlk2
  have hlook : ∀ k, c1.lookup k = if k = e.key then none else c.lookup k := by
    intro k
    rw [lookup_mapDelete c.index c1 e.key k hidx]
    rfl
  refine ⟨⟨ht, hsame.attached (detachS_attached hs ha _)⟩, ?_, ?_, ?_, ?_, ?_⟩
  · rw [hidx]
    have := hc.init
    cases hi : c.index with
    | none => exact absurd hi this
    | some m => simp [mapDelete]
  · intro p hp
    rw [hnext]
    exact hc.fresh p ((mem_of_same_detach hs hsame p).1 hp).1
  · intro p hp
    rw [user_of_same_detach hsame]
    exact hc.user p ((mem_of_same_detach hs hsame p).1 hp).1
  · intro p hp
    obtain ⟨hp1, hp2⟩ := (mem_of_same_detach hs hsame p).1 hp
    obtain ⟨e2, hent2, hlk2⟩ := hc.keyed p hp1
    refine ⟨e2, by rw [hentries]; exact hent2, ?_⟩
    rw [hlook, if_neg, hlk2]
    intro hk
    rw [hk, hlk] at hlk2
    exact hp2 (Option.some.inj hlk2).symm
  · intro k p hkp
    rw [hlook] at hkp
    by_cases hk : k = e.key
    · rw [if_pos hk] at hkp
      exact Option.noConfusion hkp
    · rw [if_neg hk] at hkp
      obtain ⟨hp1, e2, hent2, hkey2⟩ := hc.indexed k p hkp
      refine ⟨(mem_of_same_detach hs hsame p).2 ⟨hp1, fun hpe => hk ?_⟩, e2,
        by rw [hentries]; exact hent2, hkey2⟩
      rw [hpe, hent] at hent2
      rw [← hkey2, ← Option.some.inj hent2]

/-- The eviction block on a non-empty cache: it removes the entry in slot `0`, deletes its
key, logs one callback with that entry, and keeps the invariant (and, for ticks that fit,
the heap order). -/
theorem evictOldest_spec (c : Cache K V α) (hc : CacheInv c) (h0 : 0 < c.heap.queue.length) :
    ∃ e c1, c.entries (qat c.heap.queue 0) = some e ∧
      Cache.evictOldest c = some (some (e.key, e.value), c1) ∧ CacheInv c1 ∧
      Same (detachS c.heap (qat c.heap.queue 0)) c1.heap ∧
      c1.size = c.size ∧ c1.entries = c.entries ∧ c1.next = c.next ∧
      c1.index = mapDelete c.index e.key ∧
      c1.evcb = c.evcb ++ [Call.mk e.key e.value c1.index c1.heap.queue] ∧
      (TicksFit c.heap → HeapOn c.heap.keyAt c.heap.queue.length →
        HeapOn c1.heap.keyAt c1.heap.queue.length) := by
  obtain ⟨hs, ha⟩ := hc.heap
  obtain ⟨t, he, hsame, ht, hord⟩ := EvictNode_spec c.heap hs h0
  have hel : qat c.heap.queue 0 ∈ c.heap.queue := qat_mem _ _ h0
  obtain ⟨e, hent, hlk⟩ := hc.keyed _ hel
  have hu : (t.elems (qat c.heap.queue 0)).UserData.1 = some (qat c.heap.queue 0) := by
    rw [user_of_same_detach hsame]; exact hc.user _ hel
  refine ⟨e, { c with
      heap := t
      index := mapDelete c.index e.key
      evcb := c.evcb ++ [Call.mk e.key e.value (mapDelete c.index e.key) t.queue] },
    hent, ?_, ?_, hsame, rfl, rfl, rfl, rfl, rfl, hord⟩
  · unfold Cache.evictOldest
    rw [he]
    simp only [hu, hent]
  · exact cacheInv_detach c _ hc _ e hel hent hsame ht rfl rfl rfl

theorem inv_upd_fresh {s : RlogcHeap α} (hinv : Inv s) {p : Nat} (hp : p ∉ s.queue)
    (v : Element α) (hv : v.parent = false) : Inv { s with elems := upd s.elems p v } := by
  obtain ⟨hs, ha⟩ := hinv
  have hel : ∀ k, k < s.queue.length → upd s.elems p v (qat s.queue k) = s.elems (qat s.queue k) :=
    fun k hk => upd_other _ _ _ _ (fun hh => hp (hh ▸ qat_mem _ _ hk))
  refine ⟨fun k hk => ?_, fun x hx => ?_⟩
  · have := hs k hk
    rw [← hel k hk] at this
    exact this
  · show x ∈ s.queue
    by_cases hxp : x = p
    · have : (upd s.elems p v x) = v := by rw [hxp]; exact upd_same _ _ _
      have hx2 : (upd s.elems p v x).parent = true := hx
      rw [this, hv] at hx2
      exact Bool.noConfusion hx2
    · have hx2 : (upd s.elems p v x).parent = true := hx
      rw [upd_other _ _ _ _ hxp] at hx2
      exact ha x hx2

theorem heapOn_upd_fresh {s : RlogcHeap α} {p : Nat} (hp : p ∉ s.queue) (v : Element α)
    (ho : HeapOn s.keyAt s.queue.length) :
    HeapOn (RlogcHeap.keyAt { s with elems := upd s.elems p v }) s.queue.length := by
  refine heapOn_congr (fun k hk => ?_) ho
  unfold RlogcHeap.keyAt RlogcHeap.key
  show ((upd s.elems p v) (qat s.queue k)).rank.key s.Decay = _
  have hne : qat s.queue k ≠ p := fun hh => hp (hh ▸ qat_mem s.queue k hk)
  rw [upd_other _ _ _ _ hne]

theorem nowFits_upd_fresh {s : RlogcHeap α} {p : Nat} (hp : p ∉ s.queue) (v : Element α)
    (hnow : NowFits s) : NowFits { s with elems := upd s.elems p v } := by
  intro x hx
  have hx1 : x ≠ p := fun h => hp (h ▸ hx)
  show tickFits (s.Timer s.ticks) ((upd s.elems p v) x).rank.Time ∧
    tickFits ((upd s.elems p v) x).rank.Time (s.Timer s.ticks)
  rw [upd_other _ _ _ _ hx1]
  exact hnow x hx

theorem stamped_upd_fresh {s : RlogcHeap α} {p : Nat} (hp : p ∉ s.queue) (v : Element α)
    (hst : Stamped s) : Stamped { s with elems := upd s.elems p v } := by
  intro x hx
  have hx1 : x ≠ p := fun h => hp (h ▸ hx)
  obtain ⟨i, hi, hix⟩ := hst x hx
  refine ⟨i, hi, ?_⟩
  show ((upd s.elems p v) x).rank.Time = s.Timer i
  rw [upd_other _ _ _ _ hx1]
  exact hix

/-- The first half of `insertNew`: on an invariant state there is an intermediate state
`c1` (entry allocated, entered and indexed) satisfying the invariant, and `insertNew`
continues from `c1` with the capacity check. -/
theorem insertNew_spec (c : Cache K V α) (hc : CacheInv c) (key : K) (value : V)
    (habs : c.lookup key = none) :
    ∃ c1 : Cache K V α, CacheInv c1 ∧ c1.size = c.size ∧ c1.evcb = c.evcb ∧
      c1.next = c.next + 1 ∧
      c1.entries = upd c.entries c.next (some { key := key, value := value }) ∧
      (∀ k, c1.lookup k = if k = key then some c.next else c.lookup k) ∧
      Same (enterS c.allocS c.next) c1.heap ∧
      Cache.insertNew c key value =
        (if RlogcHeap.Len c1.heap ≤ c1.size then some (false, c1) else
          match Cache.evictOldest c1 with
          | none => none
          | some (none, c2) => some (false, c2)
          | some (some _, c2) => some (true, c2)) ∧
      (TicksFit c.heap → NowFits c.heap → HeapOn c.heap.keyAt c.heap.queue.length →
        TicksFit c1.heap ∧ HeapOn c1.heap.keyAt c1.heap.queue.length) ∧
      (Stamped c.heap → Stamped c1.heap) := by
  have hfresh : c.next ∉ c.heap.queue := fun h => Nat.lt_irrefl _ (hc.fresh _ h)
  have hinv0 : Inv c.allocS := inv_upd_fresh hc.heap hfresh _ rfl
  have hpar0 : (c.allocS.elems c.next).parent = false := by
    have : c.allocS.elems c.next = { Element.zero with UserData := (some c.next, none) } :=
      upd_same _ _ _
    rw [this]; rfl
  obtain ⟨h1, hent, hsame, hinv1, hord1⟩ := Enter_spec c.allocS c.next hinv0 hpar0
  obtain ⟨m, hm⟩ : ∃ m, c.index = some m := by
    cases hi : c.index with
    | none => exact absurd hi hc.init
    | some m => exact ⟨m, rfl⟩
  have hlk : ∀ k, c.lookup k = m k := by
    intro k; unfold Cache.lookup; rw [hm]
  have hmem : ∀ x, x ∈ h1.queue ↔ x ∈ c.heap.queue ∨ x = c.next := by
    intro x
    rw [hsame.mem]
    show x ∈ c.heap.queue ++ [c.next] ↔ _
    simp
  have helx : ∀ x, x ≠ c.next → (enterS c.allocS c.next).elems x = c.heap.elems x := by
    intro x hx
    have h1 : (enterS c.allocS c.next).elems x = c.allocS.elems x := upd_other _ _ _ _ hx
    rw [h1]
    exact upd_other _ _ _ _ hx
  have heln : ((enterS c.allocS c.next).elems c.next).UserData = (some c.next, none) := by
    have h1 : (enterS c.allocS c.next).elems c.next =
        { c.allocS.elems c.next with
          parent := true
          rank := (c.allocS.elems c.next).rank.Enter (c.allocS.Timer c.allocS.ticks)
            c.allocS.Decay
          index := (c.allocS.queue.length : Int) } := upd_same _ _ _
    have h2 : c.allocS.elems c.next = { Element.zero with UserData := (some c.next, none) } :=
      upd_same _ _ _
    rw [h1, h2]
  refine ⟨{ c with
      heap := h1
      next := c.next + 1
      entries := upd c.entries c.next (some { key := key, value := value })
      index := some (fun k => if k == key then some c.next else m k) },
    ⟨hinv1, fun h => Option.noConfusion h, ?_, ?_, ?_, ?_⟩, rfl, rfl, rfl, rfl, ?_, hsame, ?_,
    fun hfit hnow ho => ?_, fun hst => ?_⟩
  · intro x hx
    show x < c.next + 1
    rcases (hmem x).1 hx with h | h
    · exact Nat.lt_succ_of_lt (hc.fresh x h)
    · rw [h]; exact Nat.lt_succ_self _
  · intro x hx
    show (h1.elems x).UserData.1 = some x
    rw [hsame.user]
    rcases (hmem x).1 hx with h | h
    · rw [helx x (fun hh => hfresh (hh ▸ h))]
      exact hc.user x h
    · rw [h, heln]
  · intro x hx
    show ∃ e, upd c.entries c.next (some { key := key, value := value }) x = some e ∧
      (if e.key == key then some c.next else m e.key) = some x
    simp only [ite_beq]
    rcases (hmem x).1 hx with h | h
    · obtain ⟨e, he1, he2⟩ := hc.keyed x h
      refine ⟨e, ?_, ?_⟩
      · rw [upd_other _ _ _ _ (fun hh : x = c.next => hfresh (hh ▸ h))]; exact he1
      · rw [if_neg, ← hlk]
        · exact he2
        · intro hk
          rw [hk, habs] at he2
          exact Option.noConfusion he2
    · refine ⟨{ key := key, value := value }, ?_, ?_⟩
      · rw [h]; exact upd_same _ _ _
      · rw [if_pos rfl, h]
  · intro k x hkx
    have hkx2 : (if k = key then some c.next else m k) = some x := by
      rw [← ite_beq]; exact hkx
    show x ∈ h1.queue ∧ ∃ e, upd c.entries c.next (some { key := key, value := value }) x =
      some e ∧ e.key = k
    by_cases hk : k = key
    · rw [if_pos hk] at hkx2
      have hx : x = c.next := (Option.some.inj hkx2).symm
      refine ⟨(hmem x).2 (Or.inr hx), { key := key, value := value }, ?_, hk.symm⟩
      rw [hx]; exact upd_same _ _ _
    · rw [if_neg hk, ← hlk] at hkx2
      obtain ⟨hx, e, he1, he2⟩ := hc.indexed k x hkx2
      refine ⟨(hmem x).2 (Or.inl hx), e, ?_, he2⟩
      rw [upd_other _ _ _ _ (fun hh : x = c.next => hfresh (hh ▸ hx))]; exact he1
  · intro k
    show (if k == key then some c.next else m k) = _
    rw [ite_beq, hlk]
  · unfold Cache.insertNew
    have : RlogcHeap.Enter
        { c.heap with
          elems := upd c.heap.elems c.next
            { Element.zero with UserData := (some c.next, none) } } c.next = some h1 := hent
    simp only [this, hm]
  · have hfit1 : TicksFit (enterS c.allocS c.next) :=
      ticksFit_enterS c.next (ticksFit_upd_fresh hfresh _ hfit) (nowFits_upd_fresh hfresh _ hnow)
    refine ⟨hsame.ticksFit hfit1, ?_⟩
    exact hord1 hfit1 (heapOn_upd_fresh hfresh _ ho)
  · exact stamped_of_same_enter hsame (stamped_upd_fresh hfresh _ hst)

/-- A heap change that keeps the queued addresses and their user slots, together with an
entry rewrite that keeps the keys, keeps the invariant. -/
theorem cacheInv_transfer (c c1 : Cache K V α) (hc : CacheInv c) (hinv : Inv c1.heap)
    (hq : ∀ p, p ∈ c1.heap.queue ↔ p ∈ c.heap.queue)
    (hu : ∀ p, (c1.heap.elems p).UserData = (c.heap.elems p).UserData)
    (hidx : c1.index = c.index) (hnext : c1.next = c.next)
    (hent : ∀ p e, c.entries p = some e → ∃ e1, c1.entries p = some e1 ∧ e1.key = e.key) :
    CacheInv c1 := by
  have hlk : ∀ k, c1.lookup k = c.lookup k := by
    intro k; unfold Cache.lookup; rw [hidx]
  refine ⟨hinv, by rw [hidx]; exact hc.init, ?_, ?_, ?_, ?_⟩
  · intro p hp
    rw [hnext]; exact hc.fresh p ((hq p).1 hp)
  · intro p hp
    rw [hu]; exact hc.user p ((hq p).1 hp)
  · intro p hp
    obtain ⟨e, he1, he2⟩ := hc.keyed p ((hq p).1 hp)
    obtain ⟨e1, h1, h2⟩ := hent p e he1
    exact ⟨e1, h1, by rw [hlk, h2]; exact he2⟩
  · intro k p hkp
    rw [hlk] at hkp
    obtain ⟨hp, e, he1, he2⟩ := hc.indexed k p hkp
    obtain ⟨e1, h1, h2⟩ := hent p e he1
    exact ⟨(hq p).2 hp, e1, h1, h2.trans he2⟩

theorem user_of_same_access {s t : RlogcHeap α} {incr : α → α} {e : Nat}
    (h : Same (accessS incr s e) t) (p : Nat) :
    (t.elems p).UserData = (s.elems p).UserData := by
  rw [h.user]
  by_cases hp : p = e
  · have : (accessS incr s e).elems p =
        { s.elems e with rank := (s.elems e).rank.Access incr (s.Timer s.ticks) s.Decay } := by
      rw [hp]; exact upd_same _ _ _
    rw [this, hp]
  · have : (accessS incr s e).elems p = s.elems p := upd_other _ _ _ _ hp
    rw [this]

/-- Promotion of an indexed entry inside the cache. -/
theorem promote_indexed (incr : α → α) (c : Cache K V α) (hc : CacheInv c) (p : Nat)
    (hp : p ∈ c.heap.queue) :
    ∃ h, Element.Promote incr c.heap p = some h ∧ Same (accessS incr c.heap p) h ∧ Inv h ∧
      (TicksFit c.heap → NowFits c.heap → HeapOn c.heap.keyAt c.heap.queue.length →
        TicksFit h ∧ HeapOn h.keyAt h.queue.length) := by
  obtain ⟨hs, ha⟩ := hc.heap
  obtain ⟨h, h1, hsame, ht, hord⟩ := Promote_spec incr c.heap p hs hp
  refine ⟨h, h1, hsame, ⟨ht, hsame.attached (accessS_attached ha incr p)⟩,
    fun hfit hnow ho => ?_⟩
  have hfit1 := ticksFit_accessS incr p hfit hnow
  exact ⟨hsame.ticksFit hfit1, hord hfit1 ho⟩

theorem Add_present_spec (incr : α → α) (c : Cache K V α) (hc : CacheInv c) (key : K)
    (value : V) (p : Nat) (hp : c.lookup key = some p) :
    ∃ h, Same (accessS incr c.heap p) h ∧
      Cache.Add incr c key value = some (false,
        { c with
          entries := upd c.entries p (some { key := key, value := value })
          heap := h }) ∧
      CacheInv ({ c with
          entries := upd c.entries p (some { key := key, value := value })
          heap := h } : Cache K V α) := by
  obtain ⟨hpq, e, he1, he2⟩ := hc.indexed key p hp
  obtain ⟨h, h1, hsame, hinv, _⟩ := promote_indexed incr c hc p hpq
  refine ⟨h, hsame, ?_, ?_⟩
  · unfold Cache.Add
    rw [hp]
    simp only [h1]
  · refine cacheInv_transfer c _ hc hinv (fun x => hsame.mem x) (user_of_same_access hsame)
      rfl rfl (fun x ex hx => ?_)
    show ∃ e1, upd c.entries p (some { key := key, value := value }) x = some e1 ∧ _
    by_cases hxp : x = p
    · refine ⟨{ key := key, value := value }, by rw [hxp]; exact upd_same _ _ _, ?_⟩
      rw [hxp, he1] at hx
      rw [← Option.some.inj hx, he2]
    · exact ⟨ex, by rw [upd_other _ _ _ _ hxp]; exact hx, rfl⟩

theorem Get_present_spec (incr : α → α) (c : Cache K V α) (hc : CacheInv c) (key : K)
    (p : Nat) (hp : c.lookup key = some p) :
    ∃ h e, Same (accessS incr c.heap p) h ∧ c.entries p = some e ∧
      Cache.Get incr c key = some ((some e.value, true), { c with heap := h }) ∧
      CacheInv ({ c with heap := h } : Cache K V α) ∧
      (TicksFit c.heap → NowFits c.heap → HeapOn c.heap.keyAt c.heap.queue.length →
        TicksFit h ∧ HeapOn h.keyAt h.queue.length) := by
  obtain ⟨hpq, e, he1, he2⟩ := hc.indexed key p hp
  obtain ⟨h, h1, hsame, hinv, hord⟩ := promote_indexed incr c hc p hpq
  refine ⟨h, e, hsame, he1, ?_, ?_, hord⟩
  · unfold Cache.Get
    rw [hp]
    simp only [he1, h1]
  · exact cacheInv_transfer c _ hc hinv (fun x => hsame.mem x) (user_of_same_access hsame)
      rfl rfl (fun x ex hx => ⟨ex, hx, rfl⟩)

theorem Get_absent (incr : α → α) (c : Cache K V α) (key : K) (hp : c.lookup key = none) :
    Cache.Get incr c key = some ((none, false), c) := by
  unfold Cache.Get
  rw [hp]

theorem Remove_present_spec (c : Cache K V α) (hc : CacheInv c) (key : K) (p : Nat)
    (hp : c.lookup key = some p) :
    ∃ h e, Same (detachS c.heap p) h ∧ c.entries p = some e ∧ e.key = key ∧
      Cache.Remove c key = some (true,
        { c with
          heap := h
          evcb := c.evcb ++ [Call.mk e.key e.value c.index h.queue]
          index := mapDelete c.index key }) ∧
      CacheInv ({ c with
          heap := h
          evcb := c.evcb ++ [Call.mk e.key e.value c.index h.queue]
          index := mapDelete c.index key } : Cache K V α) := by
  obtain ⟨hpq, e, he1, he2⟩ := hc.indexed key p hp
  obtain ⟨hs, ha⟩ := hc.heap
  obtain ⟨h, h1, hsame, ht, _⟩ := Evict_spec c.heap p hs hpq
  refine ⟨h, e, hsame, he1, he2, ?_, ?_⟩
  · unfold Cache.Remove
    rw [hp]
    simp only [h1, he1]
  · exact cacheInv_detach c _ hc p e hpq he1 hsame ht (by rw [he2]) rfl rfl

theorem Remove_absent (c : Cache K V α) (key : K) (hp : c.lookup key = none) :
    Cache.Remove c key = some (false, c) := by
  unfold Cache.Remove
  rw [hp]

theorem root_le_all {s : RlogcHeap α} (ho : HeapOn s.keyAt s.queue.length) (x : Nat)
    (hx : x ∈ s.queue) : s.key (qat s.queue 0) ≤ s.key x := by
  obtain ⟨i, hi, hix⟩ := exists_qat_of_mem hx
  have := heapOn_root_le ho i hi
  unfold RlogcHeap.keyAt at this
  rw [hix] at this
  exact this

theorem key_of_same_detach {s t : RlogcHeap α} {e : Nat} (h : Same (detachS s e) t)
    (p : Nat) : t.key p = s.key p := by
  unfold RlogcHeap.key
  rw [rank_of_same_detach h, h.decay]
  rfl

theorem perm_of_same_detach {s t : RlogcHeap α} {e : Nat} (hs : Slots s) (ht : Slots t)
    (he : e ∈ s.queue) (h : Same (detachS s e) t) : s.queue.Perm (e :: t.queue) := by
  have hne : e ∉ t.queue := fun hh => ((mem_of_same_detach hs h e).1 hh).2 rfl
  rw [List.perm_ext_iff_of_nodup (slots_nodup hs) (List.nodup_cons.2 ⟨hne, slots_nodup ht⟩)]
  intro p
  rw [List.mem_cons, mem_of_same_detach hs h]
  constructor
  · intro hp
    by_cases hp0 : p = e
    · exact Or.inl hp0
    · exact Or.inr ⟨hp, hp0⟩
  · rintro (hp | hp)
    · rw [hp]; exact he
    · exact hp.1

/-- The loop of `Resize`: it terminates, evicts from slot `0` while the cache is over
capacity, and, on an ordered heap with ticks that fit, the addresses it removes come out
in key order, each below every survivor. -/
theorem resizeLoop_spec (fuel : Nat) : ∀ (c : Cache K V α) (ev : Int), CacheInv c →
    c.heap.queue.length < fuel →
    ∃ (removed : List Nat) (calls : List (Call K V)) (c1 : Cache K V α),
      Cache.resizeLoop fuel c ev = some (ev + (removed.length : Int), c1) ∧ CacheInv c1 ∧
      c1.size = c.size ∧ c1.entries = c.entries ∧ c1.next = c.next ∧
      (∀ p, c1.heap.key p = c.heap.key p) ∧
      c.heap.queue.Perm (removed ++ c1.heap.queue) ∧
      c1.evcb = c.evcb ++ calls ∧
      List.Forall₂ (fun p r => ∃ e, c.entries p = some e ∧ r.key = e.key ∧ r.value = e.value)
        removed calls ∧
      (TicksFit c.heap → HeapOn c.heap.keyAt c.heap.queue.length →
        (∀ r, r ∈ removed → ∀ x, x ∈ c1.heap.queue → c.heap.key r ≤ c.heap.key x) ∧
        removed.Pairwise (fun a b => c.heap.key a ≤ c.heap.key b)) ∧
      (removed.length : Int) =
        max 0 (min (c.heap.queue.length : Int) ((c.heap.queue.length : Int) - c.size)) := by
  induction fuel with
  | zero => intro c ev _ hf; omega
  | succ f ih =>
    intro c ev hc hf
    rw [Cache.resizeLoop]
    have hlen : RlogcHeap.Len c.heap = (c.heap.queue.length : Int) := rfl
    by_cases hlt : c.size < RlogcHeap.Len c.heap
    · rw [if_pos hlt]
      by_cases h0 : c.heap.queue = []
      · rw [evictOldest_empty c h0]
        refine ⟨[], [], c, by simp, hc, rfl, rfl, rfl, fun _ => rfl, by simp, by simp,
          List.Forall₂.nil,
          fun _ _ => ⟨fun r hr => absurd hr (List.not_mem_nil r), List.Pairwise.nil⟩, ?_⟩
        rw [h0]
        simp only [List.length_nil, Nat.cast_zero]
        rw [hlen, h0] at hlt
        simp only [List.length_nil, Nat.cast_zero] at hlt
        omega
      · have hpos : 0 < c.heap.queue.length := List.length_pos.2 h0
        obtain ⟨e, c1, hent, hev, hc1, hsame, hsz, hentries, hnext, _, hlog, hord1⟩ :=
          evictOldest_spec c hc hpos
        have hel : qat c.heap.queue 0 ∈ c.heap.queue := qat_mem _ _ hpos
        have hl1 : c1.heap.queue.length = c.heap.queue.length - 1 :=
          len_of_same_detach hel hsame
        obtain ⟨removed, calls, c2, hrun, hc2, hsz2, hent2, hnext2, hkey2, hperm2, hlog2, hfa2,
          hmp2, hcnt2⟩ := ih c1 (ev + 1) hc1 (by omega)
        have hkey1 : ∀ p, c1.heap.key p = c.heap.key p := key_of_same_detach hsame
        have hperm1 := perm_of_same_detach hc.heap.1 hc1.heap.1 hel hsame
        have hsub : ∀ x, x ∈ removed ++ c2.heap.queue → x ∈ c.heap.queue := by
          intro x hx
          have : x ∈ c1.heap.queue := hperm2.symm.subset hx
          exact ((mem_of_same_detach hc.heap.1 hsame x).1 this).1
        refine ⟨qat c.heap.queue 0 :: removed,
          Call.mk e.key e.value c1.index c1.heap.queue :: calls, c2, ?_, hc2,
          hsz2.trans hsz, hent2.trans hentries, hnext2.trans hnext,
          fun p => (hkey2 p).trans (hkey1 p), ?_, ?_, ?_, ?_, ?_⟩
        · simp only [hev, hrun, List.length_cons, Nat.cast_add, Nat.cast_one]
          congr 2
          ring
        · exact hperm1.trans (List.Perm.cons _ hperm2)
        · rw [hlog2, hlog]
          simp
        · refine List.Forall₂.cons ⟨e, hent, rfl, rfl⟩ ?_
          rw [hentries] at hfa2
          exact hfa2
        · intro hfit ho
          obtain ⟨hmin2, hpw2⟩ := hmp2 (ticksFit_of_same_detach hsame hfit) (hord1 hfit ho)
          refine ⟨fun r hr x hx => ?_, ?_⟩
          · rcases List.mem_cons.1 hr with h | h
            · rw [h]
              exact root_le_all ho x (hsub x (List.mem_append_right _ hx))
            · have := hmin2 r h x hx
              rw [hkey1, hkey1] at this
              exact this
          · refine List.Pairwise.cons (fun x hx => ?_) ?_
            · exact root_le_all ho x (hsub x (List.mem_append_left _ hx))
            · refine hpw2.imp ?_
              intro a b hab
              rw [hkey1, hkey1] at hab
              exact hab
        · simp only [List.length_cons, Nat.cast_add, Nat.cast_one]
          rw [hcnt2, hl1, hsz]
          rw [hlen] at hlt
          omega
    · rw [if_neg hlt]
      refine ⟨[], [], c, by simp, hc, rfl, rfl, rfl, fun _ => rfl, by simp, by simp,
        List.Forall₂.nil,
        fun _ _ => ⟨fun r hr => absurd hr (List.not_mem_nil r), List.Pairwise.nil⟩, ?_⟩
      rw [hlen] at hlt
      simp only [List.length_nil, Nat.cast_zero]
      omega

theorem len_enterS_same {s t : RlogcHeap α} {e : Nat} (h : Same (enterS s e) t) :
    t.queue.length = s.queue.length + 1 := by
  rw [h.len]
  show (s.queue ++ [e]).length = _
  simp

/-- Both outcomes of `insertNew` for an absent key, through the intermediate state `c1`
of `insertNew_spec`. -/
theorem insertNew_cases (c : Cache K V α) (hc : CacheInv c) (key : K) (value : V)
    (habs : c.lookup key = none) :
    ∃ c1 : Cache K V α, CacheInv c1 ∧ c1.size = c.size ∧ c1.evcb = c.evcb ∧
      c1.entries = upd c.entries c.next (some { key := key, value := value }) ∧
      (∀ k, c1.lookup k = if k = key then some c.next else c.lookup k) ∧
      Same (enterS c.allocS c.next) c1.heap ∧
      c1.heap.queue.length = c.heap.queue.length + 1 ∧
      (c.Len + 1 ≤ c.size → Cache.insertNew c key value = some (false, c1)) ∧
      (¬ (c.Len + 1 ≤ c.size) → ∃ e c2, c1.entries (qat c1.heap.queue 0) = some e ∧
        Cache.insertNew c key value = some (true, c2) ∧ CacheInv c2 ∧
        Same (detachS c1.heap (qat c1.heap.queue 0)) c2.heap ∧
        c2.size = c.size ∧ c2.entries = c1.entries ∧
        c2.index = mapDelete c1.index e.key ∧
        c2.evcb = c.evcb ++ [Call.mk e.key e.value c2.index c2.heap.queue]) ∧
      (TicksFit c.heap → NowFits c.heap → HeapOn c.heap.keyAt c.heap.queue.length →
        TicksFit c1.heap ∧ HeapOn c1.heap.keyAt c1.heap.queue.length) := by
  obtain ⟨c1, hc1, hsz, hlog, _, hent, hlk, hsame, hrun, hord, _⟩ :=
    insertNew_spec c hc key value habs
  have hl : c1.heap.queue.length = c.heap.queue.length + 1 :=
    len_enterS_same (s := c.allocS) hsame
  have hlen : RlogcHeap.Len c1.heap = c.Len + 1 := by
    unfold RlogcHeap.Len Cache.Len RlogcHeap.Len elemHeap.Len
    rw [hl]
    push_cast
    rfl
  refine ⟨c1, hc1, hsz, hlog, hent, hlk, hsame, hl, fun h => ?_, fun h => ?_, hord⟩
  · rw [hrun, if_pos (by rw [hlen, hsz]; exact h)]
  · obtain ⟨e, c2, he, hev, hc2, hsame2, hsz2, hent2, _, hidx2, hlog2, _⟩ :=
      evictOldest_spec c1 hc1 (by omega)
    refine ⟨e, c2, he, ?_, hc2, hsame2, hsz2.trans hsz, hent2, hidx2, by rw [hlog2, hlog]⟩
    rw [hrun, if_neg (by rw [hlen, hsz]; exact h)]
    simp only [hev]

theorem Peek_spec (c : Cache K V α) (hc : CacheInv c) (key : K) :
    ∃ r, Cache.Peek c key = some r := by
  unfold Cache.Peek
  cases hp : c.lookup key with
  | none => exact ⟨_, rfl⟩
  | some p =>
    obtain ⟨_, e, he, _⟩ := hc.indexed key p hp
    simp only [he]
    exact ⟨_, rfl⟩

theorem GetOldest_spec (c : Cache K V α) (hc : CacheInv c) :
    ∃ r, Cache.GetOldest c = some r := by
  unfold Cache.GetOldest RlogcHeap.BorrowElements
  cases hq : c.heap.queue with
  | nil => exact ⟨_, rfl⟩
  | cons p rest =>
    have hp : p ∈ c.heap.queue := by rw [hq]; exact List.mem_cons_self _ _
    obtain ⟨e, he, _⟩ := hc.keyed p hp
    simp only [hc.user p hp, he]
    exact ⟨_, rfl⟩

theorem PeekOrAdd_present (c : Cache K V α) (hc : CacheInv c) (key : K) (value : V) (p : Nat)
    (hp : c.lookup key = some p) :
    ∃ e, c.entries p = some e ∧
      Cache.PeekOrAdd c key value = some ((some e.value, true, false), c) := by
  obtain ⟨_, e, he, _⟩ := hc.indexed key p hp
  refine ⟨e, he, ?_⟩
  unfold Cache.PeekOrAdd
  rw [hp]
  simp only [he]

theorem PeekOrAdd_absent (c : Cache K V α) (key : K) (value : V)
    (hp : c.lookup key = none) :
    Cache.PeekOrAdd c key value =
      (match Cache.insertNew c key value with
      | none => none
      | some (evicted, c1) => some ((none, false, evicted), c1)) := by
  unfold Cache.PeekOrAdd
  rw [hp]

theorem Add_absent (incr : α → α) (c : Cache K V α) (key : K) (value : V)
    (hp : c.lookup key = none) : Cache.Add incr c key value = Cache.insertNew c key value := by
  unfold Cache.Add
  rw [hp]

/-- `insertNew` on an absent key: it returns, keeps the invariant, and keeps the capacity
bound when it held before. -/
theorem insertNew_inv (c : Cache K V α) (hc : CacheInv c) (key : K) (value : V)
    (habs : c.lookup key = none) :
    ∃ ev c2, Cache.insertNew c key value = some (ev, c2) ∧ CacheInv c2 ∧
      (c.Len ≤ c.size → c2.Len ≤ c2.size) := by
  obtain ⟨c1, hc1, hsz, _, _, _, _, hl, hA, hB, _⟩ := insertNew_cases c hc key value habs
  by_cases h : c.Len + 1 ≤ c.size
  · refine ⟨false, c1, hA h, hc1, fun _ => ?_⟩
    unfold Cache.Len RlogcHeap.Len elemHeap.Len at h ⊢
    rw [hl, hsz]
    push_cast
    exact h
  · obtain ⟨e, c2, _, hrun, hc2, hsame, hsz2, _⟩ := hB h
    refine ⟨true, c2, hrun, hc2, fun hb => ?_⟩
    have hl2 := len_of_same_detach (qat_mem c1.heap.queue 0 (by omega)) hsame
    unfold Cache.Len RlogcHeap.Len elemHeap.Len at hb ⊢
    rw [hl2, hl, hsz2]
    simpa using hb

/-- `Resize(n)`: it returns and keeps the invariant; for `n >= 0` the capacity bound holds
afterwards. -/
theorem Resize_inv (c : Cache K V α) (hc : CacheInv c) (n : Int) :
    ∃ ev c2, Cache.Resize c n = some (ev, c2) ∧ CacheInv c2 ∧ (0 ≤ n → c2.Len ≤ c2.size) := by
  have hc0 : CacheInv ({ c with size := n } : Cache K V α) :=
    ⟨hc.heap, hc.init, hc.fresh, hc.user, hc.keyed, hc.indexed⟩
  obtain ⟨removed, calls, c2, hrun, hc2, hsz, _, _, _, hperm, _, _, _, hcnt⟩ :=
    resizeLoop_spec (c.heap.queue.length + 1) { c with size := n } 0 hc0 (Nat.lt_succ_self _)
  refine ⟨_, c2, hrun, hc2, fun hn => ?_⟩
  have hl : c.heap.queue.length = removed.length + c2.heap.queue.length := by
    have := hperm.length_eq
    rw [List.length_append] at this
    exact this
  have hsz2 : c2.size = n := hsz
  have hcnt2 : (removed.length : Int) =
      max 0 (min (c.heap.queue.length : Int) ((c.heap.queue.length : Int) - n)) := hcnt
  unfold Cache.Len RlogcHeap.Len elemHeap.Len
  rw [hsz2]
  omega

/-- Every cache call returns on an invariant state, keeps the invariant, and (for a legal
call) keeps the capacity bound. -/
theorem cacheRun_inv (incr : α → α) (op : CacheOp K V) (c : Cache K V α) (hc : CacheInv c) :
    ∃ c2, op.run incr c = some c2 ∧ CacheInv c2 ∧
      (op.legal = true → c.Len ≤ c.size → c2.Len ≤ c2.size) := by
  cases op with
  | add k v =>
    cases hp : c.lookup k with
    | none =>
      obtain ⟨ev, c2, hrun, hc2, hb⟩ := insertNew_inv c hc k v hp
      refine ⟨c2, ?_, hc2, fun _ => hb⟩
      simp only [CacheOp.run, Add_absent incr c k v hp, hrun, Option.map_some']
    | some p =>
      obtain ⟨h, hsame, hrun, hc2⟩ := Add_present_spec incr c hc k v p hp
      refine ⟨_, ?_, hc2, fun _ hb => ?_⟩
      · simp only [CacheOp.run, hrun, Option.map_some']
      · unfold Cache.Len RlogcHeap.Len elemHeap.Len at hb ⊢
        show (h.queue.length : Int) ≤ c.size
        rw [hsame.len]
        exact hb
  | get k =>
    cases hp : c.lookup k with
    | none =>
      refine ⟨c, ?_, hc, fun _ hb => hb⟩
      simp only [CacheOp.run, Get_absent incr c k hp, Option.map_some']
    | some p =>
      obtain ⟨h, e, hsame, _, hrun, hc2, _⟩ := Get_present_spec incr c hc k p hp
      refine ⟨_, ?_, hc2, fun _ hb => ?_⟩
      · simp only [CacheOp.run, hrun, Option.map_some']
      · unfold Cache.Len RlogcHeap.Len elemHeap.Len at hb ⊢
        show (h.queue.length : Int) ≤ c.size
        rw [hsame.len]
        exact hb
  | peek k =>
    obtain ⟨r, hr⟩ := Peek_spec c hc k
    exact ⟨c, by simp only [CacheOp.run, hr, Option.map_some'], hc, fun _ hb => hb⟩
  | contains k => exact ⟨c, rfl, hc, fun _ hb => hb⟩
  | remove k =>
    cases hp : c.lookup k with
    | none =>
      refine ⟨c, ?_, hc, fun _ hb => hb⟩
      simp only [CacheOp.run, Remove_absent c k hp, Option.map_some']
    | some p =>
      obtain ⟨h, e, hsame, _, _, hrun, hc2⟩ := Remove_present_spec c hc k p hp
      refine ⟨_, ?_, hc2, fun _ hb => ?_⟩
      · simp only [CacheOp.run, hrun, Option.map_some']
      · have hl := len_of_same_detach (hc.indexed k p hp).1 hsame
        unfold Cache.Len RlogcHeap.Len elemHeap.Len at hb ⊢
        show (h.queue.length : Int) ≤ c.size
        rw [hl]
        omega
  | peekOrAdd k v =>
    cases hp : c.lookup k with
    | none =>
      obtain ⟨ev, c2, hrun, hc2, hb⟩ := insertNew_inv c hc k v hp
      refine ⟨c2, ?_, hc2, fun _ => hb⟩
      simp only [CacheOp.run, PeekOrAdd_absent c k v hp, hrun, Option.map_some']
    | some p =>
      obtain ⟨e, _, hrun⟩ := PeekOrAdd_present c hc k v p hp
      exact ⟨c, by simp only [CacheOp.run, hrun, Option.map_some'], hc, fun _ hb => hb⟩
  | containsOrAdd k v =>
    cases hp : c.lookup k with
    | none =>
      obtain ⟨ev, c2, hrun, hc2, hb⟩ := insertNew_inv c hc k v hp
      refine ⟨c2, ?_, hc2, fun _ => hb⟩
      simp only [CacheOp.run, Cache.ContainsOrAdd, PeekOrAdd_absent c k v hp, hrun,
        Option.map_some']
    | some p =>
      obtain ⟨e, _, hrun⟩ := PeekOrAdd_present c hc k v p hp
      exact ⟨c, by simp only [CacheOp.run, Cache.ContainsOrAdd, hrun, Option.map_some'], hc,
        fun _ hb => hb⟩
  | getOldest =>
    obtain ⟨r, hr⟩ := GetOldest_spec c hc
    exact ⟨c, by simp only [CacheOp.run, hr, Option.map_some'], hc, fun _ hb => hb⟩
  | removeOldest =>
    by_cases h0 : c.heap.queue = []
    · refine ⟨c, ?_, hc, fun _ hb => hb⟩
      simp only [CacheOp.run, Cache.RemoveOldest, evictOldest_empty c h0, Option.map_some']
    · have hpos : 0 < c.heap.queue.length := List.length_pos.2 h0
      obtain ⟨e, c2, _, hrun, hc2, hsame, hsz, _⟩ := evictOldest_spec c hc hpos
      refine ⟨c2, ?_, hc2, fun _ hb => ?_⟩
      · simp only [CacheOp.run, Cache.RemoveOldest, hrun, Option.map_some']
      · have hl := len_of_same_detach (qat_mem _ _ hpos) hsame
        unfold Cache.Len RlogcHeap.Len elemHeap.Len at hb ⊢
        rw [hl, hsz]
        omega
  | len => exact ⟨c, rfl, hc, fun _ hb => hb⟩
  | resize n =>
    obtain ⟨ev, c2, hrun, hc2, hb⟩ := Resize_inv c hc n
    refine ⟨c2, ?_, hc2, fun hl _ => hb ?_⟩
    · simp only [CacheOp.run, hrun, Option.map_some']
    · simpa [CacheOp.legal] using hl

theorem runCache_inv (incr : α → α) (ops : List (CacheOp K V)) : ∀ (c : Cache K V α),
    CacheInv c →
    ∃ c2, runCache incr ops c = some c2 ∧ CacheInv c2 ∧
      ((∀ op, op ∈ ops → op.legal = true) → c.Len ≤ c.size → c2.Len ≤ c2.size) := by
  induction ops with
  | nil => intro c hc; exact ⟨c, rfl, hc, fun _ hb => hb⟩
  | cons op ops ih =>
    intro c hc
    obtain ⟨c1, h1, hc1, hb1⟩ := cacheRun_inv incr op c hc
    obtain ⟨c2, h2, hc2, hb2⟩ := ih c1 hc1
    refine ⟨c2, by simp only [runCache, h1, h2], hc2, fun hl hb => ?_⟩
    exact hb2 (fun o ho => hl o (List.mem_cons_of_mem _ ho))
      (hb1 (hl op (List.mem_cons_self _ _)) hb)

end CacheLemmas

theorem cacheInv_new {K V α : Type} [LinearOrderedRing α] (decay : α) (timer : Nat → Int)
    (size : Int) : CacheInv (NewCacheInit decay timer size : Cache K V α) := by
  refine ⟨inv_empty decay timer, fun h => Option.noConfusion h,
    fun p hp => absurd hp (List.not_mem_nil p), fun p hp => absurd hp (List.not_mem_nil p),
    fun p hp => absurd hp (List.not_mem_nil p), fun k p hkp => ?_⟩
  exact Option.noConfusion hkp

section CacheFacts

variable {K V α : Type} [DecidableEq K] [LinearOrderedRing α]

theorem contains_eq_false_iff (c : Cache K V α) (k : K) :
    c.Contains k = false ↔ c.lookup k = none := by
  unfold Cache.Contains
  cases c.lookup k <;> simp

theorem contains_eq_true_iff (c : Cache K V α) (k : K) :
    c.Contains k = true ↔ ∃ p, c.lookup k = some p := by
  unfold Cache.Contains
  cases c.lookup k <;> simp

theorem sampleCache_inv : CacheInv sampleCache := by
  obtain ⟨c, hrun, hc, _⟩ := runCache_inv (fun x : ℤ => x + 1)
    [CacheOp.add 1 10, CacheOp.add 2 20, CacheOp.get 2]
    (NewCacheInit (-1) (fun n => (n : Int)) 2 : Cache Nat Nat ℤ)
    (cacheInv_new (-1) (fun n => (n : Int)) 2)
  have : sampleCache = c := by
    unfold sampleCache
    rw [hrun]
    rfl
  rw [this]
  exact hc

end CacheFacts

/-! ## Claims on the keyed cache -/

/-- C3. Capacity invariant of the keyed cache: for a cache built with `size >= 0` whose
index is an initialised empty map, every sequence of `Add`, `Get`, `Peek`, `Contains`,
`Remove`, `PeekOrAdd`, `ContainsOrAdd`, `GetOldest`, `RemoveOldest`, `Len` and `Resize(n)`
with `n >= 0` runs to completion and ends with `Len() <= size`, `size` being the current
capacity.  (Every prefix of a sequence is a sequence, so the bound holds after each
completed call.) -/
theorem capacity_invariant {K V α : Type} [DecidableEq K] [LinearOrderedRing α]
    (incr : α → α) (decay : α) (timer : Nat → Int) (size : Int) (hsize : 0 ≤ size)
    (ops : List (CacheOp K V)) (hops : ∀ op, op ∈ ops → op.legal = true) :
    ∃ c, runCache incr ops (NewCacheInit decay timer size : Cache K V α) = some c ∧
      c.Len ≤ c.size := by
  obtain ⟨c, hrun, _, hb⟩ := runCache_inv incr ops _ (cacheInv_new decay timer size)
  exact ⟨c, hrun, hb hops hsize⟩

/-- Witness for C3: capacity `1`, three distinct keys and a final `Resize(0)`. -/
theorem capacity_invariant_witness :
    (0 : Int) ≤ 1 ∧
    (∀ op, op ∈ [CacheOp.add 1 10, CacheOp.add 2 20, CacheOp.get 2, CacheOp.add 3 30,
      CacheOp.resize 0] → op.legal = true) ∧
    ∃ c, runCache (fun x : ℤ => x + 1)
        [CacheOp.add 1 10, CacheOp.add 2 20, CacheOp.get 2, CacheOp.add 3 30,
          CacheOp.resize 0]
        (NewCacheInit (-1) (fun n => (n : Int)) 1 : Cache Nat Nat ℤ) = some c ∧
      c.Len ≤ c.size :=
  ⟨by decide, by decide,
    capacity_invariant (fun x : ℤ => x + 1) (-1) (fun n => (n : Int)) 1 (by decide)
      [CacheOp.add 1 10, CacheOp.add 2 20, CacheOp.get 2, CacheOp.add 3 30, CacheOp.resize 0]
      (by decide)⟩

/-- C4, as stated, fails for a key that is not equal to itself: after `Add(NaN, 1)` on an
initialised cache the heap queues the element at address `0`, whose entry has key NaN,
while no key of the index leads to address `0`. -/
theorem NaN_key_not_indexed :
    ∃ c m, runCache (fun x : ℤ => x + 1) [CacheOp.add FloatKey.nan 1]
        (NewCacheInit (-1) (fun n => (n : Int)) 2 : Cache FloatKey Nat ℤ) = some c ∧
      c.index = some m ∧ 0 ∈ c.heap.queue ∧
      (c.entries 0).map (fun e => e.value) = some 1 ∧ ¬ ∃ k, m k = some 0 := by
  refine ⟨_, _, rfl, rfl, by decide, by decide, ?_⟩
  rintro ⟨k, hk⟩
  cases k with
  | nan => exact absurd hk (by decide)
  | num n =>
    have h2 : (FloatKey.num n == FloatKey.nan) = false := rfl
    simp [h2] at hk

/-- C4, amended.  Index/heap agreement of the keyed cache for keys on which `==` is
equality (every key equal to itself): after every sequence of cache calls on a cache whose
index starts as an initialised empty map, the index is a map, an address is reachable
through it exactly when it is queued in the heap, and each key `k` maps to an entry whose
key field is `k`. -/
theorem index_heap_agreement {K V α : Type} [DecidableEq K] [LinearOrderedRing α]
    (incr : α → α) (decay : α) (timer : Nat → Int) (size : Int) (ops : List (CacheOp K V)) :
    ∃ c m, runCache incr ops (NewCacheInit decay timer size : Cache K V α) = some c ∧
      c.index = some m ∧
      (∀ p, (∃ k, m k = some p) ↔ p ∈ c.heap.queue) ∧
      (∀ k p, m k = some p → ∃ e, c.entries p = some e ∧ e.key = k) := by
  obtain ⟨c, hrun, hc, _⟩ := runCache_inv incr ops _ (cacheInv_new decay timer size)
  obtain ⟨m, hm⟩ : ∃ m, c.index = some m := by
    cases hi : c.index with
    | none => exact absurd hi hc.init
    | some m => exact ⟨m, rfl⟩
  have hlk : ∀ k, c.lookup k = m k := by
    intro k; unfold Cache.lookup; rw [hm]
  refine ⟨c, m, hrun, hm, fun p => ⟨?_, fun hp => ?_⟩, fun k p hkp => ?_⟩
  · rintro ⟨k, hk⟩
    rw [← hlk] at hk
    exact (hc.indexed k p hk).1
  · obtain ⟨e, _, he⟩ := hc.keyed p hp
    exact ⟨e.key, by rw [← hlk]; exact he⟩
  · rw [← hlk] at hkp
    exact (hc.indexed k p hkp).2

/-- C5, as stated, fails in two ways.  For a key that is not equal to itself: `Add(NaN, 7)`
on a fresh initialised cache of capacity `2` returns `evicted = false` and `Len() = 1`, but
the key is not present afterwards.  For ticks that do not fit `int64`: on the full cache
`wideCache` (capacity `4`, heap in order) `Add(5, 50)` returns `evicted = true` with the
single callback `(1, 10)` for the entry at address `0`, although `Compare(e0, e3) = +1`,
so the evicted entry is not minimal. -/
theorem Add_absent_key_fails :
    (Cache.Add (fun x : ℤ => x + 1)
      (NewCacheInit (-1) (fun n => (n : Int)) 2 : Cache FloatKey Nat ℤ) FloatKey.nan 7).map
      (fun r => (r.1, r.2.Contains FloatKey.nan, r.2.Len)) = some (false, false, 1) ∧
    (decide (HeapOrdered wideCache.heap), wideCache.Contains 5, wideCache.Len, wideCache.size) =
      (true, false, 4, 4) ∧
    (Cache.Add (fun x : ℤ => x + 1) wideCache 5 50).map
      (fun r => (r.1, r.2.evcb.map (fun call => (call.key, call.value)),
        (wideCache.entries 0).map (fun e => (e.key, e.value)),
        (r.2.heap.elems 0).rank.Compare (r.2.heap.elems 3).rank r.2.heap.Decay)) =
      some (true, [(1, 10)], some (1, 10), 1) := by
  decide

/-- C5, amended.  `Add` of an absent key on a state satisfying the invariants, for keys on
which `==` is equality.  With `Len() < size` it returns `evicted = false`, logs no callback,
and `k` is present with value `v`.  With `Len() = size` it returns `evicted = true`; one
address `q` with entry `e`, taken from the old queue together with the new entry (at
`c.next`), leaves the queue; the callback is logged exactly once, with `e`'s key and value;
`Len()` is unchanged; and if the heap is in order and the queued ticks and the tick of this
call differ pairwise by an `int64`, `q` compares `<=` every old or new address under
`Compare`.  With `size = 0` the evicted entry is `(k, v)`. -/
theorem Add_absent_key {K V α : Type} [DecidableEq K] [LinearOrderedRing α]
    (incr : α → α) (c : Cache K V α) (hc : CacheInv c) (k : K) (v : V)
    (habs : c.Contains k = false) :
    (c.Len < c.size → ∃ c2, Cache.Add incr c k v = some (false, c2) ∧ c2.evcb = c.evcb ∧
      c2.Contains k = true ∧ Cache.Peek c2 k = some (some v, true)) ∧
    (c.Len = c.size → ∃ c2 q e, Cache.Add incr c k v = some (true, c2) ∧
      (q ∈ c.heap.queue ∨ q = c.next) ∧
      upd c.entries c.next (some { key := k, value := v }) q = some e ∧
      (c.heap.queue ++ [c.next]).Perm (q :: c2.heap.queue) ∧
      (HeapOrdered c.heap → TicksFit c.heap → NowFits c.heap →
        ∀ x, (x ∈ c.heap.queue ∨ x = c.next) →
          (c2.heap.elems q).rank.Compare (c2.heap.elems x).rank c2.heap.Decay ≤ 0) ∧
      (∃ r, c2.evcb = c.evcb ++ [r] ∧ r.key = e.key ∧ r.value = e.value) ∧
      c2.Contains e.key = false ∧
      c2.Len = c.Len ∧
      (c.size = 0 → q = c.next ∧ e.key = k ∧ e.value = v ∧ c2.Contains k = false)) := by
  have hlk0 : c.lookup k = none := (contains_eq_false_iff c k).1 habs
  rw [Add_absent incr c k v hlk0]
  obtain ⟨c1, hc1, hsz, hlog, hent, hlk, hsame, hl, hA, hB, hord⟩ :=
    insertNew_cases c hc k v hlk0
  have hmem1 : ∀ x, x ∈ c1.heap.queue ↔ (x ∈ c.heap.queue ∨ x = c.next) := by
    intro x
    rw [hsame.mem]
    show x ∈ c.heap.queue ++ [c.next] ↔ _
    simp
  refine ⟨fun hlt => ?_, fun heq => ?_⟩
  · refine ⟨c1, hA (by omega), hlog, ?_, ?_⟩
    · rw [contains_eq_true_iff]
      exact ⟨c.next, by rw [hlk, if_pos rfl]⟩
    · unfold Cache.Peek
      rw [hlk, if_pos rfl]
      simp only [hent, upd_same]
  · obtain ⟨e, c2, he, hrun, hc2, hsame2, hsz2, hent2, hidx2, hlog2⟩ := hB (by omega)
    have hpos : 0 < c1.heap.queue.length := by omega
    have hq1 : qat c1.heap.queue 0 ∈ c1.heap.queue := qat_mem _ _ hpos
    have hperm2 := perm_of_same_detach hc1.heap.1 hc2.heap.1 hq1 hsame2
    have hfresh : c.next ∉ c.heap.queue := fun h => Nat.lt_irrefl _ (hc.fresh _ h)
    have hlk2 : ∀ k2, c2.lookup k2 = if k2 = e.key then none else c1.lookup k2 := by
      intro k2
      rw [lookup_mapDelete c1.index c2 e.key k2 hidx2]
      rfl
    have hcont : c2.Contains e.key = false := by
      rw [contains_eq_false_iff, hlk2, if_pos rfl]
    refine ⟨c2, qat c1.heap.queue 0, e, hrun, (hmem1 _).1 hq1, by rw [← hent]; exact he, ?_,
      fun ho hfit hnow x hx => ?_, ⟨_, hlog2, rfl, rfl⟩, hcont, ?_, fun h0 => ?_⟩
    · refine List.Perm.trans ?_ hperm2
      rw [List.perm_ext_iff_of_nodup ?_ (slots_nodup hc1.heap.1)]
      · intro x
        rw [hmem1]
        simp
      · rw [List.nodup_append]
        refine ⟨slots_nodup hc.heap.1, List.nodup_singleton _, ?_⟩
        intro x hx hx2
        rw [List.mem_singleton] at hx2
        exact hfresh (hx2 ▸ hx)
    · obtain ⟨hfit1, ho1⟩ := hord hfit hnow ((heapOrdered_iff c.heap hfit).1 ho)
      have hx1 : x ∈ c1.heap.queue := (hmem1 x).2 hx
      rw [rank_of_same_detach hsame2, rank_of_same_detach hsame2, hsame2.decay,
        compare_nonpos_iff _ _ _ (hfit1 _ hq1 _ hx1)]
      exact root_le_all ho1 x hx1
    · have hl2 := len_of_same_detach hq1 hsame2
      unfold Cache.Len RlogcHeap.Len elemHeap.Len
      rw [hl2, hl]
      simp
    · have hlen0 : c.heap.queue.length = 0 := by
        have : c.Len = 0 := heq.trans h0
        unfold Cache.Len RlogcHeap.Len elemHeap.Len at this
        exact_mod_cast this
      have hq : qat c1.heap.queue 0 = c.next := by
        rcases (hmem1 _).1 hq1 with h | h
        · rw [List.length_eq_zero.1 hlen0] at h
          exact absurd h (List.not_mem_nil _)
        · exact h
      have he2 : e = { key := k, value := v } := by
        rw [hq, hent, upd_same] at he
        exact (Option.some.inj he).symm
      refine ⟨hq, by rw [he2], by rw [he2], ?_⟩
      have : e.key = k := by rw [he2]
      rw [← this]
      exact hcont

/-- Witness for C5: `Add(3, 30)` on the full cache that holds keys `1` and `2` evicts the
lowest-ranked entry. -/
theorem Add_absent_key_witness :
    CacheInv sampleCache ∧ sampleCache.Contains 3 = false ∧ sampleCache.Len = sampleCache.size ∧
    HeapOrdered sampleCache.heap ∧ TicksFit sampleCache.heap ∧ NowFits sampleCache.heap ∧
    ∃ c2 q e, Cache.Add (fun x : ℤ => x + 1) sampleCache 3 30 = some (true, c2) ∧
      (q ∈ sampleCache.heap.queue ∨ q = sampleCache.next) ∧
      upd sampleCache.entries sampleCache.next (some { key := 3, value := 30 }) q = some e ∧
      (∀ x, (x ∈ sampleCache.heap.queue ∨ x = sampleCache.next) →
        (c2.heap.elems q).rank.Compare (c2.heap.elems x).rank c2.heap.Decay ≤ 0) ∧
      (∃ r, c2.evcb = sampleCache.evcb ++ [r] ∧ r.key = e.key ∧ r.value = e.value) ∧
      c2.Contains e.key = false ∧ c2.Len = sampleCache.Len := by
  obtain ⟨c2, q, e, hrun, hq, he, _, hmin, hcb, hcont, hlen, _⟩ :=
    (Add_absent_key (fun x : ℤ => x + 1) sampleCache sampleCache_inv 3 30 (by decide)).2
      (by decide)
  exact ⟨sampleCache_inv, by decide, by decide, by decide, by decide, by decide, c2, q, e, hrun,
    hq, he, hmin (by decide) (by decide) (by decide), hcb, hcont, hlen⟩

/-- C6, as stated, fails for ticks that do not fit `int64`: on the full cache `wideCache`
(heap in order) `Resize(3)` returns `1` and removes the entry at address `0`, with the
callback `(1, 10)`, while the survivor at address `3` compares strictly below it:
`Compare(e0, e3) = +1`. -/
theorem Resize_not_lowest :
    decide (HeapOrdered wideCache.heap) = true ∧
    (Cache.Resize wideCache 3).map
      (fun r => (r.1, r.2.heap.queue, r.2.evcb.map (fun call => (call.key, call.value)),
        (wideCache.entries 0).map (fun e => (e.key, e.value)))) =
      some (1, [1, 3, 2], [(1, 10)], some (1, 10)) ∧
    (wideCache.heap.elems 0).rank.Compare (wideCache.heap.elems 3).rank
      wideCache.heap.Decay = 1 := by
  decide

/-- C6, amended.  `Resize(n)` with `n >= 0` on a state satisfying the invariants returns
`max(0, Len_before - n)`; afterwards the capacity is `n` and `Len() = min(Len_before, n)`;
the queue splits into the removed addresses (in order of removal) and the survivors; the
callback is logged once per removed entry, in that order, with its key and value; and if the
heap is in order and the queued ticks differ pairwise by an `int64`, every removed entry
compares `<=` every survivor under `Compare`, and each removed entry compares `<=` the ones
removed after it. -/
theorem Resize_evicts_lowest {K V α : Type} [DecidableEq K] [LinearOrderedRing α]
    (c : Cache K V α) (hc : CacheInv c) (n : Int) (hn : 0 ≤ n) :
    ∃ (removed : List Nat) (calls : List (Call K V)) (c2 : Cache K V α),
      Cache.Resize c n = some ((removed.length : Int), c2) ∧
      (removed.length : Int) = max 0 (c.Len - n) ∧
      c2.size = n ∧ c2.Len = min c.Len n ∧
      c.heap.queue.Perm (removed ++ c2.heap.queue) ∧
      c2.evcb = c.evcb ++ calls ∧
      List.Forall₂ (fun p r => ∃ e, c.entries p = some e ∧ r.key = e.key ∧ r.value = e.value)
        removed calls ∧
      (HeapOrdered c.heap → TicksFit c.heap →
        (∀ r, r ∈ removed → ∀ x, x ∈ c2.heap.queue →
          (c.heap.elems r).rank.Compare (c.heap.elems x).rank c.heap.Decay ≤ 0) ∧
        removed.Pairwise (fun a b =>
          (c.heap.elems a).rank.Compare (c.heap.elems b).rank c.heap.Decay ≤ 0)) ∧
      CacheInv c2 := by
  have hc0 : CacheInv ({ c with size := n } : Cache K V α) :=
    ⟨hc.heap, hc.init, hc.fresh, hc.user, hc.keyed, hc.indexed⟩
  obtain ⟨removed, calls, c2, hrun, hc2, hsz, _, _, _, hperm, hlog, hfa, hmp, hcnt⟩ :=
    resizeLoop_spec (c.heap.queue.length + 1) { c with size := n } 0 hc0 (Nat.lt_succ_self _)
  have hl : c.heap.queue.length = removed.length + c2.heap.queue.length := by
    have := hperm.length_eq
    rw [List.length_append] at this
    exact this
  have hsz2 : c2.size = n := hsz
  have hcnt2 : (removed.length : Int) =
      max 0 (min (c.heap.queue.length : Int) ((c.heap.queue.length : Int) - n)) := hcnt
  have hlen : c.Len = (c.heap.queue.length : Int) := rfl
  have hlen2 : c2.Len = (c2.heap.queue.length : Int) := rfl
  have hsub : ∀ x, x ∈ removed ++ c2.heap.queue → x ∈ c.heap.queue :=
    fun x hx => hperm.symm.subset hx
  refine ⟨removed, calls, c2, ?_, ?_, hsz2, ?_, hperm, hlog, hfa, fun ho hfit => ?_, hc2⟩
  · unfold Cache.Resize
    rw [hrun, zero_add]
  · rw [hlen]; omega
  · rw [hlen, hlen2]; omega
  · obtain ⟨hmin, hpw⟩ := hmp hfit ((heapOrdered_iff c.heap hfit).1 ho)
    refine ⟨fun r hr x hx => ?_, ?_⟩
    · rw [compare_nonpos_iff _ _ _
        (hfit _ (hsub r (List.mem_append_left _ hr)) _ (hsub x (List.mem_append_right _ hx)))]
      exact hmin r hr x hx
    · have hpw2 : removed.Pairwise (fun a b => a ∈ removed ∧ b ∈ removed ∧
          c.heap.key a ≤ c.heap.key b) := by
        rw [List.pairwise_iff_forall_sublist] at hpw ⊢
        intro a b hab
        have ha : a ∈ removed := hab.subset (List.mem_cons_self _ _)
        have hb : b ∈ removed := hab.subset (List.mem_cons_of_mem _ (List.mem_singleton.2 rfl))
        exact ⟨ha, hb, hpw hab⟩
      refine hpw2.imp ?_
      rintro a b ⟨ha, hb, hab⟩
      rw [compare_nonpos_iff _ _ _
        (hfit _ (hsub a (List.mem_append_left _ ha)) _ (hsub b (List.mem_append_left _ hb)))]
      exact hab

/-- Witness for C6: `Resize(1)` on a cache holding two entries. -/
theorem Resize_evicts_lowest_witness :
    CacheInv sampleCache ∧ (0 : Int) ≤ 1 ∧ HeapOrdered sampleCache.heap ∧
    TicksFit sampleCache.heap ∧
    ∃ (removed : List Nat) (calls : List (Call Nat Nat)) (c2 : Cache Nat Nat ℤ),
      Cache.Resize sampleCache 1 = some ((removed.length : Int), c2) ∧
      (removed.length : Int) = max 0 (sampleCache.Len - 1) ∧
      c2.size = 1 ∧ c2.Len = min sampleCache.Len 1 ∧
      sampleCache.heap.queue.Perm (removed ++ c2.heap.queue) ∧
      c2.evcb = sampleCache.evcb ++ calls ∧
      List.Forall₂ (fun p r => ∃ e, sampleCache.entries p = some e ∧ r.key = e.key ∧
        r.value = e.value) removed calls ∧
      (∀ r, r ∈ removed → ∀ x, x ∈ c2.heap.queue →
        (sampleCache.heap.elems r).rank.Compare (sampleCache.heap.elems x).rank
          sampleCache.heap.Decay ≤ 0) ∧
      removed.Pairwise (fun a b =>
        (sampleCache.heap.elems a).rank.Compare (sampleCache.heap.elems b).rank
          sampleCache.heap.Decay ≤ 0) ∧
      CacheInv c2 := by
  obtain ⟨removed, calls, c2, h1, h2, h3, h4, h5, h6, h7, h8, h9⟩ :=
    Resize_evicts_lowest sampleCache sampleCache_inv 1 (by decide)
  obtain ⟨h8a, h8b⟩ := h8 (by decide) (by decide)
  exact ⟨sampleCache_inv, by decide, by decide, by decide, removed, calls, c2, h1, h2, h3, h4,
    h5, h6, h7, h8a, h8b, h9⟩

/-- C7. `Remove` of a specific key on a state satisfying the invariants.  If `k` is
present with stored value `v`, `Remove(k)` returns `true`, logs the callback exactly once
with `k` and `v`, and afterwards `k` is absent, `Len()` is one less, and every other key
has the same presence, value and rank.  If `k` is absent it returns `false`, logs nothing
and leaves the state unchanged. -/
theorem Remove_specific_key {K V α : Type} [DecidableEq K] [LinearOrderedRing α]
    (c : Cache K V α) (hc : CacheInv c) (k : K) :
    (c.Contains k = true → ∃ v c2, Cache.Peek c k = some (some v, true) ∧
      Cache.Remove c k = some (true, c2) ∧
      (∃ r, c2.evcb = c.evcb ++ [r] ∧ r.key = k ∧ r.value = v) ∧
      c2.Contains k = false ∧ c2.Len = c.Len - 1 ∧
      (∀ k2, k2 ≠ k → c2.Contains k2 = c.Contains k2 ∧ Cache.Peek c2 k2 = Cache.Peek c k2 ∧
        c2.rankOf k2 = c.rankOf k2) ∧
      CacheInv c2) ∧
    (c.Contains k = false → Cache.Remove c k = some (false, c)) := by
  refine ⟨fun hpres => ?_, fun habs => Remove_absent c k ((contains_eq_false_iff c k).1 habs)⟩
  obtain ⟨p, hp⟩ := (contains_eq_true_iff c k).1 hpres
  obtain ⟨h, e, hsame, he, hek, hrun, hc2⟩ := Remove_present_spec c hc k p hp
  have hpq := (hc.indexed k p hp).1
  have hlk2 : ∀ k2, Cache.lookup ({ c with
      heap := h
      evcb := c.evcb ++ [Call.mk e.key e.value c.index h.queue]
      index := mapDelete c.index k } : Cache K V α) k2 =
      if k2 = k then none else c.lookup k2 := by
    intro k2
    rw [lookup_mapDelete c.index _ k k2 rfl]
    rfl
  refine ⟨e.value, _, ?_, hrun, ⟨_, rfl, hek, rfl⟩, ?_, ?_, fun k2 hk2 => ⟨?_, ?_, ?_⟩, hc2⟩
  · unfold Cache.Peek
    rw [hp]
    simp only [he]
  · rw [contains_eq_false_iff, hlk2, if_pos rfl]
  · have hl := len_of_same_detach hpq hsame
    unfold Cache.Len RlogcHeap.Len elemHeap.Len
    show (h.queue.length : Int) = _
    rw [hl]
    have : 0 < c.heap.queue.length := List.length_pos_of_mem hpq
    omega
  · unfold Cache.Contains
    rw [hlk2, if_neg hk2]
  · unfold Cache.Peek
    rw [hlk2, if_neg hk2]
  · unfold Cache.rankOf
    rw [hlk2, if_neg hk2]
    cases hq : c.lookup k2 with
    | none => rfl
    | some p2 =>
      show some ((h.elems p2).rank) = some ((c.heap.elems p2).rank)
      rw [rank_of_same_detach hsame]

/-- Witness for C7: `Remove(1)` on a cache holding keys `1` and `2`. -/
theorem Remove_specific_key_witness :
    CacheInv sampleCache ∧ sampleCache.Contains 1 = true ∧
    ∃ v c2, Cache.Peek sampleCache 1 = some (some v, true) ∧
      Cache.Remove sampleCache 1 = some (true, c2) ∧
      (∃ r, c2.evcb = sampleCache.evcb ++ [r] ∧ r.key = 1 ∧ r.value = v) ∧
      c2.Contains 1 = false ∧ c2.Len = sampleCache.Len - 1 ∧
      (∀ k2, k2 ≠ 1 → c2.Contains k2 = sampleCache.Contains k2 ∧
        Cache.Peek c2 k2 = Cache.Peek sampleCache k2 ∧
        c2.rankOf k2 = sampleCache.rankOf k2) ∧
      CacheInv c2 :=
  ⟨sampleCache_inv, by decide, (Remove_specific_key sampleCache sampleCache_inv 1).1 (by decide)⟩

/-- C8. Overwrite is not eviction: on a state satisfying the invariants, `Add(k, v2)` for
a key already present returns `evicted = false`, logs no callback, leaves the presence of
every key and `Len()` unchanged, and a following `Peek(k)` returns `(v2, true)`. -/
theorem Add_overwrite {K V α : Type} [DecidableEq K] [LinearOrderedRing α]
    (incr : α → α) (c : Cache K V α) (hc : CacheInv c) (k : K) (v2 : V)
    (hpres : c.Contains k = true) :
    ∃ c2, Cache.Add incr c k v2 = some (false, c2) ∧ c2.evcb = c.evcb ∧
      (∀ k2, c2.Contains k2 = c.Contains k2) ∧ c2.Len = c.Len ∧
      Cache.Peek c2 k = some (some v2, true) ∧ CacheInv c2 := by
  obtain ⟨p, hp⟩ := (contains_eq_true_iff c k).1 hpres
  obtain ⟨h, hsame, hrun, hc2⟩ := Add_present_spec incr c hc k v2 p hp
  refine ⟨_, hrun, rfl, fun k2 => rfl, ?_, ?_, hc2⟩
  · unfold Cache.Len RlogcHeap.Len elemHeap.Len
    show (h.queue.length : Int) = _
    rw [hsame.len]
    rfl
  · unfold Cache.Peek
    have : Cache.lookup ({ c with
        entries := upd c.entries p (some { key := k, value := v2 })
        heap := h } : Cache K V α) k = some p := hp
    rw [this]
    simp only [upd_same]

/-- Witness for C8: `Add(1, 11)` on a cache that holds key `1` with value `10`. -/
theorem Add_overwrite_witness :
    CacheInv sampleCache ∧ sampleCache.Contains 1 = true ∧
    ∃ c2, Cache.Add (fun x : ℤ => x + 1) sampleCache 1 11 = some (false, c2) ∧
      c2.evcb = sampleCache.evcb ∧
      (∀ k2, c2.Contains k2 = sampleCache.Contains k2) ∧ c2.Len = sampleCache.Len ∧
      Cache.Peek c2 1 = some (some 11, true) ∧ CacheInv c2 :=
  ⟨sampleCache_inv, by decide,
    Add_overwrite (fun x : ℤ => x + 1) sampleCache sampleCache_inv 1 11 (by decide)⟩

/-! ## Claims on the rank -/

theorem F_eq_log (n : ℝ) : F n = Real.log (Real.exp n + 1) := by
  unfold F
  rcases le_total 0 n with h | h
  · rw [max_eq_right h, abs_of_nonneg h]
    have hpos : 0 < Real.exp (-n) + 1 := by positivity
    have : Real.exp n + 1 = Real.exp n * (Real.exp (-n) + 1) := by
      rw [mul_add, ← Real.exp_add, add_neg_cancel, Real.exp_zero, mul_one, add_comm]
    rw [this, Real.log_mul (Real.exp_pos n).ne' hpos.ne', Real.log_exp]
  · rw [max_eq_left h, abs_of_nonpos h, neg_neg, zero_add]

/-- C9. The stable form of `F` equals its definition: for every real `n`,
`max(0, n) + log(exp(-|n|) + 1) = log(exp(n) + 1)`, and `F(n) = n + F(-n)`. -/
theorem F_stable_form (n : ℝ) :
    max 0 n + Real.log (Real.exp (-|n|) + 1) = Real.log (Real.exp n + 1) ∧
    F n = Real.log (Real.exp n + 1) ∧ F n = n + F (-n) := by
  refine ⟨F_eq_log n, F_eq_log n, ?_⟩
  rw [F_eq_log, F_eq_log]
  have hpos : 0 < Real.exp (-n) + 1 := by positivity
  have : Real.exp n + 1 = Real.exp n * (Real.exp (-n) + 1) := by
    rw [mul_add, ← Real.exp_add, add_neg_cancel, Real.exp_zero, mul_one, add_comm]
  rw [this, Real.log_mul (Real.exp_pos n).ne' hpos.ne', Real.log_exp]

/-- C10, as stated, fails when the elapsed ticks do not fit `int64`: for the rank
`(LogC 0, Time -1)`, `now = 2^63 - 1` and `decay = -1` the subtraction `now - Time` wraps to
`-2^63`, so `Access` leaves `exp(LogC) = exp(2^63) + 1`, which is not the claimed
`exp(0) * exp(-1)^(2^63) + 1`. -/
theorem Access_count_wraps :
    Real.exp ((⟨0, -1⟩ : HC ℝ).Access F (2 ^ 63 - 1) (-1)).LogC = Real.exp (2 ^ 63) + 1 ∧
    Real.exp ((⟨0, -1⟩ : HC ℝ).Access F (2 ^ 63 - 1) (-1)).LogC ≠
      Real.exp (⟨0, -1⟩ : HC ℝ).LogC *
        Real.exp (-1) ^ ((2 ^ 63 - 1 : Int) - (⟨0, -1⟩ : HC ℝ).Time) + 1 := by
  have hw : wrap64 ((2 ^ 63 - 1 : Int) - (-1)) = -(2 ^ 63) := by decide
  have hl : ((⟨0, -1⟩ : HC ℝ).Access F (2 ^ 63 - 1) (-1)).LogC = F (2 ^ 63) := by
    show F (0 + ((wrap64 ((2 ^ 63 - 1 : Int) - (-1)) : Int) : ℝ) * (-1)) = _
    rw [hw]
    norm_num
  have he : Real.exp ((⟨0, -1⟩ : HC ℝ).Access F (2 ^ 63 - 1) (-1)).LogC =
      Real.exp (2 ^ 63) + 1 := by
    rw [hl, F_eq_log, Real.exp_log (by positivity)]
  refine ⟨he, ?_⟩
  rw [he]
  show Real.exp (2 ^ 63) + 1 ≠ Real.exp 0 * Real.exp (-1) ^ ((2 ^ 63 - 1 : Int) - (-1)) + 1
  have h1 : (1 : ℝ) < Real.exp (2 ^ 63) := by
    rw [← Real.exp_zero]
    exact Real.exp_lt_exp.2 (by positivity)
  have h2 : Real.exp (-1) ^ ((2 ^ 63 - 1 : Int) - (-1)) < 1 := by
    have hd : ((2 ^ 63 - 1 : Int) - (-1)) = ((2 ^ 63 : Nat) : Int) := by norm_num
    rw [hd, zpow_natCast]
    refine pow_lt_one₀ (Real.exp_pos _).le ?_ (by norm_num)
    rw [← Real.exp_zero]
    exact Real.exp_lt_exp.2 (by norm_num)
  rw [Real.exp_zero, one_mul]
  intro h
  linarith

/-- C10, amended.  `Access` implements an exponentially decaying access count while the
elapsed ticks fit `int64`: for every rank `r`, tick `now` with
`-2^63 <= now - Time_before < 2^63` and real `decay`, after `r.Access(now, decay)` (with the
increment `F`, in real arithmetic) the rank has `Time = now` and
`exp(LogC_after) = exp(LogC_before) * exp(decay)^(now - Time_before) + 1`;
`Enter` sets `LogC = 0` and `Time = now`, that is a count of `exp 0 = 1`. -/
theorem Access_decaying_count (r : HC ℝ) (now : Int) (decay : ℝ)
    (hfit : -(2 ^ 63) ≤ now - r.Time ∧ now - r.Time < 2 ^ 63) :
    (r.Access F now decay).Time = now ∧
    Real.exp (r.Access F now decay).LogC =
      Real.exp r.LogC * Real.exp decay ^ (now - r.Time) + 1 ∧
    (r.Enter now decay).LogC = 0 ∧ (r.Enter now decay).Time = now ∧
    Real.exp (r.Enter now decay).LogC = 1 := by
  refine ⟨rfl, ?_, rfl, rfl, Real.exp_zero⟩
  show Real.exp (F (r.LogC + ((wrap64 (now - r.Time) : Int) : ℝ) * decay)) = _
  rw [(wrap64_eq_iff (now - r.Time)).2 hfit, F_eq_log, Real.exp_log (by positivity),
    Real.exp_add, mul_comm ((now - r.Time : Int) : ℝ) decay, Real.exp_mul, Real.rpow_intCast]

/-- Witness for C10: the rank `(LogC 0, Time 3)` accessed at tick `5` with decay `-1`. -/
theorem Access_decaying_count_witness :
    (-(2 ^ 63) ≤ (5 : Int) - (⟨0, 3⟩ : HC ℝ).Time ∧ (5 : Int) - (⟨0, 3⟩ : HC ℝ).Time < 2 ^ 63) ∧
    ((⟨0, 3⟩ : HC ℝ).Access F 5 (-1)).Time = 5 ∧
    Real.exp ((⟨0, 3⟩ : HC ℝ).Access F 5 (-1)).LogC =
      Real.exp (⟨0, 3⟩ : HC ℝ).LogC * Real.exp (-1) ^ ((5 : Int) - (⟨0, 3⟩ : HC ℝ).Time) + 1 ∧
    ((⟨0, 3⟩ : HC ℝ).Enter 5 (-1)).LogC = 0 ∧ ((⟨0, 3⟩ : HC ℝ).Enter 5 (-1)).Time = 5 ∧
    Real.exp ((⟨0, 3⟩ : HC ℝ).Enter 5 (-1)).LogC = 1 :=
  ⟨by decide, Access_decaying_count ⟨0, 3⟩ 5 (-1) (by decide)⟩

/-! ## Claims on comparison and promotion -/

theorem rescore_diff {α : Type} [LinearOrderedRing α] (a b : HC α) (T : Int) (d : α) :
    a.rescore T d - b.rescore T d = a.key d - b.key d := by
  unfold HC.rescore HC.key
  push_cast
  rw [sub_mul, sub_mul]
  abel

/-- C11, as stated, fails when the tick difference does not fit `int64`: for
`a = (LogC 0, Time 2^63 - 1)`, `b = (LogC 0, Time -1)` and `decay = -1` the subtraction
`a.Time - b.Time` wraps to `-2^63`; `Compare(a, b)` and `Compare(b, a)` both return `-1`,
while the difference of the two log-counts decayed to tick `0` has sign `+1`. -/
theorem Compare_wraps :
    (⟨0, 2 ^ 63 - 1⟩ : HC ℤ).Compare ⟨0, -1⟩ (-1) = -1 ∧
    (⟨0, -1⟩ : HC ℤ).Compare ⟨0, 2 ^ 63 - 1⟩ (-1) = -1 ∧
    signOf ((⟨0, 2 ^ 63 - 1⟩ : HC ℤ).rescore 0 (-1) - (⟨0, -1⟩ : HC ℤ).rescore 0 (-1)) = 1 := by
  decide

/-- C11, amended.  Lazy comparison equals eager rescoring while the tick difference fits
`int64`: for all ranks `a`, `b` with `-2^63 <= a.Time - b.Time < 2^63`, every decay and every
common reference tick `T`, `Compare(a, b, decay)` is the sign of the difference of the two
log-counts decayed to `T`, so the outcome does not depend on `T`; and if also
`-2^63 < a.Time - b.Time` (the reverse difference fits as well),
`Compare(a, b) = -Compare(b, a)`.  `LogC` and `decay` range over a linearly ordered ring with
exact arithmetic, in particular the reals. -/
theorem Compare_lazy_eq_eager {α : Type} [LinearOrderedRing α] (a b : HC α) (decay : α)
    (T : Int) (hfit : -(2 ^ 63) ≤ a.Time - b.Time ∧ a.Time - b.Time < 2 ^ 63) :
    a.Compare b decay = signOf (a.rescore T decay - b.rescore T decay) ∧
    (-(2 ^ 63) < a.Time - b.Time → a.Compare b decay = -(b.Compare a decay)) := by
  have hab : tickFits a.Time b.Time := (tickFits_iff _ _).2 hfit
  constructor
  · unfold HC.Compare signOf
    simp only [compare_diff a b decay hab, rescore_diff]
  · intro hlo
    have hba : tickFits b.Time a.Time := (tickFits_iff _ _).2 ⟨by omega, by omega⟩
    unfold HC.Compare
    simp only [compare_diff a b decay hab, compare_diff b a decay hba]
    rcases lt_trichotomy (a.key decay) (b.key decay) with h | h | h
    · have h1 : a.key decay - b.key decay < 0 := sub_neg.2 h
      have h2 : ¬ (b.key decay - a.key decay < 0) := not_lt.2 (le_of_lt (sub_pos.2 h))
      have h3 : b.key decay - a.key decay > 0 := sub_pos.2 h
      rw [if_pos h1, if_neg h2, if_pos h3]
    · rw [h]
      simp
    · have h1 : ¬ (a.key decay - b.key decay < 0) := not_lt.2 (le_of_lt (sub_pos.2 h))
      have h2 : a.key decay - b.key decay > 0 := sub_pos.2 h
      have h3 : b.key decay - a.key decay < 0 := sub_neg.2 h
      rw [if_neg h1, if_pos h2, if_pos h3]
      rfl

/-- Witness for C11: the ranks `(LogC 0, Time 3)` and `(LogC 1, Time 5)` with decay `-1`,
decayed to tick `7`. -/
theorem Compare_lazy_eq_eager_witness :
    (-(2 ^ 63) ≤ (⟨0, 3⟩ : HC ℤ).Time - (⟨1, 5⟩ : HC ℤ).Time ∧
      (⟨0, 3⟩ : HC ℤ).Time - (⟨1, 5⟩ : HC ℤ).Time < 2 ^ 63) ∧
    (⟨0, 3⟩ : HC ℤ).Compare ⟨1, 5⟩ (-1) =
      signOf ((⟨0, 3⟩ : HC ℤ).rescore 7 (-1) - (⟨1, 5⟩ : HC ℤ).rescore 7 (-1)) ∧
    (⟨0, 3⟩ : HC ℤ).Compare ⟨1, 5⟩ (-1) = -((⟨1, 5⟩ : HC ℤ).Compare ⟨0, 3⟩ (-1)) :=
  ⟨by decide, (Compare_lazy_eq_eager ⟨0, 3⟩ ⟨1, 5⟩ (-1) 7 (by decide)).1,
    (Compare_lazy_eq_eager ⟨0, 3⟩ ⟨1, 5⟩ (-1) 7 (by decide)).2 (by decide)⟩

theorem F_gt (x : ℝ) : x < F x := by
  rw [F_eq_log]
  have h : Real.exp x < Real.exp x + 1 := by linarith
  have := Real.log_lt_log (Real.exp_pos x) h
  rwa [Real.log_exp] at this

theorem exp_F (x : ℝ) : Real.exp (F x) = Real.exp x + 1 := by
  rw [F_eq_log, Real.exp_log (by positivity)]

/-- Two promotions of a queued element in a row, with the ranks they leave. -/
theorem promote_twice {α : Type} [LinearOrderedRing α] (incr : α → α) (s : RlogcHeap α)
    (e : Nat) (hs : Slots s) (hm : e ∈ s.queue) :
    ∃ t1 t2, Element.Promote incr s e = some t1 ∧ Element.Promote incr t1 e = some t2 ∧
      (t1.elems e).rank = (s.elems e).rank.Access incr (s.Timer s.ticks) s.Decay ∧
      (t2.elems e).rank = (t1.elems e).rank.Access incr (s.Timer (s.ticks + 1)) s.Decay := by
  obtain ⟨t1, h1, hsame1, hs1, _⟩ := Promote_spec incr s e hs hm
  have hm1 : e ∈ t1.queue := (hsame1.mem e).2 hm
  obtain ⟨t2, h2, hsame2, _, _⟩ := Promote_spec incr t1 e hs1 hm1
  refine ⟨t1, t2, h1, h2, ?_, ?_⟩
  · rw [hsame1.rank]
    have : (accessS incr s e).elems e =
        { s.elems e with rank := (s.elems e).rank.Access incr (s.Timer s.ticks) s.Decay } :=
      upd_same _ _ _
    rw [this]
  · rw [hsame2.rank]
    have : (accessS incr t1 e).elems e =
        { t1.elems e with rank := (t1.elems e).rank.Access incr (t1.Timer t1.ticks) t1.Decay } :=
      upd_same _ _ _
    rw [this, hsame1.timer, hsame1.ticks, hsame1.decay]
    rfl

/-- C17, at the failing input `Enter(4); Enter(7); StealElements()` on an empty integer
heap: the call returns `[4, 7]` and leaves the queue empty, but the stolen elements keep
`parent` and `index` (element `7`: attached, index `1`); so `Element.Promote` on element
`7` and `Element.Evict` on either element fail with an out-of-range access, and `Enter`
on element `7` returns without attaching it (the queue stays empty). -/
theorem StealElements_keeps_parent :
    (runOps (fun x : ℤ => x + 1) [HeapOp.enter 4, HeapOp.enter 7]
      (RlogcHeap.empty (-1) (fun n => (n : Int)))).map
        (fun s => ((RlogcHeap.StealElements s).1, (RlogcHeap.StealElements s).2.queue,
          ((RlogcHeap.StealElements s).2.elems 7).parent,
          ((RlogcHeap.StealElements s).2.elems 7).index)) = some ([4, 7], [], true, 1) ∧
    (runOps (fun x : ℤ => x + 1) [HeapOp.enter 4, HeapOp.enter 7]
      (RlogcHeap.empty (-1) (fun n => (n : Int)))).map
        (fun s =>
          ((Element.Promote (fun x : ℤ => x + 1) (RlogcHeap.StealElements s).2 7).isNone,
          (Element.Evict (RlogcHeap.StealElements s).2 7).isNone,
          (Element.Evict (RlogcHeap.StealElements s).2 4).isNone)) =
      some (true, true, true) ∧
    (runOps (fun x : ℤ => x + 1) [HeapOp.enter 4, HeapOp.enter 7]
      (RlogcHeap.empty (-1) (fun n => (n : Int)))).map
        (fun s => (RlogcHeap.Enter (RlogcHeap.StealElements s).2 7).map (fun t => t.queue)) =
      some (some []) := by
  decide

/-- C18, as stated, fails: on a one-element real heap whose timer returns tick `5` at both
calls, the second `Promote` changes the rank the first one left. -/
theorem Promote_not_idempotent :
    sampleRealHeap.Timer sampleRealHeap.ticks = sampleRealHeap.Timer (sampleRealHeap.ticks + 1) ∧
    ∃ t1 t2, Element.Promote F sampleRealHeap 0 = some t1 ∧
      Element.Promote F t1 0 = some t2 ∧ (t2.elems 0).rank ≠ (t1.elems 0).rank := by
  refine ⟨rfl, ?_⟩
  obtain ⟨t1, t2, h1, h2, r1, r2⟩ :=
    promote_twice F sampleRealHeap 0 (by decide) (List.mem_singleton.2 rfl)
  refine ⟨t1, t2, h1, h2, fun h => ?_⟩
  have hT1 : (t1.elems 0).rank.Time = 5 := by rw [r1]; rfl
  have hl : (t2.elems 0).rank.LogC = F ((t1.elems 0).rank.LogC) := by
    rw [r2]
    show F ((t1.elems 0).rank.LogC +
      ((wrap64 (sampleRealHeap.Timer (sampleRealHeap.ticks + 1) - (t1.elems 0).rank.Time) : Int)
        : ℝ) * sampleRealHeap.Decay) = _
    rw [hT1]
    have hw : wrap64 (sampleRealHeap.Timer (sampleRealHeap.ticks + 1) - 5) = 0 := by decide
    rw [hw]
    simp
  rw [h] at hl
  exact absurd hl (ne_of_lt (F_gt _))

/-- C18, amended.  Two consecutive `Promote` calls on a queued element during which the
timer returns the same tick `t` leave `Time = t`, as a single `Promote` does, and apply the
increment once more to `LogC`, with no decay in between: `LogC_2 = incr(LogC_1)`.  The rank
after the second call is the rank after the first exactly when the increment leaves `LogC_1`
unchanged.  This holds for every increment function `incr` in place of `F` and every
decay. -/
theorem Promote_twice_same_tick {α : Type} [LinearOrderedRing α] (incr : α → α)
    (s : RlogcHeap α) (e : Nat) (t : Int) (hs : Slots s)
    (hm : e ∈ s.queue) (ht1 : s.Timer s.ticks = t) (ht2 : s.Timer (s.ticks + 1) = t) :
    ∃ t1 t2, Element.Promote incr s e = some t1 ∧ Element.Promote incr t1 e = some t2 ∧
      (t1.elems e).rank.Time = t ∧ (t2.elems e).rank.Time = t ∧
      (t2.elems e).rank.LogC = incr (t1.elems e).rank.LogC ∧
      ((t2.elems e).rank = (t1.elems e).rank ↔
        incr (t1.elems e).rank.LogC = (t1.elems e).rank.LogC) := by
  obtain ⟨t1, t2, h1, h2, r1, r2⟩ := promote_twice incr s e hs hm
  have hT1 : (t1.elems e).rank.Time = t := by rw [r1]; exact ht1
  have hT2 : (t2.elems e).rank.Time = t := by rw [r2]; exact ht2
  have hl : (t2.elems e).rank.LogC = incr ((t1.elems e).rank.LogC) := by
    rw [r2]
    show incr ((t1.elems e).rank.LogC +
      ((wrap64 (s.Timer (s.ticks + 1) - (t1.elems e).rank.Time) : Int) : α) * s.Decay) = _
    rw [hT1, ht2, sub_self]
    have hw : wrap64 0 = 0 := by decide
    rw [hw]
    simp
  refine ⟨t1, t2, h1, h2, hT1, hT2, hl, fun h => ?_, fun h => ?_⟩
  · rw [← hl, h]
  · have hL : (t2.elems e).rank.LogC = (t1.elems e).rank.LogC := hl.trans h
    have hT : (t2.elems e).rank.Time = (t1.elems e).rank.Time := hT2.trans hT1.symm
    cases h2r : (t2.elems e).rank with
    | mk l2 tm2 =>
      cases h1r : (t1.elems e).rank with
      | mk l1 tm1 =>
        rw [h2r, h1r] at hL hT
        simp only at hL hT
        rw [hL, hT]

/-- Witness for the amended C18 on the one-element real heap, with the increment `F`. -/
theorem Promote_twice_same_tick_witness :
    Slots sampleRealHeap ∧ (0 : Nat) ∈ sampleRealHeap.queue ∧
    sampleRealHeap.Timer sampleRealHeap.ticks = 5 ∧
    sampleRealHeap.Timer (sampleRealHeap.ticks + 1) = 5 ∧
    ∃ t1 t2, Element.Promote F sampleRealHeap 0 = some t1 ∧
      Element.Promote F t1 0 = some t2 ∧
      (t1.elems 0).rank.Time = 5 ∧ (t2.elems 0).rank.Time = 5 ∧
      (t2.elems 0).rank.LogC = F (t1.elems 0).rank.LogC ∧
      ((t2.elems 0).rank = (t1.elems 0).rank ↔
        F (t1.elems 0).rank.LogC = (t1.elems 0).rank.LogC) :=
  ⟨by decide, List.mem_singleton.2 rfl, rfl, rfl,
    Promote_twice_same_tick F sampleRealHeap 0 5 (by decide) (List.mem_singleton.2 rfl) rfl rfl⟩

/-- C19, at the failing input `Remove(1)` on the cache left by
`Add(1, 10); Add(2, 20); Get(2)` (index initialised, capacity `2`): `Remove` returns `true`
and logs one callback `(1, 10)`; at the moment of that call the index still maps key `1`
to address `0`, while the heap queue is `[1]` and no longer holds address `0`. -/
theorem Remove_callback_before_delete :
    (Cache.Remove sampleCache 1).map (fun r => (r.1, r.2.evcb.length)) = some (true, 1) ∧
    (Cache.Remove sampleCache 1).bind (fun r => r.2.evcb.getLast?.map (fun call =>
      (call.key, call.value, call.indexAt.bind (fun m => m 1), call.queueAt))) =
      some (1, 10, some 0, [1]) := by
  decide

/-- C19, the sibling path: `RemoveOldest` on the same cache deletes the key before the
callback, so the logged index has no entry for the evicted key `1`. -/
theorem RemoveOldest_callback_after_delete :
    (Cache.RemoveOldest sampleCache).bind (fun r => r.2.evcb.getLast?.map (fun call =>
      (call.key, call.value, call.indexAt.bind (fun m => m 1), call.queueAt))) =
      some (1, 10, none, [1]) := by
  decide

/-- C20, at the failing input: on the cache returned by `NewCache` the first `Add` fails.
The lookup in the nil map and `Enter` go through; the write `c.index[key] = e` to the nil
map is the failure.  With the index initialised the same call completes with the key
present and `Len() = 1`. -/
theorem Add_on_nil_index {K V α : Type} [DecidableEq K] [LinearOrderedRing α]
    (incr : α → α) (decay : α) (timer : Nat → Int) (size : Int) (k : K) (v : V) :
    (NewCache decay timer size : Cache K V α).lookup k = none ∧
    (∃ h, RlogcHeap.Enter (NewCache decay timer size : Cache K V α).allocS 0 = some h) ∧
    Cache.Add incr (NewCache decay timer size : Cache K V α) k v = none ∧
    (1 ≤ size → ∃ c, Cache.Add incr (NewCacheInit decay timer size : Cache K V α) k v =
      some (false, c) ∧ c.Contains k = true ∧ c.Len = 1) := by
  have hinv0 : Inv (NewCache decay timer size : Cache K V α).allocS :=
    inv_upd_fresh (inv_empty decay timer) (List.not_mem_nil _) _ rfl
  obtain ⟨h, hent, _, _, _⟩ :=
    Enter_spec (NewCache decay timer size : Cache K V α).allocS 0 hinv0 rfl
  refine ⟨rfl, ⟨h, hent⟩, ?_, fun hsz => ?_⟩
  · have hl : (NewCache decay timer size : Cache K V α).lookup k = none := rfl
    rw [Add_absent incr _ k v hl]
    unfold Cache.insertNew
    have : RlogcHeap.Enter
        { (NewCache decay timer size : Cache K V α).heap with
          elems := upd (NewCache decay timer size : Cache K V α).heap.elems
            (NewCache decay timer size : Cache K V α).next
            { Element.zero with UserData :=
              (some (NewCache decay timer size : Cache K V α).next, none) } }
        (NewCache decay timer size : Cache K V α).next = some h := hent
    simp only [this]
    rfl
  · have hc := cacheInv_new (K := K) (V := V) decay timer size
    have hl : (NewCacheInit decay timer size : Cache K V α).lookup k = none := rfl
    rw [Add_absent incr _ k v hl]
    obtain ⟨c1, _, _, _, _, hlk, _, hlen, hA, _, _⟩ := insertNew_cases _ hc k v hl
    have h0 : (NewCacheInit decay timer size : Cache K V α).Len = 0 := rfl
    refine ⟨c1, hA (by rw [h0]; simpa using hsz), ?_, ?_⟩
    · rw [contains_eq_true_iff]
      exact ⟨_, by rw [hlk, if_pos rfl]⟩
    · unfold Cache.Len RlogcHeap.Len elemHeap.Len
      rw [hlen]
      rfl

/-! ## The scenario "frequency beats recency" -/

section Scenario

variable {K V α : Type} [DecidableEq K] [LinearOrderedRing α]

theorem F_pos (x : ℝ) : 0 < F x := by
  rw [F_eq_log]
  exact Real.log_pos (by linarith [Real.exp_pos x])

theorem runCache_cons (incr : α → α) (op : CacheOp K V) (ops : List (CacheOp K V))
    (c c1 : Cache K V α) (h : op.run incr c = some c1) :
    runCache incr (op :: ops) c = runCache incr ops c1 := by
  simp only [runCache, h]

/-- `Add` of an absent key below capacity, with everything it leaves behind. -/
theorem add_below_capacity (incr : α → α) (c : Cache K V α) (hc : CacheInv c) (k : K) (v : V)
    (habs : c.lookup k = none) (hcap : c.Len + 1 ≤ c.size) :
    ∃ c1, Cache.Add incr c k v = some (false, c1) ∧ CacheInv c1 ∧ c1.size = c.size ∧
      c1.evcb = c.evcb ∧ c1.next = c.next + 1 ∧
      c1.entries = upd c.entries c.next (some { key := k, value := v }) ∧
      (∀ k2, c1.lookup k2 = if k2 = k then some c.next else c.lookup k2) ∧
      c1.Len = c.Len + 1 ∧ c1.heap.ticks = c.heap.ticks + 1 ∧
      c1.heap.Timer = c.heap.Timer ∧ c1.heap.Decay = c.heap.Decay ∧
      (c1.heap.elems c.next).rank = { LogC := 0, Time := c.heap.Timer c.heap.ticks } ∧
      (∀ x, x ≠ c.next → (c1.heap.elems x).rank = (c.heap.elems x).rank) ∧
      (∀ m, TimerFits c.heap.Timer (c.heap.ticks + (m + 1)) → Stamped c.heap →
        HeapOn c.heap.keyAt c.heap.queue.length →
        TimerFits c1.heap.Timer (c1.heap.ticks + m) ∧ Stamped c1.heap ∧
          HeapOn c1.heap.keyAt c1.heap.queue.length) := by
  obtain ⟨c1, hc1, hsz, hlog, hnext, hent, hlk, hsame, hrun, hord, hstp⟩ :=
    insertNew_spec c hc k v habs
  have hl : c1.heap.queue.length = c.heap.queue.length + 1 :=
    len_enterS_same (s := c.allocS) hsame
  have hlen : c1.Len = c.Len + 1 := by
    unfold Cache.Len RlogcHeap.Len elemHeap.Len
    rw [hl]
    push_cast
    rfl
  obtain ⟨r1, r2⟩ := rank_of_same_enter hsame
  have htk : c1.heap.ticks = c.heap.ticks + 1 := hsame.ticks
  have htm : c1.heap.Timer = c.heap.Timer := hsame.timer
  refine ⟨c1, ?_, hc1, hsz, hlog, hnext, hent, hlk, hlen, htk, htm,
    hsame.decay, r1, fun x hx => ?_, fun m hfit hst ho => ?_⟩
  · rw [Add_absent incr c k v habs, hrun, if_pos]
    have : RlogcHeap.Len c1.heap = c1.Len := rfl
    rw [this, hlen, hsz]
    exact hcap
  · rw [r2 x hx]
    show ((upd c.heap.elems c.next _) x).rank = _
    rw [upd_other _ _ _ _ hx]
  · have hfit1 : TimerFits c.heap.Timer (c.heap.ticks + 1) := hfit.mono (by omega)
    have h1 := hord (ticksFit_of_stamped hst (hfit1.mono (Nat.le_succ _)))
      (nowFits_of_stamped hst hfit1) ho
    refine ⟨?_, hstp hst, h1.2⟩
    rw [htk, htm]
    exact hfit.mono (by omega)

/-- `Get` of a present key, with everything it leaves behind. -/
theorem get_hit (incr : α → α) (c : Cache K V α) (hc : CacheInv c) (k : K) (p : Nat)
    (hp : c.lookup k = some p) :
    ∃ c1 v, Cache.Get incr c k = some ((some v, true), c1) ∧ CacheInv c1 ∧
      c1.size = c.size ∧ c1.evcb = c.evcb ∧ c1.next = c.next ∧ c1.entries = c.entries ∧
      (∀ k2, c1.lookup k2 = c.lookup k2) ∧ c1.Len = c.Len ∧
      c1.heap.ticks = c.heap.ticks + 1 ∧ c1.heap.Timer = c.heap.Timer ∧
      c1.heap.Decay = c.heap.Decay ∧
      (c1.heap.elems p).rank =
        (c.heap.elems p).rank.Access incr (c.heap.Timer c.heap.ticks) c.heap.Decay ∧
      (∀ x, x ≠ p → (c1.heap.elems x).rank = (c.heap.elems x).rank) ∧
      (∀ m, TimerFits c.heap.Timer (c.heap.ticks + (m + 1)) → Stamped c.heap →
        HeapOn c.heap.keyAt c.heap.queue.length →
        TimerFits c1.heap.Timer (c1.heap.ticks + m) ∧ Stamped c1.heap ∧
          HeapOn c1.heap.keyAt c1.heap.queue.length) := by
  obtain ⟨h, e, hsame, he, hrun, hc1, hord⟩ := Get_present_spec incr c hc k p hp
  obtain ⟨r1, r2⟩ := rank_of_same_access hsame
  have htk : h.ticks = c.heap.ticks + 1 := hsame.ticks
  have htm : h.Timer = c.heap.Timer := hsame.timer
  refine ⟨_, e.value, hrun, hc1, rfl, rfl, rfl, rfl, fun _ => rfl, ?_, htk,
    htm, hsame.decay, r1, r2, fun m hfit hst ho => ?_⟩
  · unfold Cache.Len RlogcHeap.Len elemHeap.Len
    show (h.queue.length : Int) = _
    rw [hsame.len]
    rfl
  · have hfit1 : TimerFits c.heap.Timer (c.heap.ticks + 1) := hfit.mono (by omega)
    have h1 := hord (ticksFit_of_stamped hst (hfit1.mono (Nat.le_succ _)))
      (nowFits_of_stamped hst hfit1) ho
    refine ⟨?_, stamped_of_same_access hsame hst, h1.2⟩
    show TimerFits h.Timer (h.ticks + m)
    rw [htk, htm]
    exact hfit.mono (by omega)

end Scenario

/-- C12. Frequency beats recency: with the `Increment` timer, `decay = ln(0.9)`, capacity
`2` and an initialised index, after `Add("a",1)`, five `Get("a")` and `Add("b",2)` (no
callback so far), `Add("c",3)` returns `evicted = true`, logs exactly one callback,
`("b", 2)`, and afterwards `"a"` and `"c"` are present and `"b"` is absent. -/
theorem frequency_beats_recency :
    ∃ c7 c8 call,
      runCache F [CacheOp.add "a" 1, CacheOp.get "a", CacheOp.get "a", CacheOp.get "a",
          CacheOp.get "a", CacheOp.get "a", CacheOp.add "b" 2]
        (NewCacheInit (Real.log 0.9) Increment 2 : Cache String Nat ℝ) = some c7 ∧
      c7.evcb = [] ∧
      Cache.Add F c7 "c" 3 = some (true, c8) ∧
      c8.evcb = [call] ∧ call.key = "b" ∧ call.value = 2 ∧
      c8.Contains "a" = true ∧ c8.Contains "c" = true ∧ c8.Contains "b" = false := by
  have hd : Real.log 0.9 < 0 := Real.log_neg (by norm_num) (by norm_num)
  have hexp : Real.exp (Real.log 0.9) = 0.9 := Real.exp_log (by norm_num)
  -- Add("a", 1)
  have hfit0 : TimerFits Increment 8 := by
    intro i hi j hj
    rw [tickFits_iff]
    unfold Increment
    constructor <;> omega
  have hst0 : Stamped (NewCacheInit (Real.log 0.9) Increment 2 : Cache String Nat ℝ).heap :=
    fun p hp => absurd hp (List.not_mem_nil p)
  have ho0 : HeapOn (NewCacheInit (Real.log 0.9) Increment 2 : Cache String Nat ℝ).heap.keyAt
      (NewCacheInit (Real.log 0.9) Increment 2 : Cache String Nat ℝ).heap.queue.length :=
    fun c _ hc => absurd hc (Nat.not_lt_zero c)
  obtain ⟨c1, hrun1, hc1, hsz1, hlog1, hnext1, hent1, hlk1, hlen1, htk1, htm1, hdc1, hrk1, _,
      hrk1o⟩ :=
    add_below_capacity F (NewCacheInit (Real.log 0.9) Increment 2 : Cache String Nat ℝ)
      (cacheInv_new _ _ _) "a" 1 rfl (by decide)
  obtain ⟨hf1, hst1, ho1⟩ := hrk1o 7 hfit0 hst0 ho0
  have hla1 : c1.lookup "a" = some 0 := by rw [hlk1, if_pos rfl]; rfl
  -- five times Get("a")
  obtain ⟨c2, _, hrun2, hc2, hsz2, hlog2, hnext2, hent2, hlk2, hlen2, htk2, htm2, hdc2, _, _,
      hrk2o⟩ :=
    get_hit F c1 hc1 "a" 0 hla1
  obtain ⟨hf2, hst2, ho2⟩ := hrk2o 6 hf1 hst1 ho1
  obtain ⟨c3, _, hrun3, hc3, hsz3, hlog3, hnext3, hent3, hlk3, hlen3, htk3, htm3, hdc3, _, _,
      hrk3o⟩ :=
    get_hit F c2 hc2 "a" 0 (by rw [hlk2]; exact hla1)
  obtain ⟨hf3, hst3, ho3⟩ := hrk3o 5 hf2 hst2 ho2
  have hla3 : c3.lookup "a" = some 0 := by rw [hlk3, hlk2]; exact hla1
  obtain ⟨c4, _, hrun4, hc4, hsz4, hlog4, hnext4, hent4, hlk4, hlen4, htk4, htm4, hdc4, _, _,
      hrk4o⟩ :=
    get_hit F c3 hc3 "a" 0 hla3
  obtain ⟨hf4, hst4, ho4⟩ := hrk4o 4 hf3 hst3 ho3
  have hla4 : c4.lookup "a" = some 0 := by rw [hlk4]; exact hla3
  obtain ⟨c5, _, hrun5, hc5, hsz5, hlog5, hnext5, hent5, hlk5, hlen5, htk5, htm5, hdc5, hrk5, _,
      hrk5o⟩ :=
    get_hit F c4 hc4 "a" 0 hla4
  obtain ⟨hf5, hst5, ho5⟩ := hrk5o 3 hf4 hst4 ho4
  have hla5 : c5.lookup "a" = some 0 := by rw [hlk5]; exact hla4
  obtain ⟨c6, _, hrun6, hc6, hsz6, hlog6, hnext6, hent6, hlk6, hlen6, htk6, htm6, hdc6, hrk6, _,
      hrk6o⟩ :=
    get_hit F c5 hc5 "a" 0 hla5
  obtain ⟨hf6, hst6, ho6⟩ := hrk6o 2 hf5 hst5 ho5
  have hlk6all : ∀ k, c6.lookup k = if k = "a" then some 0 else none := by
    intro k
    rw [hlk6, hlk5, hlk4, hlk3, hlk2, hlk1]
    rfl
  -- bookkeeping up to here
  have tk1 : c1.heap.ticks = 1 := htk1
  have tk4 : c4.heap.ticks = 4 := by rw [htk4, htk3, htk2, tk1]
  have tk5 : c5.heap.ticks = 5 := by rw [htk5, tk4]
  have tk6 : c6.heap.ticks = 6 := by rw [htk6, tk5]
  have tm4 : c4.heap.Timer = Increment := by rw [htm4, htm3, htm2, htm1]; rfl
  have tm5 : c5.heap.Timer = Increment := by rw [htm5, tm4]
  have tm6 : c6.heap.Timer = Increment := by rw [htm6, tm5]
  have dc5 : c5.heap.Decay = Real.log 0.9 := by
    rw [hdc5, hdc4, hdc3, hdc2, hdc1]; rfl
  have dc6 : c6.heap.Decay = Real.log 0.9 := by rw [hdc6, dc5]
  have sz6 : c6.size = 2 := by rw [hsz6, hsz5, hsz4, hsz3, hsz2, hsz1]; rfl
  have len6 : c6.Len = 1 := by rw [hlen6, hlen5, hlen4, hlen3, hlen2, hlen1]; rfl
  have log6 : c6.evcb = [] := by rw [hlog6, hlog5, hlog4, hlog3, hlog2, hlog1]; rfl
  have next6 : c6.next = 1 := by rw [hnext6, hnext5, hnext4, hnext3, hnext2, hnext1]; rfl
  have ent6 : c6.entries 0 = some { key := "a", value := 1 } := by
    rw [hent6, hent5, hent4, hent3, hent2, hent1]
    exact upd_same _ _ _
  -- the rank of "a" after the fifth hit
  have hT5 : (c5.heap.elems 0).rank.Time = 5 := by
    rw [hrk5, tm4, tk4]; rfl
  have hL5 : 0 < (c5.heap.elems 0).rank.LogC := by
    rw [hrk5]; exact F_pos _
  have hT6 : (c6.heap.elems 0).rank.Time = 6 := by
    rw [hrk6, tm5, tk5]; rfl
  have hL6 : (c6.heap.elems 0).rank.LogC =
      F ((c5.heap.elems 0).rank.LogC + Real.log 0.9) := by
    rw [hrk6, tm5, tk5, dc5]
    show F ((c5.heap.elems 0).rank.LogC +
      ((wrap64 (Increment 5 - (c5.heap.elems 0).rank.Time) : Int) : ℝ) * Real.log 0.9) = _
    rw [hT5]
    have hw : wrap64 (Increment 5 - 5) = 1 := by decide
    rw [hw]
    simp
  -- Add("b", 2)
  obtain ⟨c7, hrun7, hc7, hsz7, hlog7, hnext7, hent7, hlk7, hlen7, htk7, htm7, hdc7, hrk7, hrk7o,
      hrk7r⟩ :=
    add_below_capacity F c6 hc6 "b" 2 (by rw [hlk6all]; decide) (by rw [len6, sz6]; decide)
  obtain ⟨hf7, hst7, ho7⟩ := hrk7r 1 hf6 hst6 ho6
  have hlk7all : ∀ k, c7.lookup k =
      if k = "b" then some 1 else if k = "a" then some 0 else none := by
    intro k
    rw [hlk7, hlk6all, next6]
  have rkb7 : (c7.heap.elems 1).rank = { LogC := 0, Time := 7 } := by
    rw [← next6, hrk7, tm6, tk6]; rfl
  have rka7 : (c7.heap.elems 0).rank = (c6.heap.elems 0).rank :=
    hrk7o 0 (by rw [next6]; decide)
  have next7 : c7.next = 2 := by rw [hnext7, next6]
  have len7 : c7.Len = 2 := by rw [hlen7, len6]; rfl
  have sz7 : c7.size = 2 := by rw [hsz7, sz6]
  have log7 : c7.evcb = [] := by rw [hlog7, log6]
  have tk7 : c7.heap.ticks = 7 := by rw [htk7, tk6]
  have tm7 : c7.heap.Timer = Increment := by rw [htm7, tm6]
  have dc7 : c7.heap.Decay = Real.log 0.9 := by rw [hdc7, dc6]
  -- the run so far
  have hprefix : runCache F [CacheOp.add "a" 1, CacheOp.get "a", CacheOp.get "a",
      CacheOp.get "a", CacheOp.get "a", CacheOp.get "a", CacheOp.add "b" 2]
      (NewCacheInit (Real.log 0.9) Increment 2 : Cache String Nat ℝ) = some c7 := by
    rw [runCache_cons F _ _ _ c1 (by simp only [CacheOp.run, hrun1, Option.map_some']),
      runCache_cons F _ _ _ c2 (by simp only [CacheOp.run, hrun2, Option.map_some']),
      runCache_cons F _ _ _ c3 (by simp only [CacheOp.run, hrun3, Option.map_some']),
      runCache_cons F _ _ _ c4 (by simp only [CacheOp.run, hrun4, Option.map_some']),
      runCache_cons F _ _ _ c5 (by simp only [CacheOp.run, hrun5, Option.map_some']),
      runCache_cons F _ _ _ c6 (by simp only [CacheOp.run, hrun6, Option.map_some']),
      runCache_cons F _ _ _ c7 (by simp only [CacheOp.run, hrun7, Option.map_some'])]
    rfl
  -- Add("c", 3): the intermediate state `ci` and the eviction
  have habs : c7.lookup "c" = none := by rw [hlk7all]; decide
  obtain ⟨ci, hci, hszi, hlogi, _, henti, hlki, hsamei, hruni, hordi, _⟩ :=
    insertNew_spec c7 hc7 "c" 3 habs
  have hoi : HeapOn ci.heap.keyAt ci.heap.queue.length :=
    (hordi (ticksFit_of_stamped hst7 (hf7.mono (Nat.le_succ _)))
      (nowFits_of_stamped hst7 hf7) ho7).2
  have hli : ci.heap.queue.length = c7.heap.queue.length + 1 :=
    len_enterS_same (s := c7.allocS) hsamei
  have hl7 : (c7.heap.queue.length : Int) = 2 := len7
  have hposi : 0 < ci.heap.queue.length := by omega
  obtain ⟨e, c8, he, hev, hc8, hsame8, _, _, _, hidx8, hlog8, _⟩ :=
    evictOldest_spec ci hci hposi
  obtain ⟨ri1, ri2⟩ := rank_of_same_enter hsamei
  have rkci2 : (ci.heap.elems 2).rank = { LogC := 0, Time := 8 } := by
    rw [← next7, ri1]
    show ({ LogC := 0, Time := c7.heap.Timer c7.heap.ticks } : HC ℝ) = _
    rw [tm7, tk7]; rfl
  have rkci1 : (ci.heap.elems 1).rank = { LogC := 0, Time := 7 } := by
    rw [ri2 1 (by rw [next7]; decide)]
    show ((upd c7.heap.elems c7.next _) 1).rank = _
    rw [upd_other _ _ _ _ (by rw [next7]; decide)]
    exact rkb7
  have rkci0 : (ci.heap.elems 0).rank = (c6.heap.elems 0).rank := by
    rw [ri2 0 (by rw [next7]; decide)]
    show ((upd c7.heap.elems c7.next _) 0).rank = _
    rw [upd_other _ _ _ _ (by rw [next7]; decide)]
    exact rka7
  have dci : ci.heap.Decay = Real.log 0.9 := by
    rw [hsamei.decay]; exact dc7
  have key2 : ci.heap.key 2 = -(8 * Real.log 0.9) := by
    unfold RlogcHeap.key HC.key
    rw [rkci2, dci]
    simp
  have key1 : ci.heap.key 1 = -(7 * Real.log 0.9) := by
    unfold RlogcHeap.key HC.key
    rw [rkci1, dci]
    simp
  have key0 : ci.heap.key 0 =
      F ((c5.heap.elems 0).rank.LogC + Real.log 0.9) - 6 * Real.log 0.9 := by
    unfold RlogcHeap.key HC.key
    rw [rkci0, dci, hL6, hT6]
    simp
  have hlt12 : ci.heap.key 1 < ci.heap.key 2 := by
    rw [key1, key2]; linarith
  have hlt10 : ci.heap.key 1 < ci.heap.key 0 := by
    rw [key1, key0]
    have h1 : 0 < F ((c5.heap.elems 0).rank.LogC + Real.log 0.9) + Real.log 0.9 := by
      rw [← Real.exp_lt_exp, Real.exp_zero, Real.exp_add, exp_F, Real.exp_add, hexp]
      have : 1 < Real.exp (c5.heap.elems 0).rank.LogC := by
        rw [← Real.exp_zero]; exact Real.exp_lt_exp.2 hL5
      nlinarith
    linarith
  -- the evicted address is the one of "b"
  have hlkiall : ∀ k, ci.lookup k =
      if k = "c" then some 2 else if k = "b" then some 1 else if k = "a" then some 0
        else none := by
    intro k
    rw [hlki, hlk7all, next7]
  have hmem1 : (1 : Nat) ∈ ci.heap.queue :=
    (hci.indexed "b" 1 (by rw [hlkiall]; decide)).1
  have hq : qat ci.heap.queue 0 = 1 := by
    have hqm : qat ci.heap.queue 0 ∈ ci.heap.queue := qat_mem _ _ hposi
    obtain ⟨e2, he2, hlk2⟩ := hci.keyed _ hqm
    have hmin := root_le_all hoi 1 hmem1
    rw [hlkiall] at hlk2
    split_ifs at hlk2 with a1 a2 a3
    · have := Option.some.inj hlk2
      rw [← this] at hmin
      exact absurd hmin (not_le.2 hlt12)
    · exact (Option.some.inj hlk2).symm
    · have := Option.some.inj hlk2
      rw [← this] at hmin
      exact absurd hmin (not_le.2 hlt10)
  have hee : e = { key := "b", value := 2 } := by
    rw [hq, henti, upd_other _ _ _ _ (by rw [next7]; decide), hent7, ← next6,
      upd_same] at he
    exact (Option.some.inj he).symm
  have hlk8 : ∀ k, c8.lookup k = if k = e.key then none else ci.lookup k := by
    intro k
    rw [lookup_mapDelete ci.index c8 e.key k hidx8]
    rfl
  have hek : e.key = "b" := by rw [hee]
  refine ⟨c7, c8, _, hprefix, log7, ?_, by rw [hlog8, hlogi, log7]; rfl, hek, by rw [hee],
    ?_, ?_, ?_⟩
  · rw [Add_absent F c7 "c" 3 habs, hruni, if_neg]
    · simp only [hev]
    · have : RlogcHeap.Len ci.heap = (ci.heap.queue.length : Int) := rfl
      rw [this, hli, hszi, sz7]
      push_cast
      omega
  · rw [contains_eq_true_iff]
    exact ⟨0, by rw [hlk8, hek, hlkiall]; decide⟩
  · rw [contains_eq_true_iff]
    exact ⟨2, by rw [hlk8, hek, hlkiall]; decide⟩
  · rw [contains_eq_false_iff, hlk8, hek, if_pos rfl]

/-! ## The size adapter: invariant lemmas -/

section Adapter

variable {α : Type} [LinearOrderedRing α]

theorem sum_unaccount (l l1 : List Nat) (f g : Nat → Int) (e : Nat) (hl : l.Nodup)
    (hl1 : l1.Nodup) (hsub : ∀ p, p ∈ l1 → p ∈ l) (hrest : ∀ p, p ∈ l → p ≠ e → p ∈ l1)
    (he : e ∈ l) (hg : ∀ p, p ∈ l1 → p ≠ e → g p = f p) (hge : g e = 0) :
    (l1.map g).sum = (l.map f).sum - f e := by
  rw [← List.sum_toFinset g hl1, ← List.sum_toFinset f hl]
  have h1 : l1.toFinset.erase e = l.toFinset.erase e := by
    ext x
    simp only [Finset.mem_erase, List.mem_toFinset]
    constructor
    · rintro ⟨hx, hx1⟩; exact ⟨hx, hsub x hx1⟩
    · rintro ⟨hx, hx1⟩; exact ⟨hx, hrest x hx1 hx⟩
  rw [← Finset.sum_erase l1.toFinset hge, h1,
    ← Finset.add_sum_erase l.toFinset f (List.mem_toFinset.2 he)]
  have : ∑ x in l.toFinset.erase e, g x = ∑ x in l.toFinset.erase e, f x := by
    refine Finset.sum_congr rfl (fun x hx => ?_)
    rw [← h1] at hx
    simp only [Finset.mem_erase, List.mem_toFinset] at hx
    exact hg x hx.2 hx.1
  rw [this]
  ring

theorem sum_account (l l1 : List Nat) (f g : Nat → Int) (e : Nat) (hl : l.Nodup)
    (hl1 : l1.Nodup) (hmem : ∀ p, p ∈ l1 ↔ p ∈ l ∨ p = e) (he : e ∉ l)
    (hg : ∀ p, p ∈ l → g p = f p) : (l1.map g).sum = (l.map f).sum + g e := by
  rw [← List.sum_toFinset g hl1, ← List.sum_toFinset f hl]
  have h1 : l1.toFinset = insert e l.toFinset := by
    ext x
    simp only [Finset.mem_insert, List.mem_toFinset, hmem]
    exact or_comm
  rw [h1, Finset.sum_insert (by simpa using he)]
  have : ∑ x in l.toFinset, g x = ∑ x in l.toFinset, f x :=
    Finset.sum_congr rfl (fun x hx => hg x (List.mem_toFinset.1 hx))
  rw [this]
  ring

theorem sum_same (l l1 : List Nat) (f g : Nat → Int) (hl : l.Nodup) (hl1 : l1.Nodup)
    (hmem : ∀ p, p ∈ l1 ↔ p ∈ l) (hg : ∀ p, p ∈ l → g p = f p) :
    (l1.map g).sum = (l.map f).sum := by
  rw [← List.sum_toFinset g hl1, ← List.sum_toFinset f hl]
  have h1 : l1.toFinset = l.toFinset := by
    ext x
    simp only [List.mem_toFinset, hmem]
  rw [h1]
  exact Finset.sum_congr rfl (fun x hx => hg x (List.mem_toFinset.1 hx))

theorem clear_heap (cc : rlcCache α) (e : Nat) :
    (cc.clear e).heap = { cc.heap with
      elems := upd cc.heap.elems e { cc.heap.elems e with UserData := (none, none) } } := by
  unfold rlcCache.clear
  cases (cc.heap.elems e).UserData.1 <;> cases (cc.heap.elems e).UserData.2 <;> rfl

theorem clear_space (cc : rlcCache α) (e : Nat) :
    (cc.clear e).space = cc.space - cc.weight e := by
  unfold rlcCache.clear rlcCache.weight rlcCache.payload
  cases (cc.heap.elems e).UserData.1 <;> cases (cc.heap.elems e).UserData.2 <;> simp

theorem clear_released (cc : rlcCache α) (e : Nat) :
    (cc.clear e).released = cc.released ++ (cc.handleOf e).toList := by
  unfold rlcCache.clear rlcCache.handleOf
  cases (cc.heap.elems e).UserData.1 <;> cases (cc.heap.elems e).UserData.2 <;> simp

theorem clear_nodes (cc : rlcCache α) (e : Nat) :
    (cc.clear e).nodes =
      (match cc.payload e with
      | some n => upd cc.nodes n { cc.nodes n with CacheData := CacheData.nil }
      | none => cc.nodes) := by
  unfold rlcCache.clear rlcCache.payload
  cases (cc.heap.elems e).UserData.1 <;> cases (cc.heap.elems e).UserData.2 <;> rfl

theorem clear_rest (cc : rlcCache α) (e : Nat) :
    (cc.clear e).capa = cc.capa ∧ (cc.clear e).next = cc.next ∧
      (cc.clear e).handles = cc.handles := by
  unfold rlcCache.clear
  cases (cc.heap.elems e).UserData.1 <;> cases (cc.heap.elems e).UserData.2 <;>
    exact ⟨rfl, rfl, rfl⟩

/-- An element `e` of the queue stops being accounted: its slots are cleared (it may stay
queued as a tombstone or leave the queue), its node no longer points at an element, its
size leaves `space` and its handle is released.  The invariant survives. -/
theorem unaccount_inv (cc cc1 : rlcCache α) (e : Nat) (hc : AdapterInv cc)
    (he : e ∈ cc.heap.queue) (h1 : Inv cc1.heap)
    (h2 : ∀ p, p ∈ cc1.heap.queue → p ∈ cc.heap.queue)
    (h3 : ∀ p, p ∈ cc.heap.queue → p ≠ e → p ∈ cc1.heap.queue)
    (h4 : ∀ p, p ≠ e → (cc1.heap.elems p).UserData = (cc.heap.elems p).UserData)
    (h5 : (cc1.heap.elems e).UserData = (none, none))
    (h6 : SameHost cc cc1)
    (h7 : ∀ m, cc.payload e ≠ some m → (cc1.nodes m).CacheData = (cc.nodes m).CacheData)
    (h8 : ∀ m, cc.payload e = some m → ∀ p, (cc1.nodes m).CacheData ≠ CacheData.elem p)
    (h9 : cc1.space = cc.space - cc.weight e)
    (h10 : cc1.released = cc.released ++ (cc.handleOf e).toList)
    (h11 : cc1.handles = cc.handles) (h12 : cc1.next = cc.next) : AdapterInv cc1 := by
  have hpay : ∀ p, p ≠ e → cc1.payload p = cc.payload p := by
    intro p hp; unfold rlcCache.payload; rw [h4 p hp]
  have hhan : ∀ p, p ≠ e → cc1.handleOf p = cc.handleOf p := by
    intro p hp; unfold rlcCache.handleOf; rw [h4 p hp]
  have hpaye : cc1.payload e = none := by unfold rlcCache.payload; rw [h5]
  have hhane : cc1.handleOf e = none := by unfold rlcCache.handleOf; rw [h5]
  have hrel : ∀ h, h ∈ cc1.released ↔ h ∈ cc.released ∨ cc.handleOf e = some h := by
    intro h
    rw [h10, List.mem_append]
    cases cc.handleOf e <;> simp [eq_comm]
  refine ⟨h1, ?_, ?_, ?_, ?_, ?_, ?_, ?_, ?_, ?_, ?_⟩
  · intro p hp
    rw [h12]; exact hc.fresh p (h2 p hp)
  · intro p n hp hpn
    have hpe : p ≠ e := by
      intro h; rw [h, hpaye] at hpn; exact Option.noConfusion hpn
    rw [hpay p hpe] at hpn
    have hb := hc.back p n (h2 p hp) hpn
    rw [h7 n, hb]
    intro hen
    have := hc.back e n he hen
    rw [hb] at this
    exact hpe (CacheData.elem.inj this)
  · intro n p hnp
    have hne : cc.payload e ≠ some n := fun h => h8 n h p hnp
    rw [h7 n hne] at hnp
    obtain ⟨hp, hpn⟩ := hc.fwd n p hnp
    have hpe : p ≠ e := by
      intro h; rw [h] at hpn; exact hne hpn
    exact ⟨h3 p hp hpe, by rw [hpay p hpe]; exact hpn⟩
  · rw [h9, hc.space]
    unfold rlcCache.accounted
    refine (sum_unaccount cc.heap.queue cc1.heap.queue cc.weight cc1.weight e
      (slots_nodup hc.heap.1) (slots_nodup h1.1) h2 h3 he (fun p _ hpe => ?_) ?_).symm
    · unfold rlcCache.weight
      rw [hpay p hpe]
      cases cc.payload p with
      | none => rfl
      | some n => exact (h6 n).1
    · unfold rlcCache.weight
      rw [hpaye]
  · intro p hp hpn
    by_cases hpe : p = e
    · rw [hpe]; exact hhane
    · rw [hhan p hpe]
      rw [hpay p hpe] at hpn
      exact hc.tomb p (h2 p hp) hpn
  · intro p h hp hph
    have hpe : p ≠ e := by
      intro hh; rw [hh, hhane] at hph; exact Option.noConfusion hph
    rw [hhan p hpe] at hph
    obtain ⟨g1, g2⟩ := hc.held p h (h2 p hp) hph
    refine ⟨by rw [h11]; exact g1, fun hr => ?_⟩
    rcases (hrel h).1 hr with hr1 | hr1
    · exact g2 hr1
    · exact hpe (hc.hinj p e h (h2 p hp) he hph hr1)
  · intro p q h hp hq hph hqh
    have hpe : p ≠ e := by
      intro hh; rw [hh, hhane] at hph; exact Option.noConfusion hph
    have hqe : q ≠ e := by
      intro hh; rw [hh, hhane] at hqh; exact Option.noConfusion hqh
    rw [hhan p hpe] at hph
    rw [hhan q hqe] at hqh
    exact hc.hinj p q h (h2 p hp) (h2 q hq) hph hqh
  · rw [h10]
    cases hh : cc.handleOf e with
    | none => simpa using hc.relNodup
    | some h =>
      have := (hc.held e h he hh).2
      simp only [Option.toList]
      rw [List.nodup_append]
      refine ⟨hc.relNodup, List.nodup_singleton h, ?_⟩
      intro x hx hx2
      rw [List.mem_singleton] at hx2
      exact this (hx2 ▸ hx)
  · intro h hr
    rw [h11]
    rcases (hrel h).1 hr with hr1 | hr1
    · exact hc.relIssued h hr1
    · exact (hc.held e h he hr1).1
  · intro h hh
    rw [h11] at hh
    rcases hc.issued h hh with hr | ⟨p, hp, hph⟩
    · exact Or.inl ((hrel h).2 (Or.inl hr))
    · by_cases hpe : p = e
      · rw [hpe] at hph
        exact Or.inl ((hrel h).2 (Or.inr hph))
      · exact Or.inr ⟨p, h3 p hp hpe, by rw [hhan p hpe]; exact hph⟩

end Adapter

section Adapter2

variable {α : Type} [LinearOrderedRing α]

theorem shrinks_refl (cc : rlcCache α) : Shrinks cc cc :=
  ⟨fun _ => ⟨rfl, rfl⟩, rfl, fun _ => le_refl _, rfl, rfl, fun _ => Or.inl rfl, fun _ h => h,
    fun _ h1 h2 => absurd h1 h2, fun _ h => h⟩

theorem shrinks_trans {a b c : rlcCache α} (h1 : Shrinks a b) (h2 : Shrinks b c) :
    Shrinks a c where
  host := fun m => ⟨((h2.host m).1).trans (h1.host m).1, ((h2.host m).2).trans (h1.host m).2⟩
  capa := h2.capa.trans h1.capa
  space := fun hs =>
    le_trans (h2.space (fun m => by rw [(h1.host m).1]; exact hs m)) (h1.space hs)
  next := h2.next.trans h1.next
  handles := h2.handles.trans h1.handles
  user := fun p => by
    rcases h2.user p with g | g
    · rw [g]; exact h1.user p
    · exact Or.inr g
  sub := fun p hp => h1.sub p (h2.sub p hp)
  gone := fun p hp hq => by
    by_cases hb : p ∈ b.heap.queue
    · exact h2.gone p hb hq
    · rcases h2.user p with g | g
      · rw [g]; exact h1.gone p hp hb
      · exact g
  rel := fun h hh => h2.rel h (h1.rel h hh)

theorem keepsBans_refl (cc : rlcCache α) : KeepsBans cc cc := fun _ h => h

theorem keepsBans_trans {a b c : rlcCache α} (h1 : KeepsBans a b) (h2 : KeepsBans b c) :
    KeepsBans a c := fun m h => h2 m (h1 m h)

theorem inv_upd_user {s : RlogcHeap α} (hinv : Inv s) (e : Nat) (u : Option Nat × Option Nat) :
    Inv { s with elems := upd s.elems e { s.elems e with UserData := u } } := by
  obtain ⟨hs, ha⟩ := hinv
  have hel : ∀ p, upd s.elems e { s.elems e with UserData := u } p =
      if p = e then { s.elems p with UserData := u } else s.elems p := by
    intro p
    unfold upd
    split_ifs with h
    · rw [h]
    · rfl
  refine ⟨fun k hk => ?_, fun x hx => ?_⟩
  · show (upd s.elems e _ (qat s.queue k)).parent = true ∧
      (upd s.elems e _ (qat s.queue k)).index = (k : Int)
    rw [hel]
    split_ifs
    · exact hs k hk
    · exact hs k hk
  · have hx2 : (upd s.elems e { s.elems e with UserData := u } x).parent = true := hx
    rw [hel] at hx2
    split_ifs at hx2
    · exact ha x hx2
    · exact ha x hx2

theorem weight_nonneg (cc : rlcCache α) (hs : ∀ m, 0 ≤ (cc.nodes m).size) (p : Nat) :
    0 ≤ cc.weight p := by
  unfold rlcCache.weight
  cases cc.payload p with
  | none => exact le_refl _
  | some n => exact hs n

theorem clear_sameHost (cc : rlcCache α) (e : Nat) : SameHost cc (cc.clear e) := by
  intro m
  rw [clear_nodes]
  cases cc.payload e with
  | none => exact ⟨rfl, rfl⟩
  | some n =>
    show (upd cc.nodes n _ m).size = _ ∧ (upd cc.nodes n _ m).ns = _
    unfold upd
    split_ifs with h
    · rw [h]; exact ⟨rfl, rfl⟩
    · exact ⟨rfl, rfl⟩

theorem clear_data (cc : rlcCache α) (e m : Nat) :
    ((cc.clear e).nodes m).CacheData =
      if cc.payload e = some m then CacheData.nil else (cc.nodes m).CacheData := by
  rw [clear_nodes]
  cases hp : cc.payload e with
  | none => simp
  | some n =>
    show (upd cc.nodes n _ m).CacheData = _
    unfold upd
    by_cases h : m = n
    · simp [h]
    · have : ¬ (some n = some m) := fun hh => h (Option.some.inj hh).symm
      simp [h, this]

/-- Clearing an element of a state whose heap is a rearrangement of the queue of an
invariant state `cc0` (with `e` still queued or already popped) gives an invariant
state. -/
theorem clear_inv_gen (cc0 cc : rlcCache α) (e : Nat) (hc : AdapterInv cc0)
    (he : e ∈ cc0.heap.queue) (hinv : Inv cc.heap)
    (h2 : ∀ p, p ∈ cc.heap.queue → p ∈ cc0.heap.queue)
    (h3 : ∀ p, p ∈ cc0.heap.queue → p ≠ e → p ∈ cc.heap.queue)
    (hu : ∀ p, (cc.heap.elems p).UserData = (cc0.heap.elems p).UserData)
    (hn : cc.nodes = cc0.nodes) (hsp : cc.space = cc0.space) (hcp : cc.capa = cc0.capa)
    (hrl : cc.released = cc0.released) (hhd : cc.handles = cc0.handles)
    (hnx : cc.next = cc0.next) :
    AdapterInv (cc.clear e) ∧ Shrinks cc0 (cc.clear e) ∧ KeepsBans cc0 (cc.clear e) ∧
      (cc.clear e).heap.queue = cc.heap.queue := by
  have hpay : ∀ p, cc.payload p = cc0.payload p := by
    intro p; unfold rlcCache.payload; rw [hu]
  have hhan : ∀ p, cc.handleOf p = cc0.handleOf p := by
    intro p; unfold rlcCache.handleOf; rw [hu]
  have hw : cc.weight e = cc0.weight e := by
    unfold rlcCache.weight; rw [hpay, hn]
  have hq : (cc.clear e).heap.queue = cc.heap.queue := by rw [clear_heap]
  have hel : ∀ p, (cc.clear e).heap.elems p =
      if p = e then { cc.heap.elems p with UserData := (none, none) } else cc.heap.elems p := by
    intro p
    rw [clear_heap]
    show upd cc.heap.elems e _ p = _
    unfold upd
    split_ifs with h
    · rw [h]
    · rfl
  have hdata : ∀ m, ((cc.clear e).nodes m).CacheData =
      if cc0.payload e = some m then CacheData.nil else (cc0.nodes m).CacheData := by
    intro m; rw [clear_data, hpay, hn]
  have hhost : SameHost cc0 (cc.clear e) := by
    intro m
    have := clear_sameHost cc e m
    rw [hn] at this
    exact this
  refine ⟨?_, ⟨hhost, ?_, ?_, ?_, ?_, ?_, ?_, ?_, ?_⟩, ?_, hq⟩
  · refine unaccount_inv cc0 (cc.clear e) e hc he ?_ ?_ ?_ ?_ ?_ hhost ?_ ?_ ?_ ?_ ?_ ?_
    · rw [clear_heap]; exact inv_upd_user hinv e _
    · intro p hp; rw [hq] at hp; exact h2 p hp
    · intro p hp hpe; rw [hq]; exact h3 p hp hpe
    · intro p hpe; rw [hel, if_neg hpe]; exact hu p
    · rw [hel, if_pos rfl]
    · intro m hm; rw [hdata, if_neg hm]
    · intro m hm p hp
      rw [hdata, if_pos hm] at hp
      exact CacheData.noConfusion hp
    · rw [clear_space, hsp, hw]
    · rw [clear_released, hrl, hhan]
    · rw [(clear_rest cc e).2.2, hhd]
    · rw [(clear_rest cc e).2.1, hnx]
  · rw [(clear_rest cc e).1, hcp]
  · intro hs
    rw [clear_space, hsp, hw]
    have := weight_nonneg cc0 hs e
    omega
  · rw [(clear_rest cc e).2.1, hnx]
  · rw [(clear_rest cc e).2.2, hhd]
  · intro p
    rw [hel]
    by_cases hpe : p = e
    · rw [if_pos hpe]; exact Or.inr rfl
    · rw [if_neg hpe]; exact Or.inl (hu p)
  · intro p hp; rw [hq] at hp; exact h2 p hp
  · intro p hp hnp
    rw [hq] at hnp
    have hpe : p = e := by
      by_contra hne
      exact hnp (h3 p hp hne)
    rw [hel, if_pos hpe]
  · intro h hh
    rw [clear_released, hrl]
    exact List.mem_append_left _ hh
  · intro m hm
    rw [hdata, if_neg, hm]
    intro hpm
    have := hc.back e m he hpm
    rw [hm] at this
    exact CacheData.noConfusion this

/-- Tombstoning a queued element. -/
theorem clear_inv (cc : rlcCache α) (e : Nat) (hc : AdapterInv cc) (he : e ∈ cc.heap.queue) :
    AdapterInv (cc.clear e) ∧ Shrinks cc (cc.clear e) ∧ KeepsBans cc (cc.clear e) ∧
      (cc.clear e).heap.queue = cc.heap.queue :=
  clear_inv_gen cc cc e hc he hc.heap (fun _ h => h) (fun _ h _ => h) (fun _ => rfl) rfl rfl rfl
    rfl rfl rfl

/-- The drain loop: it returns, keeps the invariant, and stops with `space <= capa` or
with an empty queue. -/
theorem evict_spec (fuel : Nat) : ∀ (cc : rlcCache α), AdapterInv cc →
    cc.heap.queue.length < fuel →
    ∃ cc1, rlcCache.evict fuel cc = some cc1 ∧ AdapterInv cc1 ∧ Shrinks cc cc1 ∧
      KeepsBans cc cc1 ∧ (cc1.space ≤ cc1.capa ∨ cc1.heap.queue = []) := by
  induction fuel with
  | zero => intro cc _ hf; omega
  | succ f ih =>
    intro cc hc hf
    rw [rlcCache.evict]
    by_cases hgt : cc.space > cc.capa
    · rw [if_pos hgt]
      by_cases h0 : cc.heap.queue = []
      · rw [EvictNode_empty cc.heap h0]
        exact ⟨cc, rfl, hc, shrinks_refl cc, keepsBans_refl cc, Or.inr h0⟩
      · have hpos : 0 < cc.heap.queue.length := List.length_pos.2 h0
        obtain ⟨hs, ha⟩ := hc.heap
        obtain ⟨t, hev, hsame, ht, _⟩ := EvictNode_spec cc.heap hs hpos
        simp only [hev]
        have hel : qat cc.heap.queue 0 ∈ cc.heap.queue := qat_mem _ _ hpos
        have hinvt : Inv t := ⟨ht, hsame.attached (detachS_attached hs ha _)⟩
        obtain ⟨g1, g2, g3, g4⟩ :=
          clear_inv_gen cc { cc with heap := t } (qat cc.heap.queue 0) hc hel hinvt
            (fun p hp => ((mem_of_same_detach hs hsame p).1 hp).1)
            (fun p hp hpe => (mem_of_same_detach hs hsame p).2 ⟨hp, hpe⟩)
            (fun p => user_of_same_detach hsame p) rfl rfl rfl rfl rfl rfl
        have hlen : (rlcCache.clear { cc with heap := t } (qat cc.heap.queue 0)).heap.queue.length
            < f := by
          rw [g4]
          show t.queue.length < f
          rw [len_of_same_detach hel hsame]
          omega
        obtain ⟨cc1, hrun, hc1, hsh, hkb, hex⟩ := ih _ g1 hlen
        exact ⟨cc1, hrun, hc1, shrinks_trans g2 hsh, keepsBans_trans g3 hkb, hex⟩
    · rw [if_neg hgt]
      exact ⟨cc, rfl, hc, shrinks_refl cc, keepsBans_refl cc, Or.inl (not_lt.1 hgt)⟩

end Adapter2

section Adapter3

variable {α : Type} [LinearOrderedRing α]

/-- The invariant moves to a state with the same queued set, the same `UserData`, the same
element pointers in the nodes and the same counters. -/
theorem adapterInv_transfer (cc cc1 : rlcCache α) (hc : AdapterInv cc) (h1 : Inv cc1.heap)
    (h2 : ∀ p, p ∈ cc1.heap.queue ↔ p ∈ cc.heap.queue)
    (h4 : ∀ p, (cc1.heap.elems p).UserData = (cc.heap.elems p).UserData)
    (h6 : SameHost cc cc1)
    (h7 : ∀ m p, (cc1.nodes m).CacheData = CacheData.elem p ↔
      (cc.nodes m).CacheData = CacheData.elem p)
    (h9 : cc1.space = cc.space) (h10 : cc1.released = cc.released)
    (h11 : cc1.handles = cc.handles) (h12 : cc1.next = cc.next) : AdapterInv cc1 := by
  have hpay : ∀ p, cc1.payload p = cc.payload p := by
    intro p; unfold rlcCache.payload; rw [h4 p]
  have hhan : ∀ p, cc1.handleOf p = cc.handleOf p := by
    intro p; unfold rlcCache.handleOf; rw [h4 p]
  refine ⟨h1, ?_, ?_, ?_, ?_, ?_, ?_, ?_, ?_, ?_, ?_⟩
  · intro p hp
    rw [h12]; exact hc.fresh p ((h2 p).1 hp)
  · intro p n hp hpn
    rw [hpay] at hpn
    exact (h7 n p).2 (hc.back p n ((h2 p).1 hp) hpn)
  · intro n p hnp
    obtain ⟨g1, g2⟩ := hc.fwd n p ((h7 n p).1 hnp)
    exact ⟨(h2 p).2 g1, by rw [hpay]; exact g2⟩
  · rw [h9, hc.space]
    unfold rlcCache.accounted
    refine (sum_same cc.heap.queue cc1.heap.queue cc.weight cc1.weight
      (slots_nodup hc.heap.1) (slots_nodup h1.1) h2 (fun p _ => ?_)).symm
    unfold rlcCache.weight
    rw [hpay p]
    cases cc.payload p with
    | none => rfl
    | some n => exact (h6 n).1
  · intro p hp hpn
    rw [hhan]; rw [hpay] at hpn
    exact hc.tomb p ((h2 p).1 hp) hpn
  · intro p h hp hph
    rw [hhan] at hph
    rw [h11, h10]
    exact hc.held p h ((h2 p).1 hp) hph
  · intro p q h hp hq hph hqh
    rw [hhan] at hph hqh
    exact hc.hinj p q h ((h2 p).1 hp) ((h2 q).1 hq) hph hqh
  · rw [h10]; exact hc.relNodup
  · intro h hr
    rw [h10] at hr; rw [h11]
    exact hc.relIssued h hr
  · intro h hh
    rw [h11] at hh; rw [h10]
    rcases hc.issued h hh with hr | ⟨p, hp, hph⟩
    · exact Or.inl hr
    · exact Or.inr ⟨p, (h2 p).2 hp, by rw [hhan]; exact hph⟩

theorem setData_data (cc : rlcCache α) (n : Nat) (ncd : CacheData) (m : Nat) :
    ((cc.setData n ncd).nodes m).CacheData = if m = n then ncd else (cc.nodes m).CacheData := by
  show (upd cc.nodes n _ m).CacheData = _
  unfold upd
  split_ifs <;> rfl

theorem setData_sameHost (cc : rlcCache α) (n : Nat) (ncd : CacheData) :
    SameHost cc (cc.setData n ncd) := by
  intro m
  show (upd cc.nodes n _ m).size = _ ∧ (upd cc.nodes n _ m).ns = _
  unfold upd
  split_ifs with h
  · rw [h]; exact ⟨rfl, rfl⟩
  · exact ⟨rfl, rfl⟩

/-- Storing a non-element value in the slot of a node that has no element. -/
theorem setData_spec (cc : rlcCache α) (n : Nat) (ncd : CacheData) (hc : AdapterInv cc)
    (h1 : ∀ p, (cc.nodes n).CacheData ≠ CacheData.elem p) (h2 : ∀ p, ncd ≠ CacheData.elem p) :
    AdapterInv (cc.setData n ncd) ∧ Shrinks cc (cc.setData n ncd) ∧
      (∀ m, (m ≠ n ∨ ncd = CacheData.banned) → (cc.nodes m).CacheData = CacheData.banned →
        ((cc.setData n ncd).nodes m).CacheData = CacheData.banned) := by
  refine ⟨?_, ⟨setData_sameHost cc n ncd, rfl, fun _ => le_refl _, rfl, rfl, fun _ => Or.inl rfl,
    fun _ h => h, fun _ h1 h2 => absurd h1 h2, fun _ h => h⟩, ?_⟩
  · refine adapterInv_transfer cc _ hc hc.heap (fun _ => Iff.rfl) (fun _ => rfl)
      (setData_sameHost cc n ncd) (fun m p => ?_) rfl rfl rfl rfl
    rw [setData_data]
    by_cases hm : m = n
    · rw [if_pos hm, hm]
      exact ⟨fun h => absurd h (h2 p), fun h => absurd h (h1 p)⟩
    · rw [if_neg hm]
  · intro m hm hb
    rw [setData_data]
    by_cases hmn : m = n
    · rw [if_pos hmn]
      rcases hm with hm | hm
      · exact absurd hmn hm
      · exact hm
    · rw [if_neg hmn]; exact hb

theorem nevict_other (cc : rlcCache α) (n : Nat) (ncd : CacheData)
    (h1 : ∀ p, (cc.nodes n).CacheData ≠ CacheData.elem p) :
    cc.nevict n ncd = cc.setData n ncd := by
  unfold rlcCache.nevict rlcCache.setData
  cases hcd : (cc.nodes n).CacheData with
  | nil => rfl
  | banned => rfl
  | elem p => exact absurd hcd (h1 p)

theorem nevict_elem (cc : rlcCache α) (n : Nat) (ncd : CacheData) (e : Nat)
    (h1 : (cc.nodes n).CacheData = CacheData.elem e) (h2 : cc.payload e = some n) :
    cc.nevict n ncd = (cc.clear e).setData n ncd := by
  have h3 : (cc.heap.elems e).UserData.1 = some n := h2
  have hnodes : ∀ (c : CacheData),
      upd (upd cc.nodes n { cc.nodes n with CacheData := c }) n
        { (upd cc.nodes n { cc.nodes n with CacheData := c }) n with CacheData := ncd } =
      upd cc.nodes n { cc.nodes n with CacheData := ncd } := by
    intro c
    funext m
    unfold upd
    by_cases hm : m = n
    · simp [hm]
    · simp [hm]
  unfold rlcCache.nevict rlcCache.setData rlcCache.clear
  simp only [h1, h3]
  cases (cc.heap.elems e).UserData.2 with
  | none => simp only [hnodes]
  | some x => simp only [hnodes]

/-- Method `nevict` with a non-element `ncd` (the two callers pass `banned` and nil). -/
theorem nevict_spec (cc : rlcCache α) (n : Nat) (ncd : CacheData) (hc : AdapterInv cc)
    (h2 : ∀ p, ncd ≠ CacheData.elem p) :
    AdapterInv (cc.nevict n ncd) ∧ Shrinks cc (cc.nevict n ncd) ∧
      (∀ m, (m ≠ n ∨ ncd = CacheData.banned) → (cc.nodes m).CacheData = CacheData.banned →
        ((cc.nevict n ncd).nodes m).CacheData = CacheData.banned) ∧
      ((cc.nevict n ncd).nodes n).CacheData = ncd := by
  by_cases h1 : ∀ p, (cc.nodes n).CacheData ≠ CacheData.elem p
  · rw [nevict_other cc n ncd h1]
    obtain ⟨g1, g2, g3⟩ := setData_spec cc n ncd hc h1 h2
    exact ⟨g1, g2, g3, by rw [setData_data, if_pos rfl]⟩
  · push_neg at h1
    obtain ⟨e, he⟩ := h1
    obtain ⟨heq, hpay⟩ := hc.fwd n e he
    rw [nevict_elem cc n ncd e he hpay]
    obtain ⟨c1, c2, c3, _⟩ := clear_inv cc e hc heq
    have hnil : ∀ p, ((cc.clear e).nodes n).CacheData ≠ CacheData.elem p := by
      intro p
      rw [clear_data, if_pos hpay]
      exact fun h => CacheData.noConfusion h
    obtain ⟨g1, g2, g3⟩ := setData_spec (cc.clear e) n ncd c1 hnil h2
    refine ⟨g1, shrinks_trans c2 g2, ?_, by rw [setData_data, if_pos rfl]⟩
    intro m _ hb
    have hmn : m ≠ n := by
      intro hh
      rw [hh, he] at hb
      exact CacheData.noConfusion hb
    exact g3 m (Or.inl hmn) (c3 m hb)

/-- The branch `else { e.Promote() }` of `Promote`. -/
theorem promote_elem_spec (incr : α → α) (cc : rlcCache α) (n e : Nat) (w : Bool)
    (hc : AdapterInv cc) (h1 : (cc.nodes n).CacheData = CacheData.elem e) :
    ∃ cc1, rlcCache.Promote incr cc n w = some cc1 ∧ AdapterInv cc1 ∧ Shrinks cc cc1 ∧
      KeepsBans cc cc1 ∧ cc1.space = cc.space := by
  obtain ⟨heq, _⟩ := hc.fwd n e h1
  obtain ⟨hs, ha⟩ := hc.heap
  obtain ⟨t, hp, hsame, ht, _⟩ := Promote_spec incr cc.heap e hs heq
  have hinv : Inv t := by
    refine ⟨ht, hsame.attached ?_⟩
    intro p hp
    have hq : (accessS incr cc.heap e).queue = cc.heap.queue := rfl
    rw [hq]
    apply ha
    by_cases hpe : p = e
    · have : (accessS incr cc.heap e).elems p =
        { cc.heap.elems e with
          rank := (cc.heap.elems e).rank.Access incr (cc.heap.Timer cc.heap.ticks)
            cc.heap.Decay } := by
        rw [hpe]; exact upd_same _ _ _
      rw [this] at hp
      rw [hpe]; exact hp
    · have : (accessS incr cc.heap e).elems p = cc.heap.elems p := upd_other _ _ _ _ hpe
      rw [this] at hp
      exact hp
  refine ⟨{ cc with heap := t }, ?_, ?_, ?_, fun _ h => h, rfl⟩
  · unfold rlcCache.Promote
    simp only [h1, hp]
  · exact adapterInv_transfer cc _ hc hinv (fun p => hsame.mem p) (user_of_same_access hsame)
      (fun _ => ⟨rfl, rfl⟩) (fun _ _ => Iff.rfl) rfl rfl rfl rfl
  · exact ⟨fun _ => ⟨rfl, rfl⟩, rfl, fun _ => le_refl _, rfl, rfl,
      fun p => Or.inl (user_of_same_access hsame p), fun p hp => (hsame.mem p).1 hp,
      fun p hp hnp => absurd ((hsame.mem p).2 hp) hnp, fun _ h => h⟩

/-- Handles across a call that only drops entries. -/
theorem handover_of_shrinks (cc cc1 : rlcCache α) (hc : AdapterInv cc) (hc1 : AdapterInv cc1)
    (hs : Shrinks cc cc1) : Handover cc cc1 := by
  intro p h n hp hph hpn
  rcases hs.user p with hu | hu
  · have hp1 : p ∈ cc1.heap.queue := by
      by_contra hnp
      have := hs.gone p hp hnp
      rw [hu] at this
      have h2 : cc.handleOf p = none := by unfold rlcCache.handleOf; rw [this]
      rw [h2] at hph
      exact Option.noConfusion hph
    have hph1 : cc1.handleOf p = some h := by unfold rlcCache.handleOf; rw [hu]; exact hph
    have hpn1 : cc1.payload p = some n := by unfold rlcCache.payload; rw [hu]; exact hpn
    exact Or.inl ⟨hp1, hph1, hpn1, hc1.back p n hp1 hpn1, (hc1.held p h hp1 hph1).2⟩
  · have hpn1 : cc1.payload p = none := by unfold rlcCache.payload; rw [hu]
    have hph1 : cc1.handleOf p = none := by unfold rlcCache.handleOf; rw [hu]
    refine Or.inr ⟨?_, hpn1, ?_⟩
    · have hlt : h < cc1.handles := by rw [hs.handles]; exact (hc.held p h hp hph).1
      rcases hc1.issued h hlt with hr | ⟨q, hq, hqh⟩
      · exact hr
      · exfalso
        have hq0 := hs.sub q hq
        rcases hs.user q with hv | hv
        · have : cc.handleOf q = some h := by
            unfold rlcCache.handleOf; rw [← hv]; exact hqh
          have hqp := hc.hinj q p h hq0 hp this hph
          rw [hqp, hph1] at hqh
          exact Option.noConfusion hqh
        · have : cc1.handleOf q = none := by unfold rlcCache.handleOf; rw [hv]
          rw [this] at hqh
          exact Option.noConfusion hqh
    · intro q hq
      obtain ⟨hq1, hqn⟩ := hc1.fwd n q hq
      have hq0 := hs.sub q hq1
      rcases hs.user q with hv | hv
      · have : cc.payload q = some n := by
          unfold rlcCache.payload; rw [← hv]; exact hqn
        have e1 := hc.back q n hq0 this
        have e2 := hc.back p n hp hpn
        rw [e1] at e2
        have hqp : q = p := CacheData.elem.inj e2
        rw [hqp, hpn1] at hqn
        exact Option.noConfusion hqn
      · have : cc1.payload q = none := by unfold rlcCache.payload; rw [hv]
        rw [this] at hqn
        exact Option.noConfusion hqn

end Adapter3

section Adapter4

variable {α : Type} [LinearOrderedRing α]

theorem admit_shape (cc : rlcCache α) (n : Nat) (w : Bool) (hc : AdapterInv cc) :
    ∃ cc2, cc.admit n w = some cc2 ∧ Inv cc2.heap ∧
      (∀ p, p ∈ cc2.heap.queue ↔ p ∈ cc.heap.queue ∨ p = cc.next) ∧
      (∀ p, (cc2.heap.elems p).UserData =
        if p = cc.next then (some n, if w then some cc.handles else none)
        else (cc.heap.elems p).UserData) ∧
      cc2.next = cc.next + 1 ∧
      cc2.handles = (if w then cc.handles + 1 else cc.handles) ∧
      cc2.nodes = upd cc.nodes n { cc.nodes n with CacheData := CacheData.elem cc.next } ∧
      cc2.space = cc.space + (cc.nodes n).size ∧ cc2.capa = cc.capa ∧
      cc2.released = cc.released := by
  have hfresh : cc.next ∉ cc.heap.queue := fun h => lt_irrefl _ (hc.fresh _ h)
  generalize hv : (if w then some cc.handles else none : Option Nat) = v
  have hinv0 := inv_upd_fresh hc.heap hfresh
    { (Element.zero : Element α) with UserData := (some n, v) } rfl
  generalize hh0 : ({ cc.heap with
      elems := upd cc.heap.elems cc.next
        { (Element.zero : Element α) with UserData := (some n, v) } } : RlogcHeap α) = heap0
    at hinv0
  have hq0 : heap0.queue = cc.heap.queue := by rw [← hh0]
  have he0 : heap0.elems cc.next = { (Element.zero : Element α) with UserData := (some n, v) } := by
    rw [← hh0]; exact upd_same _ _ _
  have ho0 : ∀ p, p ≠ cc.next → heap0.elems p = cc.heap.elems p := by
    intro p hp; rw [← hh0]; exact upd_other _ _ _ _ hp
  have hpar : (heap0.elems cc.next).parent = false := by rw [he0]; rfl
  obtain ⟨t, hent, hsame, hinvt, _⟩ := Enter_spec heap0 cc.next hinv0 hpar
  refine ⟨{ cc with
    heap := t, next := cc.next + 1,
    handles := (if w then cc.handles + 1 else cc.handles),
    nodes := upd cc.nodes n { cc.nodes n with CacheData := CacheData.elem cc.next },
    space := cc.space + (cc.nodes n).size }, ?_, ?_⟩
  · unfold rlcCache.admit
    simp only [hv, hh0, hent]
  · refine ⟨hinvt, ?_, ?_, rfl, rfl, rfl, rfl, rfl, rfl⟩
    · intro p
      show p ∈ t.queue ↔ _
      rw [hsame.mem]
      show p ∈ heap0.queue ++ [cc.next] ↔ _
      rw [List.mem_append, List.mem_singleton, hq0]
    · intro p
      show (t.elems p).UserData = _
      rw [hsame.user]
      by_cases hp : p = cc.next
      · rw [if_pos hp, hp]
        have : (enterS heap0 cc.next).elems cc.next =
            { heap0.elems cc.next with
              parent := true
              rank := (heap0.elems cc.next).rank.Enter (heap0.Timer heap0.ticks) heap0.Decay
              index := (heap0.queue.length : Int) } := upd_same _ _ _
        rw [this]
        show (heap0.elems cc.next).UserData = _
        rw [he0]
      · rw [if_neg hp]
        have : (enterS heap0 cc.next).elems p = heap0.elems p := upd_other _ _ _ _ hp
        rw [this, ho0 p hp]

theorem Promote_nil (incr : α → α) (cc : rlcCache α) (n : Nat) (w : Bool)
    (h : (cc.nodes n).CacheData = CacheData.nil) :
    rlcCache.Promote incr cc n w =
      match cc.admit n w with
      | none => none
      | some c => rlcCache.evict (c.heap.queue.length + 1) c := by
  unfold rlcCache.Promote rlcCache.admit
  simp only [h]
  generalize RlogcHeap.Enter
    ({ cc.heap with
      elems := upd cc.heap.elems cc.next
        { (Element.zero : Element α) with
          UserData := (some n, if w then some cc.handles else none) } } : RlogcHeap α)
    cc.next = r
  cases r <;> rfl

/-- Handles across a call that keeps every queued element, its `UserData`, the element
pointers of the nodes and the release log. -/
theorem handover_of_kept (cc cc1 : rlcCache α) (hc : AdapterInv cc)
    (hq : ∀ p, p ∈ cc.heap.queue → p ∈ cc1.heap.queue)
    (hu : ∀ p, p ∈ cc.heap.queue → (cc1.heap.elems p).UserData = (cc.heap.elems p).UserData)
    (hd : ∀ m p, (cc.nodes m).CacheData = CacheData.elem p →
      (cc1.nodes m).CacheData = CacheData.elem p)
    (hr : cc1.released = cc.released) (p h n : Nat) (hp : p ∈ cc.heap.queue)
    (hph : cc.handleOf p = some h) (hpn : cc.payload p = some n) :
    p ∈ cc1.heap.queue ∧ cc1.handleOf p = some h ∧ cc1.payload p = some n ∧
      (cc1.nodes n).CacheData = CacheData.elem p ∧ h ∉ cc1.released := by
  refine ⟨hq p hp, ?_, ?_, hd n p (hc.back p n hp hpn), ?_⟩
  · unfold rlcCache.handleOf; rw [hu p hp]; exact hph
  · unfold rlcCache.payload; rw [hu p hp]; exact hpn
  · rw [hr]; exact (hc.held p h hp hph).2

/-- The admission half of `Promote` on a node whose slot is nil. -/
theorem admit_spec (cc : rlcCache α) (n : Nat) (w : Bool) (hc : AdapterInv cc)
    (hnil : (cc.nodes n).CacheData = CacheData.nil) :
    ∃ cc2, cc.admit n w = some cc2 ∧ AdapterInv cc2 ∧ SameHost cc cc2 ∧ cc2.capa = cc.capa ∧
      KeepsBans cc cc2 ∧
      (∀ p h m, p ∈ cc.heap.queue → cc.handleOf p = some h → cc.payload p = some m →
        p ∈ cc2.heap.queue ∧ cc2.handleOf p = some h ∧ cc2.payload p = some m ∧
          (cc2.nodes m).CacheData = CacheData.elem p ∧ h ∉ cc2.released) := by
  obtain ⟨cc2, hrun, hinv, hmem, huser, hnext, hhand, hnodes, hspace, hcapa, hrel⟩ :=
    admit_shape cc n w hc
  have hfresh : ∀ p, p ∈ cc.heap.queue → p ≠ cc.next :=
    fun p hp hh => lt_irrefl _ (hh ▸ hc.fresh p hp)
  have hfresh2 : cc.next ∉ cc.heap.queue := fun h => hfresh _ h rfl
  have hpayE : cc2.payload cc.next = some n := by
    unfold rlcCache.payload; rw [huser, if_pos rfl]
  have hhanE : cc2.handleOf cc.next = if w then some cc.handles else none := by
    unfold rlcCache.handleOf; rw [huser, if_pos rfl]
  have hpay : ∀ p, p ≠ cc.next → cc2.payload p = cc.payload p := by
    intro p hp; unfold rlcCache.payload; rw [huser, if_neg hp]
  have hhan : ∀ p, p ≠ cc.next → cc2.handleOf p = cc.handleOf p := by
    intro p hp; unfold rlcCache.handleOf; rw [huser, if_neg hp]
  have hdata : ∀ m, (cc2.nodes m).CacheData =
      if m = n then CacheData.elem cc.next else (cc.nodes m).CacheData := by
    intro m
    rw [hnodes]
    unfold upd
    split_ifs <;> rfl
  have hhost : SameHost cc cc2 := by
    intro m
    rw [hnodes]
    unfold upd
    split_ifs with h
    · rw [h]; exact ⟨rfl, rfl⟩
    · exact ⟨rfl, rfl⟩
  have hle : cc.handles ≤ cc2.handles := by
    rw [hhand]; split_ifs <;> omega
  have hnotn : ∀ m p, (cc.nodes m).CacheData = CacheData.elem p → m ≠ n := by
    intro m p h hmn
    rw [hmn, hnil] at h
    exact CacheData.noConfusion h
  have hnewh : ∀ h, cc2.handleOf cc.next = some h → h = cc.handles ∧ w = true := by
    intro h hh
    rw [hhanE] at hh
    cases w with
    | false => exact Option.noConfusion hh
    | true => exact ⟨(Option.some.inj hh).symm, rfl⟩
  have hinvA : AdapterInv cc2 := by
    refine ⟨hinv, ?_, ?_, ?_, ?_, ?_, ?_, ?_, ?_, ?_, ?_⟩
    · intro p hp
      rw [hnext]
      rcases (hmem p).1 hp with h | h
      · exact Nat.lt_succ_of_lt (hc.fresh p h)
      · rw [h]; exact Nat.lt_succ_self _
    · intro p m hp hpm
      rw [hdata]
      rcases (hmem p).1 hp with h | h
      · rw [hpay p (hfresh p h)] at hpm
        have hb := hc.back p m h hpm
        rw [if_neg (hnotn m p hb)]
        exact hb
      · rw [h, hpayE] at hpm
        rw [if_pos (Option.some.inj hpm).symm, h]
    · intro m p hmp
      rw [hdata] at hmp
      by_cases hmn : m = n
      · rw [if_pos hmn] at hmp
        have hpe : p = cc.next := (CacheData.elem.inj hmp).symm
        rw [hpe, hmn]
        exact ⟨(hmem _).2 (Or.inr rfl), hpayE⟩
      · rw [if_neg hmn] at hmp
        obtain ⟨g1, g2⟩ := hc.fwd m p hmp
        exact ⟨(hmem _).2 (Or.inl g1), by rw [hpay p (hfresh p g1)]; exact g2⟩
    · rw [hspace, hc.space]
      unfold rlcCache.accounted
      have hwe : cc2.weight cc.next = (cc.nodes n).size := by
        unfold rlcCache.weight
        rw [hpayE]
        exact (hhost n).1
      rw [← hwe]
      refine (sum_account cc.heap.queue cc2.heap.queue cc.weight cc2.weight cc.next
        (slots_nodup hc.heap.1) (slots_nodup hinv.1) hmem hfresh2 (fun p hp => ?_)).symm
      unfold rlcCache.weight
      rw [hpay p (hfresh p hp)]
      cases cc.payload p with
      | none => rfl
      | some k => exact (hhost k).1
    · intro p hp hpn
      rcases (hmem p).1 hp with h | h
      · rw [hhan p (hfresh p h)]
        rw [hpay p (hfresh p h)] at hpn
        exact hc.tomb p h hpn
      · rw [h, hpayE] at hpn
        exact Option.noConfusion hpn
    · intro p h hp hph
      rw [hrel]
      rcases (hmem p).1 hp with g | g
      · rw [hhan p (hfresh p g)] at hph
        obtain ⟨g1, g2⟩ := hc.held p h g hph
        exact ⟨lt_of_lt_of_le g1 hle, g2⟩
      · rw [g] at hph
        obtain ⟨e1, e2⟩ := hnewh h hph
        refine ⟨?_, fun hr => ?_⟩
        · rw [hhand, e2, e1]; simp
        · have := hc.relIssued h hr
          omega
    · intro p q h hp hq hph hqh
      rcases (hmem p).1 hp with g | g <;> rcases (hmem q).1 hq with k | k
      · rw [hhan p (hfresh p g)] at hph
        rw [hhan q (hfresh q k)] at hqh
        exact hc.hinj p q h g k hph hqh
      · rw [hhan p (hfresh p g)] at hph
        rw [k] at hqh
        have := (hc.held p h g hph).1
        have := (hnewh h hqh).1
        omega
      · rw [hhan q (hfresh q k)] at hqh
        rw [g] at hph
        have := (hc.held q h k hqh).1
        have := (hnewh h hph).1
        omega
      · rw [g, k]
    · rw [hrel]; exact hc.relNodup
    · intro h hr
      rw [hrel] at hr
      exact lt_of_lt_of_le (hc.relIssued h hr) hle
    · intro h hh
      rw [hrel]
      by_cases hlt : h < cc.handles
      · rcases hc.issued h hlt with hr | ⟨p, hp, hph⟩
        · exact Or.inl hr
        · exact Or.inr ⟨p, (hmem p).2 (Or.inl hp), by rw [hhan p (hfresh p hp)]; exact hph⟩
      · have hw : w = true := by
          cases w with
          | false => rw [hhand] at hh; simp at hh; omega
          | true => rfl
        have hhe : h = cc.handles := by
          rw [hhand, hw] at hh
          simp at hh
          omega
        refine Or.inr ⟨cc.next, (hmem _).2 (Or.inr rfl), ?_⟩
        rw [hhanE, hw, hhe]
        rfl
  refine ⟨cc2, hrun, hinvA, hhost, hcapa, ?_, ?_⟩
  · intro m hm
    rw [hdata, if_neg, hm]
    intro hmn
    rw [hmn, hnil] at hm
    exact CacheData.noConfusion hm
  · intro p h m hp hph hpm
    refine handover_of_kept cc cc2 hc (fun p hp => (hmem p).2 (Or.inl hp)) (fun p hp => ?_)
      (fun m p hmp => ?_) hrel p h m hp hph hpm
    · rw [huser, if_neg (hfresh p hp)]
    · rw [hdata, if_neg (hnotn m p hmp)]; exact hmp

/-- A loop over the borrowed elements whose body keeps the invariant and the queue. -/
theorem foldl_spec (f : rlcCache α → Nat → rlcCache α)
    (hf : ∀ cc e, AdapterInv cc → e ∈ cc.heap.queue →
      AdapterInv (f cc e) ∧ Shrinks cc (f cc e) ∧ KeepsBans cc (f cc e) ∧
        (f cc e).heap.queue = cc.heap.queue) (l : List Nat) :
    ∀ cc : rlcCache α, AdapterInv cc → (∀ e, e ∈ l → e ∈ cc.heap.queue) →
      AdapterInv (l.foldl f cc) ∧ Shrinks cc (l.foldl f cc) ∧ KeepsBans cc (l.foldl f cc) ∧
        (l.foldl f cc).heap.queue = cc.heap.queue := by
  induction l with
  | nil => intro cc hc _; exact ⟨hc, shrinks_refl cc, keepsBans_refl cc, rfl⟩
  | cons e l ih =>
    intro cc hc hl
    obtain ⟨g1, g2, g3, g4⟩ := hf cc e hc (hl e (List.mem_cons_self _ _))
    obtain ⟨k1, k2, k3, k4⟩ := ih (f cc e) g1
      (fun x hx => by rw [g4]; exact hl x (List.mem_cons_of_mem _ hx))
    exact ⟨k1, shrinks_trans g2 k2, keepsBans_trans g3 k3, k4.trans g4⟩

theorem evictNSStep_spec (ns : Nat) (cc : rlcCache α) (e : Nat) (hc : AdapterInv cc)
    (he : e ∈ cc.heap.queue) :
    AdapterInv (rlcCache.evictNSStep ns cc e) ∧ Shrinks cc (rlcCache.evictNSStep ns cc e) ∧
      KeepsBans cc (rlcCache.evictNSStep ns cc e) ∧
      (rlcCache.evictNSStep ns cc e).heap.queue = cc.heap.queue := by
  unfold rlcCache.evictNSStep
  cases (cc.heap.elems e).UserData.1 with
  | none => exact ⟨hc, shrinks_refl cc, keepsBans_refl cc, rfl⟩
  | some n =>
    simp only []
    split_ifs
    · exact ⟨hc, shrinks_refl cc, keepsBans_refl cc, rfl⟩
    · exact clear_inv cc e hc he

theorem EvictNS_spec (cc : rlcCache α) (ns : Nat) (hc : AdapterInv cc) :
    AdapterInv (cc.EvictNS ns) ∧ Shrinks cc (cc.EvictNS ns) ∧ KeepsBans cc (cc.EvictNS ns) :=
  have h := foldl_spec (rlcCache.evictNSStep ns) (evictNSStep_spec ns) cc.heap.queue cc hc
    (fun _ h => h)
  ⟨h.1, h.2.1, h.2.2.1⟩

theorem EvictAll_spec (cc : rlcCache α) (hc : AdapterInv cc) :
    AdapterInv cc.EvictAll ∧ Shrinks cc cc.EvictAll ∧ KeepsBans cc cc.EvictAll :=
  have h := foldl_spec rlcCache.clear clear_inv cc.heap.queue cc hc (fun _ h => h)
  ⟨h.1, h.2.1, h.2.2.1⟩

theorem accounted_empty (cc : rlcCache α) (h : cc.heap.queue = []) : cc.accounted = 0 := by
  unfold rlcCache.accounted
  rw [h]
  rfl

/-- What a call that only drops entries gives for the claims. -/
theorem spec_of_shrinks (cc cc1 : rlcCache α) (hc : AdapterInv cc) (hc1 : AdapterInv cc1)
    (hs : Shrinks cc cc1) :
    SameHost cc cc1 ∧
      ((∀ m, 0 ≤ (cc.nodes m).size) → 0 ≤ cc.capa → cc.space ≤ cc.capa →
        0 ≤ cc1.capa ∧ cc1.space ≤ cc1.capa) ∧
      Handover cc cc1 := by
  refine ⟨hs.host, fun h1 h2 h3 => ?_, handover_of_shrinks cc cc1 hc hc1 hs⟩
  rw [hs.capa]
  exact ⟨h2, le_trans (hs.space h1) h3⟩

/-- Every adapter call returns on an invariant state and keeps the invariant; bans stay
unless the call is `Evict` of the banned node; with sizes and capacity non-negative an
admissible call keeps `space <= capa`; handles are handed over. -/
theorem adapterOp_spec (incr : α → α) (cc : rlcCache α) (hc : AdapterInv cc) (op : AdapterOp) :
    ∃ cc1, op.run incr cc = some cc1 ∧ AdapterInv cc1 ∧ SameHost cc cc1 ∧
      (∀ m, op ≠ AdapterOp.evict m → (cc.nodes m).CacheData = CacheData.banned →
        (cc1.nodes m).CacheData = CacheData.banned) ∧
      ((∀ m, 0 ≤ (cc.nodes m).size) → 0 ≤ cc.capa → cc.space ≤ cc.capa →
        op.admissible cc = true → 0 ≤ cc1.capa ∧ cc1.space ≤ cc1.capa) ∧
      Handover cc cc1 := by
  cases op with
  | capacity =>
    obtain ⟨g1, g2, g3⟩ := spec_of_shrinks cc cc hc hc (shrinks_refl cc)
    exact ⟨cc, rfl, hc, g1, fun _ _ h => h, fun h1 h2 h3 _ => g2 h1 h2 h3, g3⟩
  | setCapacity c =>
    have hc1 : AdapterInv (rlcCache.SetCapacity cc c) :=
      adapterInv_transfer cc _ hc hc.heap (fun _ => Iff.rfl) (fun _ => rfl)
        (fun _ => ⟨rfl, rfl⟩) (fun _ _ => Iff.rfl) rfl rfl rfl rfl
    refine ⟨_, rfl, hc1, fun _ => ⟨rfl, rfl⟩, fun _ _ h => h, fun _ _ _ ha => ?_,
      fun p h n hp hph hpn => Or.inl (handover_of_kept cc _ hc (fun _ h => h) (fun _ _ => rfl)
        (fun _ _ h => h) rfl p h n hp hph hpn)⟩
    have : decide (0 ≤ c ∧ cc.space ≤ c) = true := ha
    exact of_decide_eq_true this
  | promote n w =>
    cases hcd : (cc.nodes n).CacheData with
    | banned =>
      have hrun : rlcCache.Promote incr cc n w = some cc := by
        unfold rlcCache.Promote; simp only [hcd]
      obtain ⟨g1, g2, g3⟩ := spec_of_shrinks cc cc hc hc (shrinks_refl cc)
      exact ⟨cc, hrun, hc, g1, fun _ _ h => h, fun h1 h2 h3 _ => g2 h1 h2 h3, g3⟩
    | elem e =>
      obtain ⟨cc1, hrun, hc1, hs, hk, _⟩ := promote_elem_spec incr cc n e w hc hcd
      obtain ⟨g1, g2, g3⟩ := spec_of_shrinks cc cc1 hc hc1 hs
      exact ⟨cc1, hrun, hc1, g1, fun m _ h => hk m h, fun h1 h2 h3 _ => g2 h1 h2 h3, g3⟩
    | nil =>
      obtain ⟨cc2, hadm, hc2, hhost, hcapa, hk2, hkept⟩ := admit_spec cc n w hc hcd
      obtain ⟨cc1, hev, hc1, hs, hk1, hex⟩ :=
        evict_spec (cc2.heap.queue.length + 1) cc2 hc2 (Nat.lt_succ_self _)
      have hrun : rlcCache.Promote incr cc n w = some cc1 := by
        rw [Promote_nil incr cc n w hcd, hadm]
        exact hev
      refine ⟨cc1, hrun, hc1, ?_, fun m _ h => hk1 m (hk2 m h), fun _ h2 _ _ => ?_, ?_⟩
      · intro m
        exact ⟨((hs.host m).1).trans (hhost m).1, ((hs.host m).2).trans (hhost m).2⟩
      · have hcp : cc1.capa = cc.capa := hs.capa.trans hcapa
        refine ⟨by rw [hcp]; exact h2, ?_⟩
        rcases hex with h | h
        · exact h
        · rw [hc1.space, accounted_empty cc1 h, hcp]
          exact h2
      · intro p h m hp hph hpm
        obtain ⟨k1, k2, k3, _, _⟩ := hkept p h m hp hph hpm
        exact handover_of_shrinks cc2 cc1 hc2 hc1 hs p h m k1 k2 k3
  | ban n =>
    obtain ⟨hc1, hs, hk, _⟩ := nevict_spec cc n CacheData.banned hc
      (fun _ h => CacheData.noConfusion h)
    obtain ⟨g1, g2, g3⟩ := spec_of_shrinks cc _ hc hc1 hs
    exact ⟨_, rfl, hc1, g1, fun m _ h => hk m (Or.inr rfl) h, fun h1 h2 h3 _ => g2 h1 h2 h3, g3⟩
  | evict n =>
    obtain ⟨hc1, hs, hk, _⟩ := nevict_spec cc n CacheData.nil hc
      (fun _ h => CacheData.noConfusion h)
    obtain ⟨g1, g2, g3⟩ := spec_of_shrinks cc _ hc hc1 hs
    refine ⟨_, rfl, hc1, g1, fun m hm h => hk m (Or.inl ?_) h, fun h1 h2 h3 _ => g2 h1 h2 h3, g3⟩
    intro hmn
    exact hm (by rw [hmn])
  | evictNS ns =>
    obtain ⟨hc1, hs, hk⟩ := EvictNS_spec cc ns hc
    obtain ⟨g1, g2, g3⟩ := spec_of_shrinks cc _ hc hc1 hs
    exact ⟨_, rfl, hc1, g1, fun m _ h => hk m h, fun h1 h2 h3 _ => g2 h1 h2 h3, g3⟩
  | evictAll =>
    obtain ⟨hc1, hs, hk⟩ := EvictAll_spec cc hc
    obtain ⟨g1, g2, g3⟩ := spec_of_shrinks cc _ hc hc1 hs
    exact ⟨_, rfl, hc1, g1, fun m _ h => hk m h, fun h1 h2 h3 _ => g2 h1 h2 h3, g3⟩

/-- Every sequence of adapter calls returns and keeps the invariant. -/
theorem runAdapter_spec (incr : α → α) (ops : List AdapterOp) :
    ∀ cc : rlcCache α, AdapterInv cc →
      ∃ cc1, runAdapter incr ops cc = some cc1 ∧ AdapterInv cc1 ∧ SameHost cc cc1 ∧
        (∀ m, AdapterOp.evict m ∉ ops → (cc.nodes m).CacheData = CacheData.banned →
          (cc1.nodes m).CacheData = CacheData.banned) ∧
        ((∀ m, 0 ≤ (cc.nodes m).size) → 0 ≤ cc.capa → cc.space ≤ cc.capa →
          admissibleRun incr ops cc = true → 0 ≤ cc1.capa ∧ cc1.space ≤ cc1.capa) := by
  induction ops with
  | nil =>
    intro cc hc
    exact ⟨cc, rfl, hc, fun _ => ⟨rfl, rfl⟩, fun _ _ h => h, fun _ h2 h3 _ => ⟨h2, h3⟩⟩
  | cons op ops ih =>
    intro cc hc
    obtain ⟨cc1, hrun, hc1, hhost, hban, hcap, _⟩ := adapterOp_spec incr cc hc op
    obtain ⟨cc2, hrun2, hc2, hhost2, hban2, hcap2⟩ := ih cc1 hc1
    refine ⟨cc2, ?_, hc2, ?_, ?_, ?_⟩
    · rw [runAdapter]
      simp only [hrun]
      exact hrun2
    · intro m
      exact ⟨((hhost2 m).1).trans (hhost m).1, ((hhost2 m).2).trans (hhost m).2⟩
    · intro m hm hb
      refine hban2 m (fun h => hm (List.mem_cons_of_mem _ h)) (hban m (fun h => ?_) hb)
      exact hm (h ▸ List.mem_cons_self _ _)
    · intro h1 h2 h3 ha
      rw [admissibleRun] at ha
      simp only [hrun, Bool.and_eq_true] at ha
      obtain ⟨k1, k2⟩ := hcap h1 h2 h3 ha.1
      exact hcap2 (fun m => by rw [(hhost m).1]; exact h1 m) k1 k2 ha.2

theorem runAdapter_append (incr : α → α) (a b : List AdapterOp) :
    ∀ cc : rlcCache α, runAdapter incr (a ++ b) cc =
      match runAdapter incr a cc with
      | some cc1 => runAdapter incr b cc1
      | none => none := by
  induction a with
  | nil => intro cc; rfl
  | cons op a ih =>
    intro cc
    show runAdapter incr (op :: (a ++ b)) cc = _
    rw [runAdapter, runAdapter]
    cases op.run incr cc with
    | none => rfl
    | some c => exact ih c

theorem adapterInv_new (decay : α) (timer : Nat → Int) (initCapacity : Int)
    (size : Nat → Int) (ns : Nat → Nat) :
    AdapterInv (NewRlogC decay timer initCapacity size ns) := by
  refine ⟨inv_empty decay timer, ?_, ?_, ?_, rfl, ?_, ?_, ?_, List.nodup_nil, ?_, ?_⟩
  · intro p hp; exact absurd hp (List.not_mem_nil _)
  · intro p n hp; exact absurd hp (List.not_mem_nil _)
  · intro n p h; exact CacheData.noConfusion h
  · intro p hp; exact absurd hp (List.not_mem_nil _)
  · intro p h hp; exact absurd hp (List.not_mem_nil _)
  · intro p q h hp; exact absurd hp (List.not_mem_nil _)
  · intro h hh; exact absurd hh (List.not_mem_nil _)
  · intro h hh; exact absurd hh (Nat.not_lt_zero _)

/-- Capacity and `space` across one adapter call: `SetCapacity(c)` stores `c` and leaves
`space`; every other call leaves the capacity and keeps `space <= capa`; a `Promote` that
admits its node ends with `space <= capa` whatever held before. -/
theorem adapterOp_capacity (incr : α → α) (cc cc1 : rlcCache α) (hc : AdapterInv cc)
    (op : AdapterOp) (hrun : op.run incr cc = some cc1) :
    (∀ c, op = AdapterOp.setCapacity c → cc1.capa = c ∧ cc1.space = cc.space) ∧
    ((∀ c, op ≠ AdapterOp.setCapacity c) → cc1.capa = cc.capa) ∧
    ((∀ c, op ≠ AdapterOp.setCapacity c) → (∀ m, 0 ≤ (cc.nodes m).size) → 0 ≤ cc.capa →
      cc.space ≤ cc.capa → cc1.space ≤ cc1.capa) ∧
    (∀ n w, op = AdapterOp.promote n w → (cc.nodes n).CacheData = CacheData.nil →
      0 ≤ cc.capa → cc1.space ≤ cc1.capa) := by
  have hthird : (∀ c, op ≠ AdapterOp.setCapacity c) → (∀ m, 0 ≤ (cc.nodes m).size) →
      0 ≤ cc.capa → cc.space ≤ cc.capa → cc1.space ≤ cc1.capa := by
    intro hne h1 h2 h3
    obtain ⟨cc2, hrun2, _, _, _, hcap, _⟩ := adapterOp_spec incr cc hc op
    have he : cc2 = cc1 := by
      rw [hrun2] at hrun
      exact Option.some.inj hrun
    rw [← he]
    refine (hcap h1 h2 h3 ?_).2
    cases op with
    | setCapacity c => exact absurd rfl (hne c)
    | capacity => rfl
    | promote n w => rfl
    | ban n => rfl
    | evict n => rfl
    | evictNS ns => rfl
    | evictAll => rfl
  refine ⟨?_, ?_, hthird, ?_⟩
  · intro c hop
    rw [hop] at hrun
    have he : rlcCache.SetCapacity cc c = cc1 := Option.some.inj hrun
    rw [← he]
    exact ⟨rfl, rfl⟩
  · intro hne
    cases op with
    | setCapacity c => exact absurd rfl (hne c)
    | capacity =>
      have he : cc = cc1 := Option.some.inj hrun
      rw [he]
    | promote n w =>
      have hrun0 : rlcCache.Promote incr cc n w = some cc1 := hrun
      cases hcd : (cc.nodes n).CacheData with
      | banned =>
        have hr : rlcCache.Promote incr cc n w = some cc := by
          unfold rlcCache.Promote; simp only [hcd]
        rw [hr] at hrun0
        rw [← Option.some.inj hrun0]
      | elem e =>
        obtain ⟨cc2, hr, _, hs, _, _⟩ := promote_elem_spec incr cc n e w hc hcd
        rw [hr] at hrun0
        rw [← Option.some.inj hrun0]
        exact hs.capa
      | nil =>
        obtain ⟨cc2, hadm, hc2, _, hcapa, _, _⟩ := admit_spec cc n w hc hcd
        obtain ⟨cc3, hev, _, hs, _, _⟩ :=
          evict_spec (cc2.heap.queue.length + 1) cc2 hc2 (Nat.lt_succ_self _)
        have hr : rlcCache.Promote incr cc n w = some cc3 := by
          rw [Promote_nil incr cc n w hcd, hadm]
          exact hev
        rw [hr] at hrun0
        rw [← Option.some.inj hrun0]
        exact hs.capa.trans hcapa
    | ban n =>
      obtain ⟨_, hs, _, _⟩ := nevict_spec cc n CacheData.banned hc
        (fun _ h => CacheData.noConfusion h)
      have he : rlcCache.Ban cc n = cc1 := Option.some.inj hrun
      rw [← he]
      exact hs.capa
    | evict n =>
      obtain ⟨_, hs, _, _⟩ := nevict_spec cc n CacheData.nil hc
        (fun _ h => CacheData.noConfusion h)
      have he : rlcCache.Evict cc n = cc1 := Option.some.inj hrun
      rw [← he]
      exact hs.capa
    | evictNS ns =>
      obtain ⟨_, hs, _⟩ := EvictNS_spec cc ns hc
      have he : rlcCache.EvictNS cc ns = cc1 := Option.some.inj hrun
      rw [← he]
      exact hs.capa
    | evictAll =>
      obtain ⟨_, hs, _⟩ := EvictAll_spec cc hc
      have he : rlcCache.EvictAll cc = cc1 := Option.some.inj hrun
      rw [← he]
      exact hs.capa
  · intro n w hop hcd h2
    rw [hop] at hrun
    have hrun0 : rlcCache.Promote incr cc n w = some cc1 := hrun
    obtain ⟨cc2, hadm, hc2, _, hcapa, _, _⟩ := admit_spec cc n w hc hcd
    obtain ⟨cc3, hev, hc3, hs, _, hex⟩ :=
      evict_spec (cc2.heap.queue.length + 1) cc2 hc2 (Nat.lt_succ_self _)
    have hr : rlcCache.Promote incr cc n w = some cc3 := by
      rw [Promote_nil incr cc n w hcd, hadm]
      exact hev
    rw [hr] at hrun0
    rw [← Option.some.inj hrun0]
    rcases hex with h | h
    · exact h
    · rw [hc3.space, accounted_empty cc3 h, hs.capa.trans hcapa]
      exact h2

/-- The capacity stays non-negative along calls whose `SetCapacity` arguments are
non-negative. -/
theorem runAdapter_capa (incr : α → α) (ops : List AdapterOp) :
    ∀ cc cc1 : rlcCache α, AdapterInv cc → 0 ≤ cc.capa →
      (∀ c, AdapterOp.setCapacity c ∈ ops → 0 ≤ c) →
      runAdapter incr ops cc = some cc1 → 0 ≤ cc1.capa := by
  induction ops with
  | nil =>
    intro cc cc1 _ h0 _ hrun
    have he : cc = cc1 := Option.some.inj hrun
    rw [← he]
    exact h0
  | cons op ops ih =>
    intro cc cc1 hc h0 hcs hrun
    obtain ⟨cc2, hrun2, hc2, _, _, _, _⟩ := adapterOp_spec incr cc hc op
    rw [runAdapter] at hrun
    simp only [hrun2] at hrun
    obtain ⟨g1, g2, _, _⟩ := adapterOp_capacity incr cc cc2 hc op hrun2
    refine ih cc2 cc1 hc2 ?_ (fun c h => hcs c (List.mem_cons_of_mem _ h)) hrun
    by_cases hop : ∃ c, op = AdapterOp.setCapacity c
    · obtain ⟨c, hopc⟩ := hop
      rw [(g1 c hopc).1]
      exact hcs c (hopc ▸ List.mem_cons_self _ _)
    · rw [g2 (fun c h => hop ⟨c, h⟩)]
      exact h0

end Adapter4

section AdapterClaims

variable {α : Type} [LinearOrderedRing α]

/-- C13: after every sequence of `Capacity`, `SetCapacity`, `Promote`, `Ban`, `Evict`,
`EvictNS` and `EvictAll` on an adapter made by `NewRlogC` the run has returned, `space` is
the sum of `node.Size()` over the queued elements whose node slot is non-nil (sizes being
those the host fixed), and `n.CacheData` points to `p` exactly when `p` is queued with `n`
in `UserData[0]`. -/
theorem adapter_size_accounting (incr : α → α) (decay : α) (timer : Nat → Int)
    (initCapacity : Int) (size : Nat → Int) (ns : Nat → Nat) (ops : List AdapterOp) :
    ∃ cc, runAdapter incr ops (NewRlogC decay timer initCapacity size ns) = some cc ∧
      cc.space = cc.accounted ∧
      (∀ m, (cc.nodes m).size = size m) ∧
      (∀ n p, (cc.nodes n).CacheData = CacheData.elem p ↔
        p ∈ cc.heap.queue ∧ cc.payload p = some n) := by
  obtain ⟨cc, hrun, hc, hhost, _, _⟩ :=
    runAdapter_spec incr ops _ (adapterInv_new decay timer initCapacity size ns)
  exact ⟨cc, hrun, hc.space, fun m => (hhost m).1,
    fun n p => ⟨hc.fwd n p, fun h => hc.back p n h.1 h.2⟩⟩

/-- C14, as stated, fails: with capacity 100 and a node of size 40, `Promote(n0)` then
`SetCapacity(10)` (with `10 >= 0`) completes in a state with `space = 40 > 10 = capa`. -/
theorem SetCapacity_breaks_bound :
    (runAdapter (fun x : Int => x + 1) [AdapterOp.promote 0 true, AdapterOp.setCapacity 10]
      (NewRlogC (-1) (fun n => (n : Int)) 100 (fun _ => 40) (fun _ => 0))).map
      (fun cc => (cc.space, cc.capa, decide (cc.space ≤ cc.capa))) = some (40, 10, false) := by
  decide

/-- C14, amended.  With `initCapacity >= 0`, node sizes `>= 0` and every `SetCapacity(c)`
called with `c >= 0`: every sequence of calls `ops` followed by one more call `op` returns,
the capacity stays `>= 0`, and for the states `cc` before and `cc1` after `op`:
after `op = SetCapacity(c)` the bound `space <= capa` holds exactly when `space <= c` held
at the call (so a `SetCapacity` below `space` breaks it and a later one at or above `space`
restores it); after a `Promote` of a node whose `CacheData` is nil the bound holds, whatever
held before (the drain restores it); every other call keeps the bound if it held before.
In particular the bound holds after a sequence in which each `SetCapacity(c)` has
`c >= space` at the time of the call. -/
theorem adapter_capacity_bound (incr : α → α) (decay : α) (timer : Nat → Int)
    (initCapacity : Int) (size : Nat → Int) (ns : Nat → Nat) (ops : List AdapterOp)
    (op : AdapterOp) (hc : 0 ≤ initCapacity) (hs : ∀ n, 0 ≤ size n)
    (hcs : ∀ c, AdapterOp.setCapacity c ∈ ops ++ [op] → 0 ≤ c) :
    ∃ cc cc1, runAdapter incr ops (NewRlogC decay timer initCapacity size ns) = some cc ∧
      op.run incr cc = some cc1 ∧
      runAdapter incr (ops ++ [op]) (NewRlogC decay timer initCapacity size ns) = some cc1 ∧
      0 ≤ cc.capa ∧ 0 ≤ cc1.capa ∧
      (∀ c, op = AdapterOp.setCapacity c → (cc1.space ≤ cc1.capa ↔ cc.space ≤ c)) ∧
      (∀ n w, op = AdapterOp.promote n w → (cc.nodes n).CacheData = CacheData.nil →
        cc1.space ≤ cc1.capa) ∧
      ((∀ c, op ≠ AdapterOp.setCapacity c) → cc.space ≤ cc.capa → cc1.space ≤ cc1.capa) ∧
      (admissibleRun incr (ops ++ [op]) (NewRlogC decay timer initCapacity size ns) = true →
        cc1.space ≤ cc1.capa) := by
  have hnew := adapterInv_new decay timer initCapacity size ns
  obtain ⟨cc, hrun, hcc, hhost, _, _⟩ := runAdapter_spec incr ops _ hnew
  obtain ⟨cc1, hrun1, hcc1, _, _, _, _⟩ := adapterOp_spec incr cc hcc op
  have hall : runAdapter incr (ops ++ [op]) (NewRlogC decay timer initCapacity size ns) =
      some cc1 := by
    rw [runAdapter_append, hrun]
    show runAdapter incr [op] cc = some cc1
    rw [runAdapter]
    simp only [hrun1]
    rfl
  have hsz : ∀ m, 0 ≤ (cc.nodes m).size := fun m => by rw [(hhost m).1]; exact hs m
  have h0 : 0 ≤ cc.capa :=
    runAdapter_capa incr ops _ cc hnew hc
      (fun c h => hcs c (List.mem_append_left _ h)) hrun
  have h1 : 0 ≤ cc1.capa := runAdapter_capa incr (ops ++ [op]) _ cc1 hnew hc hcs hall
  obtain ⟨g1, _, g3, g4⟩ := adapterOp_capacity incr cc cc1 hcc op hrun1
  refine ⟨cc, cc1, hrun, hrun1, hall, h0, h1, fun c hop => ?_, fun n w hop hcd => ?_,
    fun hne hb => g3 hne hsz h0 hb, fun ha => ?_⟩
  · obtain ⟨k1, k2⟩ := g1 c hop
    rw [k1, k2]
  · exact g4 n w hop hcd h0
  · obtain ⟨cc2, hrun2, _, _, _, hcap⟩ := runAdapter_spec incr (ops ++ [op]) _ hnew
    have he : cc2 = cc1 := by
      rw [hrun2] at hall
      exact Option.some.inj hall
    rw [← he]
    exact (hcap hs hc hc ha).2

/-- Witness for C14: after `Promote(n0); Promote(n1); SetCapacity(10)` (sizes 40, initial
capacity 100) `space = 80 > 10`; the next call `Promote(n2)` admits `n2`, drains, and ends
with `space <= capa`. -/
theorem adapter_capacity_bound_witness :
    (0 : Int) ≤ 100 ∧
    (runAdapter (fun x : Int => x + 1)
      [AdapterOp.promote 0 true, AdapterOp.promote 1 true, AdapterOp.setCapacity 10]
      (NewRlogC (-1) (fun n => (n : Int)) 100 (fun _ => 40) (fun _ => 0))).map
      (fun cc => (cc.space, cc.capa, (cc.nodes 2).CacheData)) = some (80, 10, CacheData.nil) ∧
    ∃ cc1, runAdapter (fun x : Int => x + 1)
        ([AdapterOp.promote 0 true, AdapterOp.promote 1 true, AdapterOp.setCapacity 10] ++
          [AdapterOp.promote 2 true])
        (NewRlogC (-1) (fun n => (n : Int)) 100 (fun _ => 40) (fun _ => 0)) = some cc1 ∧
      0 ≤ cc1.capa ∧ cc1.space ≤ cc1.capa := by
  obtain ⟨cc, cc1, hrun, _, hall, _, h1, _, hp, _, _⟩ :=
    adapter_capacity_bound (fun x : Int => x + 1) (-1) (fun n => (n : Int)) 100 (fun _ => 40)
      (fun _ => 0)
      [AdapterOp.promote 0 true, AdapterOp.promote 1 true, AdapterOp.setCapacity 10]
      (AdapterOp.promote 2 true) (by decide) (fun _ => show (0 : Int) ≤ 40 by decide)
      (by
        intro c h
        have h2 : c = 10 := by simpa using h
        rw [h2]
        decide)
  have hcd : (cc.nodes 2).CacheData = CacheData.nil := by
    have h3 : (runAdapter (fun x : Int => x + 1)
        [AdapterOp.promote 0 true, AdapterOp.promote 1 true, AdapterOp.setCapacity 10]
        (NewRlogC (-1) (fun n => (n : Int)) 100 (fun _ => 40) (fun _ => 0))).map
        (fun cc => (cc.nodes 2).CacheData) = some CacheData.nil := by decide
    rw [hrun] at h3
    exact Option.some.inj h3
  exact ⟨by decide, by decide, cc1, hall, h1, hp 2 true rfl hcd⟩

/-- C15, as stated, fails: after `Ban(n0)` has completed, `Evict(n0)` stores nil in
`n0.CacheData` and the next `Promote(n0)` admits the node: an element with payload `n0` is
queued and `n0.Size() = 40` is added to `space`. -/
theorem Evict_lifts_ban :
    (runAdapter (fun x : Int => x + 1) [AdapterOp.ban 0]
      (NewRlogC (-1) (fun n => (n : Int)) 100 (fun _ => 40) (fun _ => 0))).map
      (fun cc => ((cc.nodes 0).CacheData, cc.space)) = some (CacheData.banned, 0) ∧
    (runAdapter (fun x : Int => x + 1)
      [AdapterOp.ban 0, AdapterOp.evict 0, AdapterOp.promote 0 true]
      (NewRlogC (-1) (fun n => (n : Int)) 100 (fun _ => 40) (fun _ => 0))).map
      (fun cc => ((cc.nodes 0).CacheData, cc.heap.queue, cc.payload 0, cc.space)) =
        some (CacheData.elem 0, [0], some 0, 40) := by
  decide

/-- C15, amended: once `Ban(n)` has completed, after every later sequence of calls that
holds no `Evict(n)` (calls on other nodes, and `Promote`, `Ban`, `EvictNS`, `EvictAll`,
`SetCapacity` in any number) the run has returned, `n.CacheData` is still `banned`, no
queued element has `n` as payload, and `Promote(n)` returns the state unchanged. -/
theorem ban_permanent (incr : α → α) (decay : α) (timer : Nat → Int) (initCapacity : Int)
    (size : Nat → Int) (ns : Nat → Nat) (before later : List AdapterOp) (n : Nat)
    (h : AdapterOp.evict n ∉ later) :
    ∃ cc, runAdapter incr (before ++ AdapterOp.ban n :: later)
        (NewRlogC decay timer initCapacity size ns) = some cc ∧
      (cc.nodes n).CacheData = CacheData.banned ∧
      (∀ p, p ∈ cc.heap.queue → cc.payload p ≠ some n) ∧
      ∀ w, rlcCache.Promote incr cc n w = some cc := by
  obtain ⟨cc0, hrun0, hc0, _, _, _⟩ :=
    runAdapter_spec incr before _ (adapterInv_new decay timer initCapacity size ns)
  obtain ⟨hc1, _, _, hban⟩ := nevict_spec cc0 n CacheData.banned hc0
    (fun _ hh => CacheData.noConfusion hh)
  obtain ⟨cc, hrun, hc, _, hkeep, _⟩ := runAdapter_spec incr later _ hc1
  have hb : (cc.nodes n).CacheData = CacheData.banned := hkeep n h hban
  refine ⟨cc, ?_, hb, fun p hp hpn => ?_, fun w => ?_⟩
  · rw [runAdapter_append, hrun0]
    show runAdapter incr (AdapterOp.ban n :: later) cc0 = some cc
    rw [runAdapter]
    exact hrun
  · have := hc.back p n hp hpn
    rw [hb] at this
    exact CacheData.noConfusion this
  · unfold rlcCache.Promote
    simp only [hb]

theorem ban_permanent_witness :
    AdapterOp.evict 0 ∉
        [AdapterOp.promote 0 true, AdapterOp.evict 1, AdapterOp.ban 0, AdapterOp.evictAll] ∧
      ∃ cc, runAdapter (fun x : Int => x + 1)
          ([AdapterOp.promote 0 true, AdapterOp.promote 1 false] ++ AdapterOp.ban 0 ::
            [AdapterOp.promote 0 true, AdapterOp.evict 1, AdapterOp.ban 0, AdapterOp.evictAll])
          (NewRlogC (-1) (fun n => (n : Int)) 100 (fun _ => 40) (fun _ => 0)) = some cc ∧
        (cc.nodes 0).CacheData = CacheData.banned ∧
        (∀ p, p ∈ cc.heap.queue → cc.payload p ≠ some 0) ∧
        ∀ w, rlcCache.Promote (fun x : Int => x + 1) cc 0 w = some cc :=
  ⟨by decide,
    ban_permanent (fun x : Int => x + 1) (-1) (fun n => (n : Int)) 100 (fun _ => 40)
      (fun _ => 0) _ _ 0 (by decide)⟩

/-- C16: after every sequence of adapter calls `ops` followed by one more call, both
return; the release log holds no handle twice and only handles that were issued; an issued
handle is in the log exactly when no queued element holds it; an element that holds a
handle is the element of a node whose `CacheData` points back to it; no two queued elements
hold the same handle or stand for the same node; and a handle held before the last call is
either still held by the same element for the same, still accounted node and unreleased, or
it is released in that call, with its element a tombstone and its node pointing to no
element. -/
theorem handles_released_once (incr : α → α) (decay : α) (timer : Nat → Int)
    (initCapacity : Int) (size : Nat → Int) (ns : Nat → Nat) (ops : List AdapterOp)
    (op : AdapterOp) :
    ∃ cc cc1, runAdapter incr ops (NewRlogC decay timer initCapacity size ns) = some cc ∧
      op.run incr cc = some cc1 ∧
      cc1.released.Nodup ∧
      (∀ h, h ∈ cc1.released → h < cc1.handles) ∧
      (∀ h, h < cc1.handles →
        (h ∈ cc1.released ↔ ¬ ∃ p, p ∈ cc1.heap.queue ∧ cc1.handleOf p = some h)) ∧
      (∀ p h, p ∈ cc1.heap.queue → cc1.handleOf p = some h →
        ∃ n, cc1.payload p = some n ∧ (cc1.nodes n).CacheData = CacheData.elem p) ∧
      (∀ p q h, p ∈ cc1.heap.queue → q ∈ cc1.heap.queue → cc1.handleOf p = some h →
        cc1.handleOf q = some h → p = q) ∧
      (∀ p q n, p ∈ cc1.heap.queue → q ∈ cc1.heap.queue → cc1.payload p = some n →
        cc1.payload q = some n → p = q) ∧
      Handover cc cc1 := by
  obtain ⟨cc, hrun, hc, _, _, _⟩ :=
    runAdapter_spec incr ops _ (adapterInv_new decay timer initCapacity size ns)
  obtain ⟨cc1, hrun1, hc1, _, _, _, hover⟩ := adapterOp_spec incr cc hc op
  refine ⟨cc, cc1, hrun, hrun1, hc1.relNodup, hc1.relIssued, fun h hh => ⟨fun hr hex => ?_,
    fun hne => ?_⟩, fun p h hp hph => ?_, hc1.hinj, fun p q n hp hq hpn hqn => ?_, hover⟩
  · obtain ⟨p, hp, hph⟩ := hex
    exact (hc1.held p h hp hph).2 hr
  · rcases hc1.issued h hh with hr | hex
    · exact hr
    · exact absurd hex hne
  · cases hpn : cc1.payload p with
    | none =>
      have := hc1.tomb p hp hpn
      rw [this] at hph
      exact Option.noConfusion hph
    | some n => exact ⟨n, rfl, hc1.back p n hp hpn⟩
  · have e1 := hc1.back p n hp hpn
    have e2 := hc1.back q n hq hqn
    rw [e1] at e2
    exact CacheData.elem.inj e2

end AdapterClaims

end Rlogc
